import Mathlib

/-!
Shallow embedding of the ABL VS Code extension's core scanner and
diagnostic engine (src/extension.ts), together with proofs of the
specification's testable properties.

Strings are modelled as `List Char`; a document is a `List (List Char)`
(one entry per line, without newline characters).  JavaScript regular
expressions used by the source are translated into explicit character
scans; each definition mirrors one function of the source file and keeps
its name where Lean allows it.
-/

/-- The single-quote character, written via its code point to keep the
development free of escaped character literals. -/
def qc : Char := Char.ofNat 39

/-- JavaScript whitespace test (the ASCII part of the regexp class `\s`):
space, tab, LF, VT, FF, CR. -/
def jsWs (c : Char) : Bool :=
  c = ' ' || c.toNat = 9 || c.toNat = 10 || c.toNat = 11 || c.toNat = 12 || c.toNat = 13

/-- Source `isIdentChar`: the regexp class `[A-Za-z0-9_]`. -/
def isIdentChar (c : Char) : Bool :=
  (('A' ≤ c) && (c ≤ 'Z')) || (('a' ≤ c) && (c ≤ 'z')) || (('0' ≤ c) && (c ≤ '9')) || c = '_'

/-- Source `isAttachPunct`: one of `( ) , ] | ' " !`. -/
def isAttachPunct (c : Char) : Bool :=
  c = '(' || c = ')' || c = ',' || c = ']' || c = '|' || c = qc || c = '"' || c = '!'

/-- ASCII lower-casing, the effect of a `/i` regexp flag on one character. -/
def lowC (c : Char) : Char :=
  if ('A' ≤ c) && (c ≤ 'Z') then Char.ofNat (c.toNat + 32) else c

/-- Case-insensitive character comparison. -/
def eqCI (a b : Char) : Bool := lowC a = lowC b

/-- Literal list-prefix test (JavaScript `startsWith` at offset 0). -/
def litPre : List Char → List Char → Bool
  | [], _ => true
  | _ :: _, [] => false
  | p :: ps, c :: cs => p = c && litPre ps cs

/-- Case-insensitive list-prefix test (a `/i` regexp literal). -/
def litPreCI : List Char → List Char → Bool
  | [], _ => true
  | _ :: _, [] => false
  | p :: ps, c :: cs => eqCI p c && litPreCI ps cs

/-- Number of leading JavaScript-whitespace characters (regexp `^\s*`). -/
def wsLen : List Char → Nat
  | [] => 0
  | c :: cs => if jsWs c then wsLen cs + 1 else 0

/-- Length of the leading identifier-character run (regexp `[A-Za-z0-9_]*`). -/
def identLen : List Char → Nat
  | [] => 0
  | c :: cs => if isIdentChar c then identLen cs + 1 else 0

/-- `true` when every character is JavaScript whitespace: the source's
`!raw.trim()` blank-line test. -/
def isBlank (s : List Char) : Bool := s.all jsWs

/-- Source `isCommentLine` / `isCommentLine2`: the regexp `^[ \t]*#`. -/
def isCommentLine : List Char → Bool
  | [] => false
  | c :: cs => if c = ' ' || c.toNat = 9 then isCommentLine cs else c = '#'

/-- JavaScript `trim` on the left. -/
def trimL : List Char → List Char
  | [] => []
  | c :: cs => if jsWs c then trimL cs else c :: cs

/-- JavaScript `trim` (both ends). -/
def jsTrim (s : List Char) : List Char := (trimL ((trimL s.reverse).reverse))

/-- First index at which `pat` occurs as a contiguous substring
(JavaScript `indexOf`). -/
def idxOfStr : List Char → List Char → Option Nat
  | _, [] => some 0
  | [], _ :: _ => none
  | c :: cs, p :: ps =>
    if litPre (p :: ps) (c :: cs) then some 0
    else match idxOfStr cs (p :: ps) with
      | some n => some (n + 1)
      | none => none

/-- Last index at which `pat` occurs as a contiguous substring
(JavaScript `lastIndexOf`). -/
def lastIdxOfStr : List Char → List Char → Option Nat
  | _, [] => some 0
  | [], _ :: _ => none
  | c :: cs, p :: ps =>
    match lastIdxOfStr cs (p :: ps) with
    | some n => some (n + 1)
    | none => if litPre (p :: ps) (c :: cs) then some 0 else none

/-- Source `stripSingleQuoted2`, inner loop: masks single-quoted spans with
blanks, length-preserving; a doubled quote is consumed as a unit without
toggling the in-quote state. -/
def maskGo : List Char → Bool → List Char
  | [], _ => []
  | c :: rest, inQ =>
    if c = qc then
      match rest with
      | c2 :: r2 =>
        if c2 = qc then ' ' :: ' ' :: maskGo r2 inQ
        else ' ' :: maskGo (c2 :: r2) (!inQ)
      | [] => [' ']
    else (if inQ then ' ' else c) :: maskGo rest inQ

/-- Source `stripSingleQuoted2`. -/
def stripSingleQuoted2 (line : List Char) : List Char := maskGo line false

/-- Source `stripSingleQuoted`, inner loop: removes quote characters and
quoted contents entirely. -/
def stripGo : List Char → Bool → List Char
  | [], _ => []
  | c :: rest, inQ =>
    if c = qc then
      match rest with
      | c2 :: r2 =>
        if c2 = qc then stripGo r2 inQ
        else stripGo (c2 :: r2) (!inQ)
      | [] => []
    else (if inQ then [] else [c]) ++ stripGo rest inQ

/-- Source `stripSingleQuoted`. -/
def stripSingleQuoted (text : List Char) : List Char := stripGo text false

theorem maskGo_cons_ne (c : Char) (rest : List Char) (inQ : Bool) (hc : ¬ (c = qc)) :
    maskGo (c :: rest) inQ = (if inQ then ' ' else c) :: maskGo rest inQ := by
  rw [maskGo.eq_def]; simp [hc]

theorem maskGo_qq (r2 : List Char) (inQ : Bool) :
    maskGo (qc :: qc :: r2) inQ = ' ' :: ' ' :: maskGo r2 inQ := by
  rw [maskGo.eq_def]; simp

theorem maskGo_q_ne (c2 : Char) (r2 : List Char) (inQ : Bool) (hc : ¬ (c2 = qc)) :
    maskGo (qc :: c2 :: r2) inQ = ' ' :: maskGo (c2 :: r2) (!inQ) := by
  rw [maskGo.eq_def]; simp [hc]

theorem stripGo_cons_ne (c : Char) (rest : List Char) (inQ : Bool) (hc : ¬ (c = qc)) :
    stripGo (c :: rest) inQ = (if inQ then [] else [c]) ++ stripGo rest inQ := by
  rw [stripGo.eq_def]; simp [hc]

theorem stripGo_qq (r2 : List Char) (inQ : Bool) :
    stripGo (qc :: qc :: r2) inQ = stripGo r2 inQ := by
  rw [stripGo.eq_def]; simp

theorem stripGo_q_ne (c2 : Char) (r2 : List Char) (inQ : Bool) (hc : ¬ (c2 = qc)) :
    stripGo (qc :: c2 :: r2) inQ = stripGo (c2 :: r2) (!inQ) := by
  rw [stripGo.eq_def]; simp [hc]

theorem maskGo_no_quote (cs : List Char) (inQ : Bool) : qc ∉ maskGo cs inQ := by
  induction cs, inQ using maskGo.induct with
  | case1 => intro h; exact absurd h (List.not_mem_nil _)
  | case2 inQ r2 ih =>
    rw [maskGo_qq]
    intro h
    rcases List.mem_cons.mp h with h | h
    · exact absurd h (by decide)
    rcases List.mem_cons.mp h with h | h
    · exact absurd h (by decide)
    exact ih h
  | case3 inQ c2 r2 hc ih =>
    rw [maskGo_q_ne _ _ _ hc]
    intro h
    rcases List.mem_cons.mp h with h | h
    · exact absurd h (by decide)
    exact ih h
  | case4 inQ =>
    show qc ∉ [' ']
    decide
  | case5 c rest inQ hc ih =>
    rw [maskGo_cons_ne _ _ _ hc]
    intro h
    rcases List.mem_cons.mp h with h | h
    · rcases inQ with _ | _
      · exact hc h.symm
      · simp only [if_true] at h
        exact absurd h (by decide)
    · exact ih h

theorem maskGo_fix (cs : List Char) (h : qc ∉ cs) : maskGo cs false = cs := by
  induction cs with
  | nil => rfl
  | cons c rest ih =>
    have hc : ¬ (c = qc) := fun e => h (e ▸ List.mem_cons_self c rest)
    have hr : qc ∉ rest := fun m => h (List.mem_cons_of_mem c m)
    rw [maskGo_cons_ne _ _ _ hc, ih hr]
    rfl

theorem stripGo_no_quote (cs : List Char) (inQ : Bool) : qc ∉ stripGo cs inQ := by
  induction cs, inQ using stripGo.induct with
  | case1 => intro h; exact absurd h (List.not_mem_nil _)
  | case2 inQ r2 ih => rw [stripGo_qq]; exact ih
  | case3 inQ c2 r2 hc ih => rw [stripGo_q_ne _ _ _ hc]; exact ih
  | case4 inQ =>
    show qc ∉ ([] : List Char)
    decide
  | case5 c rest inQ hc ih =>
    rw [stripGo_cons_ne _ _ _ hc]
    intro h
    rcases List.mem_append.mp h with h | h
    · rcases inQ with _ | _
      · rcases List.mem_cons.mp h with h | h
        · exact hc h.symm
        · exact absurd h (List.not_mem_nil _)
      · exact absurd h (List.not_mem_nil _)
    · exact ih h

theorem stripGo_fix (cs : List Char) (h : qc ∉ cs) : stripGo cs false = cs := by
  induction cs with
  | nil => rfl
  | cons c rest ih =>
    have hc : ¬ (c = qc) := fun e => h (e ▸ List.mem_cons_self c rest)
    have hr : qc ∉ rest := fun m => h (List.mem_cons_of_mem c m)
    rw [stripGo_cons_ne _ _ _ hc, ih hr]
    rfl

/-- C9: the single-quote masking/stripping functions are idempotent:
applying `stripSingleQuoted2` (blank-masking) twice equals applying it
once, and likewise for `stripSingleQuoted` (span removal). -/
theorem claim_C9_quote_idempotent (s : List Char) :
    stripSingleQuoted2 (stripSingleQuoted2 s) = stripSingleQuoted2 s ∧
    stripSingleQuoted (stripSingleQuoted s) = stripSingleQuoted s := by
  constructor
  · exact maskGo_fix _ (maskGo_no_quote s false)
  · exact stripGo_fix _ (stripGo_no_quote s false)

/-- Identifier test on an optional character; JavaScript code indexes out of
range yield the empty string, on which the identifier test is false. -/
def identOpt : Option Char → Bool
  | none => false
  | some c => isIdentChar c

/-- The comparison operators of `splitCompareTopLevel`, in the source's
priority order. -/
def cmpOps : List (List Char) := [['<', '>'], ['>', '='], ['<', '='], ['='], ['>'], ['<']]

/-- The first operator of `cmpOps` that starts at the head of `s` (the inner
`for (const op of ops)` loop of `splitCompareTopLevel`). -/
def opAt (s : List Char) : Option (List Char) :=
  cmpOps.find? (fun op => litPre op s)

/-- Scan loop of source `splitCompareTopLevel`: walks the remaining
characters carrying the absolute index `i`, the in-quote state and the
parenthesis depth (decrements are clamped at zero as in the source), and
returns the index and operator of the first hit. -/
def sctGo : List Char → Nat → Bool → Nat → Option (Nat × List Char)
  | [], _, _, _ => none
  | c :: rest, i, inQ, depth =>
    if c = qc then
      match rest with
      | c2 :: r2 =>
        if c2 = qc then sctGo r2 (i + 2) inQ depth
        else sctGo (c2 :: r2) (i + 1) (!inQ) depth
      | [] => none
    else if inQ then sctGo rest (i + 1) inQ depth
    else if c = '(' then sctGo rest (i + 1) inQ (depth + 1)
    else if c = ')' then sctGo rest (i + 1) inQ (depth - 1)
    else if depth ≠ 0 then sctGo rest (i + 1) inQ depth
    else
      match opAt (c :: rest) with
      | some op => some (i, op)
      | none => sctGo rest (i + 1) inQ depth

/-- Result record of `splitCompareTopLevel`. -/
structure CmpSplit where
  left : List Char
  op : List Char
  right : List Char
deriving DecidableEq, Repr

/-- Source `splitCompareTopLevel`. -/
def splitCompareTopLevel (expr : List Char) : Option CmpSplit :=
  match sctGo expr 0 false 0 with
  | none => none
  | some (i, op) => some ⟨expr.take i, op, expr.drop (i + op.length)⟩

/-- Source `splitByAndOrTopLevel`, scan loop.  The first argument is
recursion fuel (the loop consumes at least one character per step, so
`length + 1` fuel is always enough); `prev` is the previously consumed
character, `acc` the current fragment reversed. -/
def sbaoGo : Nat → List Char → Option Char → List Char → Bool → Nat → List (List Char)
  | 0, s, _, acc, _, _ => [acc.reverse ++ s]
  | _ + 1, [], _, acc, _, _ => [acc.reverse]
  | fuel + 1, c :: rest, prev, acc, inQ, depth =>
    if c = qc then
      match rest with
      | c2 :: r2 =>
        if c2 = qc then sbaoGo fuel r2 (some qc) (qc :: qc :: acc) inQ depth
        else sbaoGo fuel (c2 :: r2) (some qc) (qc :: acc) (!inQ) depth
      | [] => [(qc :: acc).reverse]
    else if inQ then sbaoGo fuel rest (some c) (c :: acc) inQ depth
    else if c = '(' then sbaoGo fuel rest (some c) (c :: acc) inQ (depth + 1)
    else if c = ')' then sbaoGo fuel rest (some c) (c :: acc) inQ (depth - 1)
    else if depth ≠ 0 then sbaoGo fuel rest (some c) (c :: acc) inQ depth
    else if litPre ['A', 'n', 'd'] (c :: rest) && !identOpt prev &&
        !identOpt ((c :: rest).drop 3).head? then
      acc.reverse :: sbaoGo fuel ((c :: rest).drop 3) (some 'd') [] inQ depth
    else if litPre ['O', 'r'] (c :: rest) && !identOpt prev &&
        !identOpt ((c :: rest).drop 2).head? then
      acc.reverse :: sbaoGo fuel ((c :: rest).drop 2) (some 'r') [] inQ depth
    else sbaoGo fuel rest (some c) (c :: acc) inQ depth

/-- Source `splitByAndOrTopLevel`. -/
def splitByAndOrTopLevel (s : List Char) : List (List Char) :=
  sbaoGo (s.length + 1) s none [] false 0

/-- Source `stripOuterParens`, loop with fuel (each round removes two
characters, so `length + 1` fuel is always enough). -/
def sopGo : Nat → List Char → List Char
  | 0, t => t
  | fuel + 1, t =>
    if t.head? = some '(' && t.getLast? = some ')' then
      sopGo fuel (jsTrim (t.drop 1).dropLast)
    else t

/-- Source `stripOuterParens`. -/
def stripOuterParens (s : List Char) : List Char := sopGo (s.length + 1) (jsTrim s)

/-- Source `isQuotedOperandOk`. -/
def isQuotedOperandOk (op : List Char) : Bool :=
  let t := jsTrim (stripOuterParens op)
  if t.head? = some qc then t.getLast? = some qc else true

example : splitCompareTopLevel (" a >= b".toList) =
    some ⟨" a ".toList, ['>', '='], " b".toList⟩ := by decide
example : splitCompareTopLevel ("(a = b)".toList) = none := by decide
example : splitByAndOrTopLevel ("a = b And c".toList) =
    ["a = b ".toList, " c".toList] := by decide
example : stripOuterParens (" ((x)) ".toList) = ['x'] := by decide

/-- One parenthesis-depth step of the top-level scanners: `(` increments,
`)` decrements clamped at zero, all else leaves the depth alone. -/
def dStep (d : Nat) (c : Char) : Nat :=
  if c = '(' then d + 1 else if c = ')' then d - 1 else d

/-- Depth after folding `dStep` over a character list from `d`. -/
def dAfter (d : Nat) (l : List Char) : Nat := List.foldl dStep d l

/-- Parenthesis depth of a (quote-masked) prefix, from depth zero. -/
def parenDepth (l : List Char) : Nat := dAfter 0 l

/-- Claim-side notion for C8, built from the specification's wording rather
than from the scan loop: one of the comparison operators (in priority
order, via `opAt`) occurs at position `i` of `expr`, the character at `i`
is outside single quotes (it survives quote masking unchanged), and the
masked prefix before `i` has parenthesis depth zero. -/
def topCmpAt (expr : List Char) (i : Nat) (op : List Char) : Prop :=
  opAt (expr.drop i) = some op ∧ (stripSingleQuoted2 expr)[i]? = expr[i]? ∧
    parenDepth ((stripSingleQuoted2 expr).take i) = 0

/-- Generalisation of `topCmpAt` to an arbitrary scan state, used for the
induction along `sctGo`. -/
def relTop (cs : List Char) (inQ : Bool) (d : Nat) (j : Nat) (op : List Char) : Prop :=
  opAt (cs.drop j) = some op ∧ (maskGo cs inQ)[j]? = cs[j]? ∧
    dAfter d ((maskGo cs inQ).take j) = 0

theorem topCmpAt_relTop (expr : List Char) (i : Nat) (op : List Char) :
    topCmpAt expr i op ↔ relTop expr false 0 i op := Iff.rfl

theorem opAt_head_none (c : Char) (xs : List Char)
    (h1 : ¬ c = '<') (h2 : ¬ c = '>') (h3 : ¬ c = '=') : opAt (c :: xs) = none := by
  simp [opAt, cmpOps, List.find?, litPre, Ne.symm h1, Ne.symm h2, Ne.symm h3]

theorem find_pred {α : Type} (p : α → Bool) (l : List α) (a : α)
    (h : l.find? p = some a) : p a ∧ a ∈ l := by
  induction l with
  | nil => simp [List.find?] at h
  | cons x xs ih =>
    rw [List.find?] at h
    by_cases hp : p x
    · simp [hp] at h
      subst h
      exact ⟨hp, List.mem_cons_self _ _⟩
    · simp [hp] at h
      exact ⟨(ih h).1, List.mem_cons_of_mem _ (ih h).2⟩

theorem opAt_litPre {s op : List Char} (h : opAt s = some op) : litPre op s :=
  (find_pred _ _ _ h).1

theorem opAt_mem {s op : List Char} (h : opAt s = some op) : op ∈ cmpOps :=
  (find_pred _ _ _ h).2

theorem relTop_succ (x : Char) (cs' : List Char) (inQ inQ' : Bool) (d : Nat) (mx : Char)
    (hm : maskGo (x :: cs') inQ = mx :: maskGo cs' inQ') (j : Nat) (op : List Char) :
    relTop (x :: cs') inQ d (j + 1) op ↔ relTop cs' inQ' (dStep d mx) j op := by
  unfold relTop
  rw [hm]
  simp only [List.drop_succ_cons, List.getElem?_cons_succ, List.take_succ_cons, dAfter,
    List.foldl_cons]

theorem relTop_succ2 (x1 x2 : Char) (cs' : List Char) (inQ inQ' : Bool) (d : Nat)
    (m1 m2 : Char) (hm : maskGo (x1 :: x2 :: cs') inQ = m1 :: m2 :: maskGo cs' inQ')
    (j : Nat) (op : List Char) :
    relTop (x1 :: x2 :: cs') inQ d (j + 2) op ↔
      relTop cs' inQ' (dStep (dStep d m1) m2) j op := by
  unfold relTop
  rw [hm]
  show opAt ((x1 :: x2 :: cs').drop (j + 1 + 1)) = some op ∧ _ ∧ _ ↔ _
  simp only [List.drop_succ_cons, List.getElem?_cons_succ, List.take_succ_cons, dAfter,
    List.foldl_cons]

theorem relTop_zero (cs : List Char) (inQ : Bool) (d : Nat) (op : List Char) :
    relTop cs inQ d 0 op ↔ (opAt cs = some op ∧ (maskGo cs inQ)[0]? = cs[0]? ∧ d = 0) := by
  unfold relTop
  simp [dAfter]

theorem sct2 (r2 : List Char) (i : Nat) (q : Bool) (d : Nat) :
    sctGo (qc :: qc :: r2) i q d = sctGo r2 (i + 2) q d := by
  rw [sctGo.eq_def]; simp

theorem sct3 (c2 : Char) (r2 : List Char) (i : Nat) (q : Bool) (d : Nat) (hc : ¬ (c2 = qc)) :
    sctGo (qc :: c2 :: r2) i q d = sctGo (c2 :: r2) (i + 1) (!q) d := by
  rw [sctGo.eq_def]; simp [hc]

theorem sct4 (i : Nat) (q : Bool) (d : Nat) : sctGo [qc] i q d = none := by
  rw [sctGo.eq_def]; simp

theorem sct5 (c : Char) (rest : List Char) (i : Nat) (d : Nat) (hc : ¬ (c = qc)) :
    sctGo (c :: rest) i true d = sctGo rest (i + 1) true d := by
  rw [sctGo.eq_def]; simp [hc]

theorem sct6 (rest : List Char) (i : Nat) (d : Nat) :
    sctGo ('(' :: rest) i false d = sctGo rest (i + 1) false (d + 1) := by
  have h : ¬ (('(' : Char) = qc) := by decide
  rw [sctGo.eq_def]; simp [h]

theorem sct7 (rest : List Char) (i : Nat) (d : Nat) :
    sctGo (')' :: rest) i false d = sctGo rest (i + 1) false (d - 1) := by
  have h : ¬ ((')' : Char) = qc) := by decide
  rw [sctGo.eq_def]; simp [h]

theorem sct8 (c : Char) (rest : List Char) (i : Nat) (d : Nat) (hc : ¬ (c = qc))
    (h2 : ¬ (c = '(')) (h3 : ¬ (c = ')')) (hd : d ≠ 0) :
    sctGo (c :: rest) i false d = sctGo rest (i + 1) false d := by
  rw [sctGo.eq_def]; simp [hc, h2, h3, hd]

theorem sct9 (c : Char) (rest : List Char) (i : Nat) (hc : ¬ (c = qc))
    (h2 : ¬ (c = '(')) (h3 : ¬ (c = ')')) (op : List Char) (hop : opAt (c :: rest) = some op) :
    sctGo (c :: rest) i false 0 = some (i, op) := by
  rw [sctGo.eq_def]; simp [hc, h2, h3, hop]

theorem sct10 (c : Char) (rest : List Char) (i : Nat) (hc : ¬ (c = qc))
    (h2 : ¬ (c = '(')) (h3 : ¬ (c = ')')) (hop : opAt (c :: rest) = none) :
    sctGo (c :: rest) i false 0 = sctGo rest (i + 1) false 0 := by
  rw [sctGo.eq_def]; simp [hc, h2, h3, hop]

theorem opAt_nil : opAt [] = none := rfl

theorem litPre_append (p : List Char) : ∀ l : List Char, litPre p l →
    p ++ l.drop p.length = l := by
  induction p with
  | nil => intro l _; simp
  | cons c cs ih =>
    intro l h
    cases l with
    | nil => exact absurd h (by simp [litPre])
    | cons x xs =>
      rw [litPre] at h
      obtain ⟨h1, h2⟩ := Bool.and_eq_true_iff.mp h
      have h1 : c = x := by simpa using h1
      subst h1
      simp only [List.length_cons, List.drop_succ_cons, List.cons_append, List.cons.injEq,
        true_and]
      exact ih xs h2

/-- Induction invariant for the `splitCompareTopLevel` characterisation:
`sctGo` returns `none` exactly on suffixes with no top-level operator, and
otherwise the leftmost top-level hit. -/
def sctOk (cs : List Char) (i : Nat) (inQ : Bool) (d : Nat) : Prop :=
  (sctGo cs i inQ d = none → ∀ j op, ¬ relTop cs inQ d j op) ∧
  (∀ k op, sctGo cs i inQ d = some (k, op) →
    i ≤ k ∧ litPre op (cs.drop (k - i)) ∧ relTop cs inQ d (k - i) op ∧
    ∀ j, j < k - i → ∀ op2, ¬ relTop cs inQ d j op2)

theorem sct_step (x : Char) (cs' : List Char) (inQ inQ' : Bool) (d d' : Nat) (i : Nat)
    (mx : Char)
    (hm : maskGo (x :: cs') inQ = mx :: maskGo cs' inQ')
    (hd : dStep d mx = d')
    (hstep : sctGo (x :: cs') i inQ d = sctGo cs' (i + 1) inQ' d')
    (hdead : ∀ op, ¬ relTop (x :: cs') inQ d 0 op)
    (ih : sctOk cs' (i + 1) inQ' d') : sctOk (x :: cs') i inQ d := by
  constructor
  · intro h j op hr
    rw [hstep] at h
    cases j with
    | zero => exact hdead op hr
    | succ j =>
      have hs := (relTop_succ x cs' inQ inQ' d mx hm j op).mp hr
      rw [hd] at hs
      exact ih.1 h j op hs
  · intro k op h
    rw [hstep] at h
    obtain ⟨hk, hlit, hrel, hmin⟩ := ih.2 k op h
    have e : k - i = (k - (i + 1)) + 1 := by omega
    refine ⟨by omega, ?_, ?_, ?_⟩
    · rw [e]
      simpa using hlit
    · rw [e]
      refine (relTop_succ x cs' inQ inQ' d mx hm _ op).mpr ?_
      rw [hd]
      exact hrel
    · intro j hj op2 hr
      cases j with
      | zero => exact hdead op2 hr
      | succ j =>
        have hs := (relTop_succ x cs' inQ inQ' d mx hm j op2).mp hr
        rw [hd] at hs
        exact hmin j (by omega) op2 hs

theorem sct_step2 (x1 x2 : Char) (cs' : List Char) (inQ : Bool) (d : Nat) (i : Nat)
    (m1 m2 : Char)
    (hm : maskGo (x1 :: x2 :: cs') inQ = m1 :: m2 :: maskGo cs' inQ)
    (hd : dStep (dStep d m1) m2 = d)
    (hstep : sctGo (x1 :: x2 :: cs') i inQ d = sctGo cs' (i + 2) inQ d)
    (hdead0 : ∀ op, ¬ relTop (x1 :: x2 :: cs') inQ d 0 op)
    (hdead1 : ∀ op, ¬ relTop (x1 :: x2 :: cs') inQ d 1 op)
    (ih : sctOk cs' (i + 2) inQ d) : sctOk (x1 :: x2 :: cs') i inQ d := by
  constructor
  · intro h j op hr
    rw [hstep] at h
    match j with
    | 0 => exact hdead0 op hr
    | 1 => exact hdead1 op hr
    | j + 2 =>
      have hs := (relTop_succ2 x1 x2 cs' inQ inQ d m1 m2 hm j op).mp hr
      rw [hd] at hs
      exact ih.1 h j op hs
  · intro k op h
    rw [hstep] at h
    obtain ⟨hk, hlit, hrel, hmin⟩ := ih.2 k op h
    have e : k - i = (k - (i + 2)) + 2 := by omega
    refine ⟨by omega, ?_, ?_, ?_⟩
    · rw [e]
      simpa using hlit
    · rw [e]
      refine (relTop_succ2 x1 x2 cs' inQ inQ d m1 m2 hm _ op).mpr ?_
      rw [hd]
      exact hrel
    · intro j hj op2 hr
      match j, hj with
      | 0, _ => exact hdead0 op2 hr
      | 1, _ => exact hdead1 op2 hr
      | j + 2, hj =>
        have hs := (relTop_succ2 x1 x2 cs' inQ inQ d m1 m2 hm j op2).mp hr
        rw [hd] at hs
        exact hmin j (by omega) op2 hs

theorem maskGo_cons_t (c : Char) (rest : List Char) (hc : ¬ (c = qc)) :
    maskGo (c :: rest) true = ' ' :: maskGo rest true := by
  rw [maskGo_cons_ne _ _ _ hc]
  simp

theorem maskGo_cons_f (c : Char) (rest : List Char) (hc : ¬ (c = qc)) :
    maskGo (c :: rest) false = c :: maskGo rest false := by
  rw [maskGo_cons_ne _ _ _ hc]
  simp

theorem dStep_sp (d : Nat) : dStep d ' ' = d := by
  rw [dStep, if_neg (by decide), if_neg (by decide)]

theorem dStep_other (c : Char) (d : Nat) (h1 : ¬ (c = '(')) (h2 : ¬ (c = ')')) :
    dStep d c = d := by
  rw [dStep, if_neg h1, if_neg h2]

theorem sct_all (cs : List Char) (i : Nat) (inQ : Bool) (d : Nat) : sctOk cs i inQ d := by
  induction cs, i, inQ, d using sctGo.induct with
  | case1 i inQ d =>
    constructor
    · intro _ j op hr
      obtain ⟨h1, _, _⟩ := hr
      rw [List.drop_nil, opAt_nil] at h1
      cases h1
    · intro k op h
      rw [show sctGo [] i inQ d = none from rfl] at h
      cases h
  | case2 i inQ d r2 ih =>
    refine sct_step2 qc qc r2 inQ d i ' ' ' ' (maskGo_qq r2 inQ)
      (by rw [dStep_sp, dStep_sp]) (sct2 r2 i inQ d) ?_ ?_ ih
    · intro op hr
      have h2 := hr.2.1
      rw [maskGo_qq] at h2
      simp only [List.getElem?_cons_zero] at h2
      exact absurd h2 (by decide)
    · intro op hr
      have h2 := hr.2.1
      rw [maskGo_qq] at h2
      simp only [List.getElem?_cons_succ, List.getElem?_cons_zero] at h2
      exact absurd h2 (by decide)
  | case3 i inQ d c2 r2 hc ih =>
    refine sct_step qc (c2 :: r2) inQ (!inQ) d d i ' ' (maskGo_q_ne c2 r2 inQ hc)
      (dStep_sp d) (sct3 c2 r2 i inQ d hc) ?_ ih
    intro op hr
    have h2 := hr.2.1
    rw [maskGo_q_ne c2 r2 inQ hc] at h2
    simp only [List.getElem?_cons_zero] at h2
    exact absurd h2 (by decide)
  | case4 i inQ d =>
    constructor
    · intro _ j op hr
      obtain ⟨h1, _, _⟩ := hr
      match j with
      | 0 =>
        rw [List.drop_zero, opAt_head_none qc [] (by decide) (by decide) (by decide)] at h1
        cases h1
      | j + 1 =>
        rw [List.drop_succ_cons, List.drop_nil, opAt_nil] at h1
        cases h1
    · intro k op h
      rw [sct4] at h
      cases h
  | case5 c rest i d hc ih =>
    refine sct_step c rest true true d d i ' ' (maskGo_cons_t c rest hc)
      (dStep_sp d) (sct5 c rest i d hc) ?_ ih
    intro op hr
    obtain ⟨h1, h2, _⟩ := hr
    rw [maskGo_cons_t c rest hc] at h2
    simp only [List.getElem?_cons_zero] at h2
    have hcs : c = ' ' := (Option.some.inj h2).symm
    subst hcs
    rw [List.drop_zero, opAt_head_none ' ' rest (by decide) (by decide) (by decide)] at h1
    cases h1
  | case6 rest i inQ d hq hpar ih =>
    rcases inQ with _ | _
    · refine sct_step '(' rest false false d (d + 1) i '('
        (maskGo_cons_f '(' rest (by decide)) (by rw [dStep, if_pos rfl])
        (sct6 rest i d) ?_ ih
      intro op hr
      have h1 := hr.1
      rw [List.drop_zero,
        opAt_head_none '(' rest (by decide) (by decide) (by decide)] at h1
      cases h1
    · exact absurd rfl hq
  | case7 rest i inQ d hq hp1 hp2 ih =>
    rcases inQ with _ | _
    · refine sct_step ')' rest false false d (d - 1) i ')'
        (maskGo_cons_f ')' rest (by decide))
        (by rw [dStep, if_neg (by decide), if_pos rfl]) (sct7 rest i d) ?_ ih
      intro op hr
      have h1 := hr.1
      rw [List.drop_zero,
        opAt_head_none ')' rest (by decide) (by decide) (by decide)] at h1
      cases h1
    · exact absurd rfl hq
  | case8 c rest i inQ d hc hq h2 h3 hdz ih =>
    rcases inQ with _ | _
    · refine sct_step c rest false false d d i c (maskGo_cons_f c rest hc)
        (dStep_other c d h2 h3) (sct8 c rest i d hc h2 h3 hdz) ?_ ih
      intro op hr
      have h3' := hr.2.2
      rw [List.take_zero] at h3'
      simp only [dAfter, List.foldl_nil] at h3'
      exact hdz h3'
    · exact absurd rfl hq
  | case9 c rest i inQ d hc hq h2 h3 hd0 op hop =>
    rcases inQ with _ | _
    · have hdz : d = 0 := by omega
      subst hdz
      constructor
      · intro h
        rw [sct9 c rest i hc h2 h3 op hop] at h
        cases h
      · intro k op2 h
        rw [sct9 c rest i hc h2 h3 op hop] at h
        have h' := Option.some.inj h
        have e1 : i = k := congrArg Prod.fst h'
        have e2 : op = op2 := congrArg Prod.snd h'
        subst e2
        refine ⟨by omega, ?_, ?_, ?_⟩
        · rw [← e1, Nat.sub_self, List.drop_zero]
          exact opAt_litPre hop
        · rw [← e1, Nat.sub_self]
          unfold relTop
          refine ⟨?_, ?_, ?_⟩
          · rw [List.drop_zero]
            exact hop
          · rw [maskGo_cons_f c rest hc]
            simp only [List.getElem?_cons_zero]
          · rw [List.take_zero]
            simp [dAfter]
        · intro j hj
          rw [← e1, Nat.sub_self] at hj
          exact absurd hj (Nat.not_lt_zero j)
    · exact absurd rfl hq
  | case10 c rest i inQ d hc hq h2 h3 hd0 hop ih =>
    rcases inQ with _ | _
    · have hdz : d = 0 := by omega
      subst hdz
      refine sct_step c rest false false 0 0 i c (maskGo_cons_f c rest hc)
        (dStep_other c 0 h2 h3) (sct10 c rest i hc h2 h3 hop) ?_ ih
      intro op hr
      have h1 := hr.1
      rw [List.drop_zero, hop] at h1
      cases h1
    · exact absurd rfl hq

/-- C8: `splitCompareTopLevel` returns `none` exactly when the expression
has no comparison operator occurrence outside single quotes and outside
parentheses; otherwise it splits at the leftmost such position, with the
operator chosen in the source's priority order there, and the three parts
concatenate back to the input. -/
theorem claim_C8_splitCompare (expr : List Char) :
    (splitCompareTopLevel expr = none ↔ ∀ i op, ¬ topCmpAt expr i op) ∧
    (∀ r, splitCompareTopLevel expr = some r →
      r.left ++ r.op ++ r.right = expr ∧
      topCmpAt expr r.left.length r.op ∧
      ∀ j, j < r.left.length → ∀ op, ¬ topCmpAt expr j op) := by
  have S := sct_all expr 0 false 0
  constructor
  · constructor
    · intro h i op hr
      have hn : sctGo expr 0 false 0 = none := by
        rcases e : sctGo expr 0 false 0 with _ | ⟨k, op2⟩
        · rfl
        · rw [splitCompareTopLevel, e] at h
          cases h
      exact S.1 hn i op ((topCmpAt_relTop expr i op).mp hr)
    · intro hAll
      rcases e : sctGo expr 0 false 0 with _ | ⟨k, op⟩
      · rw [splitCompareTopLevel, e]
      · obtain ⟨_, _, hrel, _⟩ := S.2 k op e
        exact absurd ((topCmpAt_relTop expr (k - 0) op).mpr hrel) (hAll (k - 0) op)
  · intro r h
    rcases e : sctGo expr 0 false 0 with _ | ⟨k, op⟩
    · rw [splitCompareTopLevel, e] at h
      cases h
    · rw [splitCompareTopLevel, e] at h
      have hr : r = ⟨expr.take k, op, expr.drop (k + op.length)⟩ := (Option.some.inj h).symm
      subst hr
      obtain ⟨_, hlit, hrel, hmin⟩ := S.2 k op e
      rw [Nat.sub_zero] at hlit hrel hmin
      have hkle : k ≤ expr.length := by
        by_contra hgt
        push_neg at hgt
        have hdn : expr.drop k = [] := List.drop_eq_nil_of_le (le_of_lt hgt)
        rw [hdn] at hlit
        rcases hop : op with _ | ⟨o, os⟩
        · rw [hop] at hrel
          exact absurd (opAt_mem hrel.1) (by decide)
        · rw [hop] at hlit
          simp [litPre] at hlit
      have hlen : (expr.take k).length = k := by
        rw [List.length_take]
        omega
      refine ⟨?_, ?_, ?_⟩
      · show expr.take k ++ op ++ expr.drop (k + op.length) = expr
        have h1 : op ++ (expr.drop k).drop op.length = expr.drop k :=
          litPre_append op (expr.drop k) hlit
        have h2 : (expr.drop k).drop op.length = expr.drop (k + op.length) := by
          rw [List.drop_drop, Nat.add_comm]
        calc expr.take k ++ op ++ expr.drop (k + op.length)
            = expr.take k ++ (op ++ (expr.drop k).drop op.length) := by
              rw [h2, List.append_assoc]
          _ = expr.take k ++ expr.drop k := by rw [h1]
          _ = expr := List.take_append_drop k expr
      · show topCmpAt expr (expr.take k).length op
        rw [hlen]
        exact (topCmpAt_relTop expr k op).mpr hrel
      · intro j hj op2 hrj
        have hj' : j < k := by
          have := hj
          rw [show (CmpSplit.mk (expr.take k) op (expr.drop (k + op.length))).left
              = expr.take k from rfl, hlen] at this
          exact this
        exact hmin j hj' op2 ((topCmpAt_relTop expr j op2).mp hrj)

theorem claim_C8_witness :
    splitCompareTopLevel ("a = b".toList) =
        some ⟨"a ".toList, ['='], " b".toList⟩ ∧
    "a ".toList ++ ['='] ++ " b".toList = "a = b".toList := by
  have h := (claim_C8_splitCompare ("a = b".toList)).2
    ⟨"a ".toList, ['='], " b".toList⟩ (by decide)
  exact ⟨by decide, h.1⟩

/-- Keyword constants used by the diagnostic regexes. -/
def ifKw : List Char := ['@', 'I', 'f']

def elseKw : List Char := ['@', 'E', 'l', 's', 'e']

def thenKw : List Char := ['@', 'T', 'h', 'e', 'n']

def funcKw : List Char := ['@', 'F', 'u', 'n', 'c', 't', 'i', 'o', 'n']

def forKw : List Char := ['@', 'F', 'o', 'r']

def endKw : List Char := ['@', 'E', 'n', 'd']

def ifWord : List Char := ['I', 'f']

def forWord : List Char := ['F', 'o', 'r']

def funcWord : List Char := ['F', 'u', 'n', 'c', 't', 'i', 'o', 'n']

def atThenLow : List Char := ['@', 't', 'h', 'e', 'n']

/-- Case-insensitive keyword at the head of `t` followed by a word
boundary (regexp `kw\b` with the `/i` flag). -/
def atKw (kw t : List Char) : Bool := litPreCI kw t && !identOpt (t.drop kw.length).head?

/-- Regexp `^\s*kw\b` with `/i`. -/
def testLead (kw : List Char) (s : List Char) : Bool := atKw kw (s.drop (wsLen s))

/-- Regexp `^\s*@End\s+w\b` with `/i`. -/
def testLeadEnd (w : List Char) (s : List Char) : Bool :=
  let t := s.drop (wsLen s)
  litPreCI endKw t &&
    (decide (0 < wsLen (t.drop 4)) && atKw w ((t.drop 4).drop (wsLen (t.drop 4))))

/-- Regexp `^\s*@Else\s+If\b` with `/i` (source `isElseIf` in
`provideIfDiagnostics`). -/
def testElseIf (s : List Char) : Bool :=
  let t := s.drop (wsLen s)
  litPreCI elseKw t &&
    (decide (0 < wsLen (t.drop 5)) && atKw ifWord ((t.drop 5).drop (wsLen (t.drop 5))))

/-- Regexp `/@Then\b/i.test(text)`: the keyword anywhere in the line. -/
def hasThenB : List Char → Bool
  | [] => false
  | c :: cs => atKw thenKw (c :: cs) || hasThenB cs

/-- Loop body of source `hasThenNearNextLine`, applied to the (at most two)
lines of the look-ahead window: skip blank and comment lines, and test the
first remaining line for a leading `@Then`. -/
def thenLookahead2 : List (List Char) → Bool
  | [] => false
  | l1 :: rest1 =>
    if isBlank l1 || isCommentLine l1 then
      match rest1 with
      | [] => false
      | l2 :: _ =>
        if isBlank l2 || isCommentLine l2 then false
        else testLead thenKw l2
    else testLead thenKw l1

/-- Source `hasThenNearNextLine`: looks at lines `fromLine+1` and
`fromLine+2` only (`Math.min(doc.lineCount, fromLine + 3)` bound). -/
def hasThenNearNextLine (lines : List (List Char)) (fromLine : Nat) : Bool :=
  thenLookahead2 ((lines.drop (fromLine + 1)).take 2)

/-- `condAll.replace(/^\s*@If\b/i, '')`. -/
def stripLeadIf (s : List Char) : List Char :=
  let t := s.drop (wsLen s)
  if atKw ifKw t then t.drop 3 else s

/-- `condAll.replace(/^\s*@Else\s+If\b/i, '')`. -/
def stripLeadElseIf (s : List Char) : List Char :=
  let t := s.drop (wsLen s)
  if litPreCI elseKw t &&
      (decide (0 < wsLen (t.drop 5)) && atKw ifWord ((t.drop 5).drop (wsLen (t.drop 5)))) then
    ((t.drop 5).drop (wsLen (t.drop 5))).drop 2
  else s

/-- The per-line loop of the unterminated-string check: for each And/Or
fragment, if a top-level comparison exists and one of its operands starts
with a quote but does not end with one, a diagnostic is raised and the
remaining fragments are skipped (the source's `break`). -/
def strViolation : List (List Char) → Bool
  | [] => false
  | p :: ps =>
    match splitCompareTopLevel p with
    | none => strViolation ps
    | some r =>
      if !isQuotedOperandOk r.left || !isQuotedOperandOk r.right then true
      else strViolation ps

/-- Block-diagnostic kinds; each corresponds to one message string of the
source (`@Then` missing; unterminated string in a comparison; the four
unmatched-end messages; the four missing-end messages). -/
inductive BDiagKind where
  | thenMissing
  | untermStr
  | endIfUnmatched
  | ifMissingEnd
  | endFuncUnmatched
  | funcMissingEnd
  | endForUnmatched
  | forMissingEnd
deriving DecidableEq, Repr

/-- A structural diagnostic: the line it points at and its message kind
(the source ranges always span the whole line). -/
structure BDiag where
  line : Nat
  kind : BDiagKind
deriving DecidableEq, Repr

/-- Main loop of source `provideIfDiagnostics`: walks the lines carrying
the `@If` and `@Function` stacks (push = cons; the final `for..of`
iterations over leftover entries run in push order, i.e. over the
reverse). -/
def ifWalk : List (List Char) → Nat → List Nat → List Nat → List BDiag
  | [], _, ifS, funcS =>
    ifS.reverse.map (fun l => ⟨l, .ifMissingEnd⟩) ++
      funcS.reverse.map (fun l => ⟨l, .funcMissingEnd⟩)
  | text :: rest, line, ifS, funcS =>
    if isCommentLine text then ifWalk rest (line + 1) ifS funcS
    else if testLead ifKw text || testElseIf text then
      let hasThen := if hasThenB text then true else thenLookahead2 (rest.take 2)
      let condAll := (idxOfStr (text.map lowC) atThenLow).elim text (fun n => text.take n)
      let condAll2 := stripLeadElseIf (stripLeadIf condAll)
      (if !hasThen then [⟨line, .thenMissing⟩] else []) ++
        ((if strViolation (splitByAndOrTopLevel condAll2) then [⟨line, .untermStr⟩] else []) ++
          (if testLead ifKw text then ifWalk rest (line + 1) (line :: ifS) funcS
           else ifWalk rest (line + 1) ifS funcS))
    else
      let p :=
        if testLeadEnd ifWord text then
          (if ifS = [] then (([⟨line, .endIfUnmatched⟩] : List BDiag), ([] : List Nat))
           else ([], ifS.tail))
        else ([], ifS)
      if testLead funcKw text then p.1 ++ ifWalk rest (line + 1) p.2 (line :: funcS)
      else if testLeadEnd funcWord text then
        (if funcS = [] then p.1 ++ ⟨line, .endFuncUnmatched⟩ :: ifWalk rest (line + 1) p.2 funcS
         else p.1 ++ ifWalk rest (line + 1) p.2 funcS.tail)
      else p.1 ++ ifWalk rest (line + 1) p.2 funcS

/-- Source `provideForDiagnostics`, main loop. -/
def forWalk : List (List Char) → Nat → List Nat → List BDiag
  | [], _, forS => forS.reverse.map (fun l => ⟨l, .forMissingEnd⟩)
  | text :: rest, line, forS =>
    if isCommentLine text then forWalk rest (line + 1) forS
    else if testLead forKw text then forWalk rest (line + 1) (line :: forS)
    else if testLeadEnd forWord text then
      (if forS = [] then ⟨line, .endForUnmatched⟩ :: forWalk rest (line + 1) forS
       else forWalk rest (line + 1) forS.tail)
    else forWalk rest (line + 1) forS

/-- Source `provideIfDiagnostics`: the If/Function walk followed by
`provideForDiagnostics` appending into the same list. -/
def provideIfDiagnostics (lines : List (List Char)) : List BDiag :=
  ifWalk lines 0 [] [] ++ forWalk lines 0 []

example : provideIfDiagnostics ["@If a = b @Then".toList, "statement".toList,
    "@End If".toList] = [] := by decide
example : provideIfDiagnostics ["@End If".toList] = [⟨0, .endIfUnmatched⟩] := by decide
example : provideIfDiagnostics ["@If a = b".toList] = [⟨0, .thenMissing⟩, ⟨0, .ifMissingEnd⟩] := by
  decide
example : provideIfDiagnostics ["@For x".toList, "@Function f".toList] =
    [⟨1, .funcMissingEnd⟩, ⟨0, .forMissingEnd⟩] := by decide
example : hasThenNearNextLine ["@If a".toList, "# c".toList, " @Then".toList] 0 = true := by
  decide

/-- Per-line block event, as the specification describes the
bracket-matching algorithm: a block start, a block end, or nothing. -/
inductive BEvent where
  | bstart : Nat → BEvent
  | bend : Nat → BEvent
  | bnone : BEvent
deriving DecidableEq, Repr

/-- Modelled from the spec: classify each line of the non-comment line
stream as a start or end marker of one block kind. -/
def kindEventsFrom (isStart isEnd : List Char → Bool) : Nat → List (List Char) → List BEvent
  | _, [] => []
  | l, text :: rest =>
    (if isCommentLine text then BEvent.bnone
     else if isStart text then BEvent.bstart l
     else if isEnd text then BEvent.bend l
     else BEvent.bnone) :: kindEventsFrom isStart isEnd (l + 1) rest

/-- Modelled from the spec: the stack simulation.  Returns the lines of end
markers met on an empty stack (in document order) and the lines of start
markers left on the stack at the end (in push order). -/
def simStack : List BEvent → List Nat → List Nat × List Nat
  | [], stk => ([], stk.reverse)
  | BEvent.bstart l :: es, stk => simStack es (l :: stk)
  | BEvent.bend l :: es, stk =>
    match stk with
    | [] => ((simStack es []).1.cons l, (simStack es []).2)
    | _ :: tl => simStack es tl
  | BEvent.bnone :: es, stk => simStack es stk

/-- The diagnostics the stack simulation predicts for one block kind. -/
def simDiags (ek sk : BDiagKind) (evs : List BEvent) (stk : List Nat) : List BDiag :=
  (simStack evs stk).1.map (fun l => ⟨l, ek⟩) ++ (simStack evs stk).2.map (fun l => ⟨l, sk⟩)

theorem simDiags_nil (ek sk : BDiagKind) (stk : List Nat) :
    simDiags ek sk [] stk = stk.reverse.map (fun l => ⟨l, sk⟩) := rfl

theorem simDiags_bnone (ek sk : BDiagKind) (es : List BEvent) (stk : List Nat) :
    simDiags ek sk (BEvent.bnone :: es) stk = simDiags ek sk es stk := rfl

theorem simDiags_bstart (ek sk : BDiagKind) (l : Nat) (es : List BEvent) (stk : List Nat) :
    simDiags ek sk (BEvent.bstart l :: es) stk = simDiags ek sk es (l :: stk) := rfl

theorem simDiags_bend_nil (ek sk : BDiagKind) (l : Nat) (es : List BEvent) :
    simDiags ek sk (BEvent.bend l :: es) [] = ⟨l, ek⟩ :: simDiags ek sk es [] := rfl

theorem simDiags_bend_cons (ek sk : BDiagKind) (l : Nat) (es : List BEvent) (h : Nat)
    (tl : List Nat) :
    simDiags ek sk (BEvent.bend l :: es) (h :: tl) = simDiags ek sk es tl := rfl

theorem litPreCI_get (k : List Char) : ∀ t : List Char, litPreCI k t = true →
    ∀ (n : Nat) (c : Char), k[n]? = some c →
      ∃ tc : Char, t[n]? = some tc ∧ lowC c = lowC tc := by
  induction k with
  | nil =>
    intro t _ n c hc
    simp at hc
  | cons a ks ih =>
    intro t h n c hc
    cases t with
    | nil => simp [litPreCI] at h
    | cons b ts =>
      rw [litPreCI] at h
      obtain ⟨h1, h2⟩ := Bool.and_eq_true_iff.mp h
      cases n with
      | zero =>
        simp only [List.getElem?_cons_zero] at hc
        have hc : a = c := Option.some.inj hc
        subst hc
        exact ⟨b, by simp, by simpa [eqCI] using h1⟩
      | succ n =>
        simp only [List.getElem?_cons_succ] at hc ⊢
        exact ih ts h2 n c hc

theorem litPreCI_excl (k1 k2 t : List Char) (n : Nat) (c1 c2 : Char)
    (h1 : k1[n]? = some c1) (h2 : k2[n]? = some c2) (hne : ¬ lowC c1 = lowC c2)
    (hk1 : litPreCI k1 t = true) : litPreCI k2 t = false := by
  by_contra h
  rw [Bool.not_eq_false] at h
  obtain ⟨tc, ht, e1⟩ := litPreCI_get k1 t hk1 n c1 h1
  obtain ⟨tc2, ht2, e2⟩ := litPreCI_get k2 t h n c2 h2
  rw [ht] at ht2
  have e3 : tc = tc2 := Option.some.inj ht2
  exact hne (by rw [e1, e3, ← e2])

theorem elseIf_not_end (s w : List Char) (h : testElseIf s = true) :
    testLeadEnd w s = false := by
  simp only [testElseIf] at h
  obtain ⟨h1, _⟩ := Bool.and_eq_true_iff.mp h
  have he := litPreCI_excl elseKw endKw (s.drop (wsLen s)) 2 'l' 'n'
    (by decide) (by decide) (by decide) h1
  simp only [testLeadEnd, he]
  simp

theorem ifLead_not_end (s w : List Char) (h : testLead ifKw s = true) :
    testLeadEnd w s = false := by
  simp only [testLead, atKw] at h
  obtain ⟨h1, _⟩ := Bool.and_eq_true_iff.mp h
  have he := litPreCI_excl ifKw endKw (s.drop (wsLen s)) 1 'I' 'E'
    (by decide) (by decide) (by decide) h1
  simp only [testLeadEnd, he]
  simp

theorem ifLead_not_func (s : List Char) (h : testLead ifKw s = true) :
    testLead funcKw s = false := by
  simp only [testLead, atKw] at h ⊢
  obtain ⟨h1, _⟩ := Bool.and_eq_true_iff.mp h
  have he := litPreCI_excl ifKw funcKw (s.drop (wsLen s)) 1 'I' 'F'
    (by decide) (by decide) (by decide) h1
  simp [he]

theorem elseIf_not_func (s : List Char) (h : testElseIf s = true) :
    testLead funcKw s = false := by
  simp only [testElseIf] at h
  obtain ⟨h1, _⟩ := Bool.and_eq_true_iff.mp h
  have he := litPreCI_excl elseKw funcKw (s.drop (wsLen s)) 1 'E' 'F'
    (by decide) (by decide) (by decide) h1
  simp only [testLead, atKw, he]
  simp

def isIfBlockD (d : BDiag) : Bool :=
  d.kind == BDiagKind.endIfUnmatched || d.kind == BDiagKind.ifMissingEnd

def isFuncBlockD (d : BDiag) : Bool :=
  d.kind == BDiagKind.endFuncUnmatched || d.kind == BDiagKind.funcMissingEnd

def isForBlockD (d : BDiag) : Bool :=
  d.kind == BDiagKind.endForUnmatched || d.kind == BDiagKind.forMissingEnd

theorem filter_map_true {α β : Type} (p : β → Bool) (f : α → β) (l : List α)
    (h : ∀ a, p (f a) = true) : (l.map f).filter p = l.map f := by
  induction l with
  | nil => rfl
  | cons a l ih => simp [List.filter, h a, ih]

theorem filter_map_false {α β : Type} (p : β → Bool) (f : α → β) (l : List α)
    (h : ∀ a, p (f a) = false) : (l.map f).filter p = [] := by
  induction l with
  | nil => rfl
  | cons a l ih => simp [List.filter, h a, ih]

theorem filter_ite_singleton (p : BDiag → Bool) (b : Bool) (d : BDiag) (h : p d = false) :
    (if b then ([d] : List BDiag) else []).filter p = [] := by
  cases b <;> simp [h]

theorem ifWalk_nil (line : Nat) (ifS funcS : List Nat) :
    ifWalk [] line ifS funcS =
      ifS.reverse.map (fun l => ⟨l, BDiagKind.ifMissingEnd⟩) ++
        funcS.reverse.map (fun l => ⟨l, BDiagKind.funcMissingEnd⟩) := rfl

theorem ifWalk_comment (text : List Char) (rest : List (List Char)) (line : Nat)
    (ifS funcS : List Nat) (hcom : isCommentLine text = true) :
    ifWalk (text :: rest) line ifS funcS = ifWalk rest (line + 1) ifS funcS := by
  rw [ifWalk.eq_def]
  simp [hcom]

theorem ifWalk_ifline (text : List Char) (rest : List (List Char)) (line : Nat)
    (ifS funcS : List Nat) (hcom : isCommentLine text = false)
    (hif : (testLead ifKw text || testElseIf text) = true) :
    ifWalk (text :: rest) line ifS funcS =
      (if !(if hasThenB text then true else thenLookahead2 (rest.take 2)) then
          [⟨line, BDiagKind.thenMissing⟩] else []) ++
        ((if strViolation (splitByAndOrTopLevel (stripLeadElseIf (stripLeadIf
            ((idxOfStr (text.map lowC) atThenLow).elim text (fun n => text.take n))))) then
            [⟨line, BDiagKind.untermStr⟩] else []) ++
          (if testLead ifKw text then ifWalk rest (line + 1) (line :: ifS) funcS
           else ifWalk rest (line + 1) ifS funcS)) := by
  rw [ifWalk.eq_def]
  simp [hcom, hif]

theorem ifWalk_other (text : List Char) (rest : List (List Char)) (line : Nat)
    (ifS funcS : List Nat) (hcom : isCommentLine text = false)
    (hif : (testLead ifKw text || testElseIf text) = false) :
    ifWalk (text :: rest) line ifS funcS =
      (if testLeadEnd ifWord text then
          (if ifS = [] then ([⟨line, BDiagKind.endIfUnmatched⟩] : List BDiag) else [])
        else []) ++
        (if testLead funcKw text then
          ifWalk rest (line + 1)
            (if testLeadEnd ifWord text then ifS.tail else ifS) (line :: funcS)
         else if testLeadEnd funcWord text then
           (if funcS = [] then
              ⟨line, BDiagKind.endFuncUnmatched⟩ ::
                ifWalk rest (line + 1)
                  (if testLeadEnd ifWord text then ifS.tail else ifS) funcS
            else ifWalk rest (line + 1)
                (if testLeadEnd ifWord text then ifS.tail else ifS) funcS.tail)
         else ifWalk rest (line + 1)
            (if testLeadEnd ifWord text then ifS.tail else ifS) funcS) := by
  rw [ifWalk.eq_def]
  by_cases hend : testLeadEnd ifWord text
  · by_cases hnil : ifS = []
    · simp only [hcom, hif, hend, hnil]
      simp
      split_ifs <;> rfl
    · simp [hcom, hif, hend, hnil]
  · simp [hcom, hif, hend]

/-- The function-stack part of the `provideIfDiagnostics` loop body, shared
by all non-`@If` lines. -/
def funcBranch (text : List Char) (rest : List (List Char)) (line : Nat)
    (ifS2 funcS : List Nat) : List BDiag :=
  if testLead funcKw text then ifWalk rest (line + 1) ifS2 (line :: funcS)
  else if testLeadEnd funcWord text then
    (if funcS = [] then ⟨line, .endFuncUnmatched⟩ :: ifWalk rest (line + 1) ifS2 funcS
     else ifWalk rest (line + 1) ifS2 funcS.tail)
  else ifWalk rest (line + 1) ifS2 funcS

theorem ifWalk_other2 (text : List Char) (rest : List (List Char)) (line : Nat)
    (ifS funcS : List Nat) (hcom : isCommentLine text = false)
    (hif : (testLead ifKw text || testElseIf text) = false) :
    ifWalk (text :: rest) line ifS funcS =
      (if testLeadEnd ifWord text then
          (if ifS = [] then ([⟨line, BDiagKind.endIfUnmatched⟩] : List BDiag) else [])
        else []) ++
        funcBranch text rest line
          (if testLeadEnd ifWord text then ifS.tail else ifS) funcS := by
  rw [ifWalk.eq_def]
  unfold funcBranch
  by_cases hend : testLeadEnd ifWord text
  · by_cases hnil : ifS = []
    · simp only [hcom, hif, hend, hnil]
      simp
      split_ifs <;> rfl
    · simp [hcom, hif, hend, hnil]
  · simp [hcom, hif, hend]

theorem funcBranch_ifFilter (text : List Char) (rest : List (List Char)) (line : Nat)
    (ifS2 funcS : List Nat) (res : List BDiag)
    (ih : ∀ fS : List Nat, (ifWalk rest (line + 1) ifS2 fS).filter isIfBlockD = res) :
    (funcBranch text rest line ifS2 funcS).filter isIfBlockD = res := by
  unfold funcBranch
  by_cases hf : testLead funcKw text
  · rw [if_pos hf]
    exact ih _
  · rw [if_neg hf]
    by_cases hef : testLeadEnd funcWord text
    · rw [if_pos hef]
      by_cases hfn : funcS = []
      · rw [if_pos hfn]
        simp only [List.filter, show isIfBlockD ⟨line, BDiagKind.endFuncUnmatched⟩ =
          false from rfl]
        exact ih _
      · rw [if_neg hfn]
        exact ih _
    · rw [if_neg hef]
      exact ih _

theorem ifWalk_ifFilter (rest : List (List Char)) : ∀ (line : Nat) (ifS funcS : List Nat),
    (ifWalk rest line ifS funcS).filter isIfBlockD =
      simDiags BDiagKind.endIfUnmatched BDiagKind.ifMissingEnd
        (kindEventsFrom (testLead ifKw) (testLeadEnd ifWord) line rest) ifS := by
  induction rest with
  | nil =>
    intro line ifS funcS
    rw [ifWalk_nil, kindEventsFrom, simDiags_nil, List.filter_append,
      filter_map_true _ _ _ (fun _ => rfl), filter_map_false _ _ _ (fun _ => rfl),
      List.append_nil]
  | cons text rest ih =>
    intro line ifS funcS
    rw [kindEventsFrom]
    by_cases hcom : isCommentLine text
    · rw [ifWalk_comment _ _ _ _ _ hcom, if_pos hcom, simDiags_bnone]
      exact ih (line + 1) ifS funcS
    · rw [if_neg hcom]
      by_cases hisif : testLead ifKw text
      · have hif : (testLead ifKw text || testElseIf text) = true := by simp [hisif]
        have hev : (if testLead ifKw text = true then BEvent.bstart line
            else if testLeadEnd ifWord text = true then BEvent.bend line
            else BEvent.bnone) = BEvent.bstart line := by simp [hisif]
        rw [ifWalk_ifline _ _ _ _ _ (by simpa using hcom) hif, hev, simDiags_bstart,
          List.filter_append, List.filter_append, filter_ite_singleton _ _ _ rfl,
          filter_ite_singleton _ _ _ rfl, if_pos hisif]
        simpa using ih (line + 1) (line :: ifS) funcS
      · by_cases helse : testElseIf text
        · have hif : (testLead ifKw text || testElseIf text) = true := by simp [helse]
          have hend := elseIf_not_end text ifWord helse
          have hev : (if testLead ifKw text = true then BEvent.bstart line
              else if testLeadEnd ifWord text = true then BEvent.bend line
              else BEvent.bnone) = BEvent.bnone := by simp [hisif, hend]
          rw [ifWalk_ifline _ _ _ _ _ (by simpa using hcom) hif, hev, simDiags_bnone,
            List.filter_append, List.filter_append, filter_ite_singleton _ _ _ rfl,
            filter_ite_singleton _ _ _ rfl, if_neg hisif]
          simpa using ih (line + 1) ifS funcS
        · have hif : (testLead ifKw text || testElseIf text) = false := by
            simp [hisif, helse]
          rw [ifWalk_other2 _ _ _ _ _ (by simpa using hcom) hif, List.filter_append]
          by_cases hend : testLeadEnd ifWord text
          · have hev : (if testLead ifKw text = true then BEvent.bstart line
                else if testLeadEnd ifWord text = true then BEvent.bend line
                else BEvent.bnone) = BEvent.bend line := by simp [hisif, hend]
            rw [hev, if_pos hend, if_pos hend]
            rcases ifS with _ | ⟨h0, tl⟩
            · rw [if_pos rfl, simDiags_bend_nil]
              simp only [List.filter, show isIfBlockD ⟨line, BDiagKind.endIfUnmatched⟩ =
                true from rfl, List.tail, List.singleton_append]
              rw [funcBranch_ifFilter _ _ _ _ _ _ (fun fS => ih (line + 1) [] fS)]
            · rw [if_neg (by simp), simDiags_bend_cons]
              simp only [List.filter_nil, List.nil_append, List.tail]
              rw [funcBranch_ifFilter _ _ _ _ _ _ (fun fS => ih (line + 1) tl fS)]
          · have hev : (if testLead ifKw text = true then BEvent.bstart line
                else if testLeadEnd ifWord text = true then BEvent.bend line
                else BEvent.bnone) = BEvent.bnone := by simp [hisif, hend]
            rw [hev, if_neg hend, if_neg hend, simDiags_bnone]
            simp only [List.filter_nil, List.nil_append]
            rw [funcBranch_ifFilter _ _ _ _ _ _ (fun fS => ih (line + 1) ifS fS)]

theorem ifWalk_funcFilter (rest : List (List Char)) : ∀ (line : Nat) (ifS funcS : List Nat),
    (ifWalk rest line ifS funcS).filter isFuncBlockD =
      simDiags BDiagKind.endFuncUnmatched BDiagKind.funcMissingEnd
        (kindEventsFrom (testLead funcKw) (testLeadEnd funcWord) line rest) funcS := by
  induction rest with
  | nil =>
    intro line ifS funcS
    rw [ifWalk_nil, kindEventsFrom, simDiags_nil, List.filter_append,
      filter_map_false _ _ _ (fun _ => rfl), filter_map_true _ _ _ (fun _ => rfl),
      List.nil_append]
  | cons text rest ih =>
    intro line ifS funcS
    rw [kindEventsFrom]
    by_cases hcom : isCommentLine text
    · rw [ifWalk_comment _ _ _ _ _ hcom, if_pos hcom, simDiags_bnone]
      exact ih (line + 1) ifS funcS
    · rw [if_neg hcom]
      by_cases hisif : testLead ifKw text
      · have hif : (testLead ifKw text || testElseIf text) = true := by simp [hisif]
        have hfs := ifLead_not_func text hisif
        have hfe := ifLead_not_end text funcWord hisif
        have hev : (if testLead funcKw text = true then BEvent.bstart line
            else if testLeadEnd funcWord text = true then BEvent.bend line
            else BEvent.bnone) = BEvent.bnone := by simp [hfs, hfe]
        rw [ifWalk_ifline _ _ _ _ _ (by simpa using hcom) hif, hev, simDiags_bnone,
          List.filter_append, List.filter_append, filter_ite_singleton _ _ _ rfl,
          filter_ite_singleton _ _ _ rfl, if_pos hisif]
        simpa using ih (line + 1) (line :: ifS) funcS
      · by_cases helse : testElseIf text
        · have hif : (testLead ifKw text || testElseIf text) = true := by simp [helse]
          have hfs := elseIf_not_func text helse
          have hfe := elseIf_not_end text funcWord helse
          have hev : (if testLead funcKw text = true then BEvent.bstart line
              else if testLeadEnd funcWord text = true then BEvent.bend line
              else BEvent.bnone) = BEvent.bnone := by simp [hfs, hfe]
          rw [ifWalk_ifline _ _ _ _ _ (by simpa using hcom) hif, hev, simDiags_bnone,
            List.filter_append, List.filter_append, filter_ite_singleton _ _ _ rfl,
            filter_ite_singleton _ _ _ rfl, if_neg hisif]
          simpa using ih (line + 1) ifS funcS
        · have hif : (testLead ifKw text || testElseIf text) = false := by
            simp [hisif, helse]
          rw [ifWalk_other2 _ _ _ _ _ (by simpa using hcom) hif, List.filter_append]
          have hd1 : (if testLeadEnd ifWord text then
              (if ifS = [] then ([⟨line, BDiagKind.endIfUnmatched⟩] : List BDiag) else [])
              else []).filter isFuncBlockD = [] := by
            by_cases hend : testLeadEnd ifWord text
            · by_cases hnil : ifS = [] <;> simp [hend, hnil, isFuncBlockD]
            · simp [hend]
          rw [hd1, List.nil_append]
          unfold funcBranch
          by_cases hf : testLead funcKw text
          · have hev : (if testLead funcKw text = true then BEvent.bstart line
                else if testLeadEnd funcWord text = true then BEvent.bend line
                else BEvent.bnone) = BEvent.bstart line := by simp [hf]
            rw [hev, simDiags_bstart, if_pos hf]
            exact ih (line + 1) _ (line :: funcS)
          · rw [if_neg hf]
            by_cases hef : testLeadEnd funcWord text
            · have hev : (if testLead funcKw text = true then BEvent.bstart line
                  else if testLeadEnd funcWord text = true then BEvent.bend line
                  else BEvent.bnone) = BEvent.bend line := by simp [hf, hef]
              rw [hev, if_pos hef]
              rcases funcS with _ | ⟨h0, tl⟩
              · rw [if_pos rfl, simDiags_bend_nil]
                simp only [List.filter, show isFuncBlockD ⟨line, BDiagKind.endFuncUnmatched⟩ =
                  true from rfl]
                rw [ih (line + 1) _ []]
              · rw [if_neg (by simp), simDiags_bend_cons]
                exact ih (line + 1) _ tl
            · have hev : (if testLead funcKw text = true then BEvent.bstart line
                  else if testLeadEnd funcWord text = true then BEvent.bend line
                  else BEvent.bnone) = BEvent.bnone := by simp [hf, hef]
              rw [hev, if_neg hef, simDiags_bnone]
              exact ih (line + 1) _ funcS

theorem forWalk_filter (rest : List (List Char)) : ∀ (line : Nat) (forS : List Nat),
    (forWalk rest line forS).filter isForBlockD =
      simDiags BDiagKind.endForUnmatched BDiagKind.forMissingEnd
        (kindEventsFrom (testLead forKw) (testLeadEnd forWord) line rest) forS := by
  induction rest with
  | nil =>
    intro line forS
    rw [show forWalk [] line forS = forS.reverse.map
      (fun l => ⟨l, BDiagKind.forMissingEnd⟩) from rfl, kindEventsFrom, simDiags_nil,
      filter_map_true _ _ _ (fun _ => rfl)]
  | cons text rest ih =>
    intro line forS
    rw [kindEventsFrom, forWalk.eq_def]
    by_cases hcom : isCommentLine text
    · rw [if_pos hcom]
      simp only [hcom, if_true]
      rw [simDiags_bnone]
      exact ih (line + 1) forS
    · simp only [hcom, Bool.false_eq_true, if_false]
      by_cases hfs : testLead forKw text
      · simp only [hfs, if_true]
        rw [simDiags_bstart]
        exact ih (line + 1) (line :: forS)
      · simp only [hfs, Bool.false_eq_true, if_false]
        by_cases hfe : testLeadEnd forWord text
        · simp only [hfe, if_true]
          rcases forS with _ | ⟨h0, tl⟩
          · rw [if_pos rfl, simDiags_bend_nil]
            simp only [List.filter, show isForBlockD ⟨line, BDiagKind.endForUnmatched⟩ =
              true from rfl]
            rw [ih (line + 1) []]
          · rw [if_neg (by simp), simDiags_bend_cons]
            exact ih (line + 1) tl
        · simp only [hfe, Bool.false_eq_true, if_false]
          rw [simDiags_bnone]
          exact ih (line + 1) forS

theorem mem_ite_singleton {b : Bool} {x d : BDiag}
    (h : d ∈ (if b then ([x] : List BDiag) else [])) : d = x := by
  cases b
  · simp at h
  · simpa using h

theorem ifWalk_no_for (rest : List (List Char)) : ∀ (line : Nat) (ifS funcS : List Nat)
    (d : BDiag), d ∈ ifWalk rest line ifS funcS → isForBlockD d = false := by
  induction rest with
  | nil =>
    intro line ifS funcS d hd
    rw [ifWalk_nil] at hd
    rcases List.mem_append.mp hd with h | h
    · obtain ⟨l, _, rfl⟩ := List.mem_map.mp h
      rfl
    · obtain ⟨l, _, rfl⟩ := List.mem_map.mp h
      rfl
  | cons text rest ih =>
    intro line ifS funcS d hd
    by_cases hcom : isCommentLine text
    · rw [ifWalk_comment _ _ _ _ _ hcom] at hd
      exact ih _ _ _ _ hd
    · by_cases hif : (testLead ifKw text || testElseIf text) = true
      · rw [ifWalk_ifline _ _ _ _ _ (by simpa using hcom) hif] at hd
        rcases List.mem_append.mp hd with h | h
        · rw [mem_ite_singleton h]
          rfl
        rcases List.mem_append.mp h with h | h
        · rw [mem_ite_singleton h]
          rfl
        · by_cases hii : testLead ifKw text
          · rw [if_pos hii] at h
            exact ih _ _ _ _ h
          · rw [if_neg hii] at h
            exact ih _ _ _ _ h
      · rw [ifWalk_other2 _ _ _ _ _ (by simpa using hcom) (by simpa using hif)] at hd
        rcases List.mem_append.mp hd with h | h
        · by_cases hend : testLeadEnd ifWord text
          · rw [if_pos hend] at h
            by_cases hnil : ifS = []
            · rw [if_pos hnil] at h
              rw [mem_ite_singleton (show d ∈ (if true then _ else _) from by simpa using h)]
              rfl
            · rw [if_neg hnil] at h
              simp at h
          · rw [if_neg hend] at h
            simp at h
        · unfold funcBranch at h
          by_cases hf : testLead funcKw text
          · rw [if_pos hf] at h
            exact ih _ _ _ _ h
          · rw [if_neg hf] at h
            by_cases hef : testLeadEnd funcWord text
            · rw [if_pos hef] at h
              by_cases hfn : funcS = []
              · rw [if_pos hfn] at h
                rcases List.mem_cons.mp h with h | h
                · rw [h]
                  rfl
                · exact ih _ _ _ _ h
              · rw [if_neg hfn] at h
                exact ih _ _ _ _ h
            · rw [if_neg hef] at h
              exact ih _ _ _ _ h

theorem forWalk_no_iffunc (rest : List (List Char)) : ∀ (line : Nat) (forS : List Nat)
    (d : BDiag), d ∈ forWalk rest line forS →
      isIfBlockD d = false ∧ isFuncBlockD d = false := by
  induction rest with
  | nil =>
    intro line forS d hd
    rw [show forWalk [] line forS = forS.reverse.map
      (fun l => ⟨l, BDiagKind.forMissingEnd⟩) from rfl] at hd
    obtain ⟨l, _, rfl⟩ := List.mem_map.mp hd
    exact ⟨rfl, rfl⟩
  | cons text rest ih =>
    intro line forS d hd
    rw [show forWalk (text :: rest) line forS =
      (if isCommentLine text then forWalk rest (line + 1) forS
       else if testLead forKw text then forWalk rest (line + 1) (line :: forS)
       else if testLeadEnd forWord text then
         (if forS = [] then ⟨line, BDiagKind.endForUnmatched⟩ :: forWalk rest (line + 1) forS
          else forWalk rest (line + 1) forS.tail)
       else forWalk rest (line + 1) forS) from rfl] at hd
    by_cases hcom : isCommentLine text
    · rw [if_pos (by simpa using hcom)] at hd
      exact ih _ _ _ hd
    · rw [if_neg (by simpa using hcom)] at hd
      by_cases hfs : testLead forKw text
      · rw [if_pos (by simpa using hfs)] at hd
        exact ih _ _ _ hd
      · rw [if_neg (by simpa using hfs)] at hd
        by_cases hfe : testLeadEnd forWord text
        · rw [if_pos (by simpa using hfe)] at hd
          by_cases hfn : forS = []
          · rw [if_pos hfn] at hd
            rcases List.mem_cons.mp hd with h | h
            · rw [h]
              exact ⟨rfl, rfl⟩
            · exact ih _ _ _ h
          · rw [if_neg hfn] at hd
            exact ih _ _ _ hd
        · rw [if_neg (by simpa using hfe)] at hd
          exact ih _ _ _ hd

theorem filter_nil_of_kinds (l : List BDiag) (p : BDiag → Bool)
    (h : ∀ d ∈ l, p d = false) : l.filter p = [] := by
  induction l with
  | nil => rfl
  | cons a l ih =>
    rw [List.filter_cons, h a (List.mem_cons_self a l)]
    exact ih (fun d hd => h d (List.mem_cons_of_mem a hd))

/-- C1: for each block kind (If, Function, For), the validators report
exactly the diagnostics of a stack simulation over the non-comment line
stream: an end marker met on an empty stack yields one unmatched-end
diagnostic at that line, each start marker still on the stack at
end-of-document yields one missing-end diagnostic at that line, `@Else If`
lines push nothing, and the diagnostic count per kind equals the
simulation's structural imbalance. -/
theorem claim_C1_blockBalance (lines : List (List Char)) :
    ((provideIfDiagnostics lines).filter isIfBlockD =
        simDiags BDiagKind.endIfUnmatched BDiagKind.ifMissingEnd
          (kindEventsFrom (testLead ifKw) (testLeadEnd ifWord) 0 lines) [] ∧
      (provideIfDiagnostics lines).filter isFuncBlockD =
        simDiags BDiagKind.endFuncUnmatched BDiagKind.funcMissingEnd
          (kindEventsFrom (testLead funcKw) (testLeadEnd funcWord) 0 lines) [] ∧
      (provideIfDiagnostics lines).filter isForBlockD =
        simDiags BDiagKind.endForUnmatched BDiagKind.forMissingEnd
          (kindEventsFrom (testLead forKw) (testLeadEnd forWord) 0 lines) []) ∧
    (((provideIfDiagnostics lines).filter isIfBlockD).length =
        (simStack (kindEventsFrom (testLead ifKw) (testLeadEnd ifWord) 0 lines) []).1.length +
          (simStack (kindEventsFrom (testLead ifKw) (testLeadEnd ifWord) 0 lines) []).2.length ∧
      ((provideIfDiagnostics lines).filter isFuncBlockD).length =
        (simStack (kindEventsFrom (testLead funcKw) (testLeadEnd funcWord) 0 lines) []).1.length +
          (simStack (kindEventsFrom (testLead funcKw) (testLeadEnd funcWord) 0 lines) []).2.length ∧
      ((provideIfDiagnostics lines).filter isForBlockD).length =
        (simStack (kindEventsFrom (testLead forKw) (testLeadEnd forWord) 0 lines) []).1.length +
          (simStack (kindEventsFrom (testLead forKw) (testLeadEnd forWord) 0 lines) []).2.length) := by
  have hIf : (provideIfDiagnostics lines).filter isIfBlockD =
      simDiags BDiagKind.endIfUnmatched BDiagKind.ifMissingEnd
        (kindEventsFrom (testLead ifKw) (testLeadEnd ifWord) 0 lines) [] := by
    rw [provideIfDiagnostics, List.filter_append,
      filter_nil_of_kinds _ _ (fun d hd => (forWalk_no_iffunc lines 0 [] d hd).1),
      List.append_nil, ifWalk_ifFilter]
  have hFunc : (provideIfDiagnostics lines).filter isFuncBlockD =
      simDiags BDiagKind.endFuncUnmatched BDiagKind.funcMissingEnd
        (kindEventsFrom (testLead funcKw) (testLeadEnd funcWord) 0 lines) [] := by
    rw [provideIfDiagnostics, List.filter_append,
      filter_nil_of_kinds _ _ (fun d hd => (forWalk_no_iffunc lines 0 [] d hd).2),
      List.append_nil, ifWalk_funcFilter]
  have hFor : (provideIfDiagnostics lines).filter isForBlockD =
      simDiags BDiagKind.endForUnmatched BDiagKind.forMissingEnd
        (kindEventsFrom (testLead forKw) (testLeadEnd forWord) 0 lines) [] := by
    rw [provideIfDiagnostics, List.filter_append,
      filter_nil_of_kinds _ _ (fun d hd => ifWalk_no_for lines 0 [] [] d hd),
      List.nil_append, forWalk_filter]
  refine ⟨⟨hIf, hFunc, hFor⟩, ?_, ?_, ?_⟩
  · rw [hIf]
    simp [simDiags]
  · rw [hFunc]
    simp [simDiags]
  · rw [hFor]
    simp [simDiags]

/-- Line `j` of the document supplies `@Then`: it exists, is neither blank
nor a comment, and starts (after whitespace) with `@Then`. -/
def suppliesThenAt (lines : List (List Char)) (j : Nat) : Prop :=
  ∃ s, lines[j]? = some s ∧ (isBlank s || isCommentLine s) = false ∧
    testLead thenKw s = true

/-- Line `j` exists and is blank or a comment (skipped by the look-ahead). -/
def skippableAt (lines : List (List Char)) (j : Nat) : Prop :=
  ∃ s, lines[j]? = some s ∧ (isBlank s || isCommentLine s) = true

/-- Claim-side notion for C5, from the specification's wording: the next
non-blank, non-comment line within the 2-line look-ahead window supplies
`@Then`. -/
def nextWindowThen (lines : List (List Char)) (L : Nat) : Prop :=
  suppliesThenAt lines (L + 1) ∨
    (skippableAt lines (L + 1) ∧ suppliesThenAt lines (L + 2))

theorem drop_getElem? (lines : List (List Char)) (n i : Nat) :
    (lines.drop n)[i]? = lines[n + i]? := by
  rw [List.getElem?_drop]

theorem thenLookahead_iff (lines : List (List Char)) (L : Nat) :
    thenLookahead2 ((lines.drop (L + 1)).take 2) = true ↔ nextWindowThen lines L := by
  have h0 : lines[L + 1]? = (lines.drop (L + 1))[0]? := by
    rw [drop_getElem?]
  have h1 : lines[L + 2]? = (lines.drop (L + 1))[1]? := by
    rw [drop_getElem?]
  rcases hdrop : lines.drop (L + 1) with _ | ⟨a, rest⟩
  · rw [hdrop] at h0 h1
    simp only [List.getElem?_nil] at h0 h1
    constructor
    · intro h
      simp [List.take_nil, thenLookahead2] at h
    · intro h
      rcases h with ⟨s, hs, _⟩ | ⟨⟨s, hs, _⟩, _⟩ <;> rw [h0] at hs <;> cases hs
  · rw [hdrop] at h0 h1
    simp only [List.getElem?_cons_zero, List.getElem?_cons_succ] at h0 h1
    rcases rest with _ | ⟨b, rest2⟩
    · simp only [List.getElem?_nil] at h1
      rw [show (([a] : List (List Char)).take 2) = [a] from rfl]
      constructor
      · intro h
        rw [thenLookahead2] at h
        by_cases hsk : (isBlank a || isCommentLine a) = true
        · rw [if_pos hsk] at h
          cases h
        · rw [if_neg hsk] at h
          exact Or.inl ⟨a, h0, by simpa using hsk, h⟩
      · intro h
        rcases h with ⟨s, hs, hnb, ht⟩ | ⟨_, ⟨s, hs, _⟩⟩
        · rw [h0] at hs
          have : a = s := Option.some.inj hs
          subst this
          rw [thenLookahead2, if_neg (by simp [hnb])]
          exact ht
        · rw [h1] at hs
          cases hs
    · simp only [List.getElem?_cons_zero] at h1
      rw [show ((a :: b :: rest2).take 2) = [a, b] from rfl]
      constructor
      · intro h
        rw [thenLookahead2] at h
        by_cases hsk : (isBlank a || isCommentLine a) = true
        · rw [if_pos hsk] at h
          by_cases hsk2 : (isBlank b || isCommentLine b) = true
          · rw [if_pos hsk2] at h
            cases h
          · rw [if_neg hsk2] at h
            exact Or.inr ⟨⟨a, h0, hsk⟩, ⟨b, h1, by simpa using hsk2, h⟩⟩
        · rw [if_neg hsk] at h
          exact Or.inl ⟨a, h0, by simpa using hsk, h⟩
      · intro h
        rcases h with ⟨s, hs, hnb, ht⟩ | ⟨⟨s, hs, hsk⟩, ⟨s2, hs2, hnb2, ht2⟩⟩
        · rw [h0] at hs
          have : a = s := Option.some.inj hs
          subst this
          rw [thenLookahead2, if_neg (by simp [hnb])]
          exact ht
        · rw [h0] at hs
          have : a = s := Option.some.inj hs
          subst this
          rw [h1] at hs2
          have : b = s2 := Option.some.inj hs2
          subst this
          rw [thenLookahead2, if_pos hsk, if_neg (by simp [hnb2])]
          exact ht2

theorem comment_drop_ws (s : List Char) (h : isCommentLine s = true) :
    (s.drop (wsLen s)).head? = some '#' := by
  induction s with
  | nil => cases h
  | cons c cs ih =>
    rw [isCommentLine] at h
    by_cases hc : (c = ' ' || c.toNat = 9) = true
    · rw [if_pos hc] at h
      have hws : jsWs c = true := by
        unfold jsWs
        rcases Bool.or_eq_true_iff.mp hc with h1 | h1 <;> simp [h1]
      rw [wsLen, if_pos hws, List.drop_succ_cons]
      exact ih h
    · rw [if_neg hc] at h
      have hc' : c = '#' := by simpa using h
      subst hc'
      rw [wsLen, if_neg (by decide), List.drop_zero]
      rfl

theorem litPreCI_head_false (p : Char) (ps t : List Char) (c : Char)
    (hh : t.head? = some c) (hne : eqCI p c = false) : litPreCI (p :: ps) t = false := by
  cases t with
  | nil => cases hh
  | cons x xs =>
    have : x = c := Option.some.inj hh
    subst this
    rw [litPreCI, hne]
    rfl

theorem ifLine_not_comment (s : List Char)
    (h : (testLead ifKw s || testElseIf s) = true) : isCommentLine s = false := by
  by_contra hcom
  rw [Bool.not_eq_false] at hcom
  have hh := comment_drop_ws s hcom
  rcases Bool.or_eq_true_iff.mp h with h1 | h1
  · rw [testLead, atKw, show ifKw = '@' :: ['I', 'f'] from rfl,
      litPreCI_head_false '@' _ _ '#' hh (by decide)] at h1
    cases h1
  · rw [testElseIf, show elseKw = '@' :: ['E', 'l', 's', 'e'] from rfl,
      litPreCI_head_false '@' _ _ '#' hh (by decide)] at h1
    cases h1

theorem forWalk_kinds (rest : List (List Char)) : ∀ (line : Nat) (forS : List Nat)
    (d : BDiag), d ∈ forWalk rest line forS →
      d.kind = BDiagKind.endForUnmatched ∨ d.kind = BDiagKind.forMissingEnd := by
  induction rest with
  | nil =>
    intro line forS d hd
    rw [show forWalk [] line forS = forS.reverse.map
      (fun l => ⟨l, BDiagKind.forMissingEnd⟩) from rfl] at hd
    obtain ⟨l, _, rfl⟩ := List.mem_map.mp hd
    exact Or.inr rfl
  | cons text rest ih =>
    intro line forS d hd
    rw [show forWalk (text :: rest) line forS =
      (if isCommentLine text then forWalk rest (line + 1) forS
       else if testLead forKw text then forWalk rest (line + 1) (line :: forS)
       else if testLeadEnd forWord text then
         (if forS = [] then ⟨line, BDiagKind.endForUnmatched⟩ :: forWalk rest (line + 1) forS
          else forWalk rest (line + 1) forS.tail)
       else forWalk rest (line + 1) forS) from rfl] at hd
    by_cases hcom : isCommentLine text
    · rw [if_pos hcom] at hd
      exact ih _ _ _ hd
    · rw [if_neg hcom] at hd
      by_cases hfs : testLead forKw text
      · rw [if_pos hfs] at hd
        exact ih _ _ _ hd
      · rw [if_neg hfs] at hd
        by_cases hfe : testLeadEnd forWord text
        · rw [if_pos hfe] at hd
          by_cases hfn : forS = []
          · rw [if_pos hfn] at hd
            rcases List.mem_cons.mp hd with h | h
            · rw [h]
              exact Or.inl rfl
            · exact ih _ _ _ h
          · rw [if_neg hfn] at hd
            exact ih _ _ _ hd
        · rw [if_neg hfe] at hd
          exact ih _ _ _ hd

theorem ifWalk_thenMem (rest : List (List Char)) : ∀ (line : Nat) (ifS funcS : List Nat)
    (L : Nat),
    ((⟨L, BDiagKind.thenMissing⟩ : BDiag) ∈ ifWalk rest line ifS funcS) ↔
      ∃ idx s, rest[idx]? = some s ∧ line + idx = L ∧
        (testLead ifKw s || testElseIf s) = true ∧ hasThenB s = false ∧
        thenLookahead2 ((rest.drop (idx + 1)).take 2) = false := by
  induction rest with
  | nil =>
    intro line ifS funcS L
    rw [ifWalk_nil]
    constructor
    · intro hd
      rcases List.mem_append.mp hd with h | h
      · obtain ⟨l, _, he⟩ := List.mem_map.mp h
        cases he
      · obtain ⟨l, _, he⟩ := List.mem_map.mp h
        cases he
    · intro ⟨idx, s, hs, _⟩
      rw [List.getElem?_nil] at hs
      cases hs
  | cons text rest ih =>
    intro line ifS funcS L
    by_cases hcom : isCommentLine text
    · rw [ifWalk_comment _ _ _ _ _ hcom]
      rw [ih (line + 1) ifS funcS L]
      constructor
      · intro ⟨idx, s, hs, hl, hline, ht, hla⟩
        exact ⟨idx + 1, s, by simpa using hs, by omega, hline, ht,
          by simpa [List.drop_succ_cons] using hla⟩
      · intro ⟨idx, s, hs, hl, hline, ht, hla⟩
        match idx, hs with
        | 0, hs =>
          have : text = s := by simpa using hs
          subst this
          rw [ifLine_not_comment text hline] at hcom
          cases hcom
        | idx + 1, hs =>
          exact ⟨idx, s, by simpa using hs, by omega, hline,
            ht, by simpa [List.drop_succ_cons] using hla⟩
    · by_cases hif : (testLead ifKw text || testElseIf text) = true
      · rw [ifWalk_ifline _ _ _ _ _ (by simpa using hcom) hif]
        constructor
        · intro hd
          rcases List.mem_append.mp hd with h | h
          · have he := mem_ite_singleton h
            have hL : line = L := by
              have h2 := congrArg BDiag.line he
              simp at h2
              omega
            have hcond : (!(if hasThenB text then true
                else thenLookahead2 (rest.take 2))) = true := by
              by_contra hb
              rw [Bool.not_eq_true] at hb
              rw [hb] at h
              simp at h
            rw [Bool.not_eq_true'] at hcond
            by_cases hht : hasThenB text
            · rw [if_pos hht] at hcond
              cases hcond
            · rw [if_neg hht] at hcond
              exact ⟨0, text, by simp, by omega, hif, by simpa using hht,
                by simpa using hcond⟩
          rcases List.mem_append.mp h with h | h
          · have he := mem_ite_singleton h
            cases he
          · have hrec : (⟨L, BDiagKind.thenMissing⟩ : BDiag) ∈
                ifWalk rest (line + 1) (if testLead ifKw text then line :: ifS else ifS)
                  funcS := by
              by_cases hii : testLead ifKw text
              · rw [if_pos hii]
                rw [if_pos hii] at h
                exact h
              · rw [if_neg hii]
                rw [if_neg hii] at h
                exact h
            rw [ih (line + 1) _ funcS L] at hrec
            obtain ⟨idx, s, hs, hl, hline, ht, hla⟩ := hrec
            exact ⟨idx + 1, s, by simpa using hs, by omega, hline, ht,
              by simpa [List.drop_succ_cons] using hla⟩
        · intro ⟨idx, s, hs, hl, hline, ht, hla⟩
          match idx, hs, hl with
          | 0, hs, hl =>
            have : text = s := by simpa using hs
            subst this
            have hL : line = L := by omega
            subst hL
            apply List.mem_append.mpr
            left
            have hcond : (!(if hasThenB text then true
                else thenLookahead2 (rest.take 2))) = true := by
              rw [if_neg (by simp [ht]), Bool.not_eq_true']
              simpa [List.drop_zero] using hla
            rw [if_pos hcond]
            exact List.mem_singleton.mpr rfl
          | idx + 1, hs, hl =>
            apply List.mem_append.mpr
            right
            apply List.mem_append.mpr
            right
            have hrec := (ih (line + 1)
              (if testLead ifKw text then line :: ifS else ifS) funcS L).mpr
              ⟨idx, s, by simpa using hs, by omega, hline, ht,
                by simpa [List.drop_succ_cons] using hla⟩
            by_cases hii : testLead ifKw text
            · rw [if_pos hii]
              rw [if_pos hii] at hrec
              exact hrec
            · rw [if_neg hii]
              rw [if_neg hii] at hrec
              exact hrec
      · rw [ifWalk_other2 _ _ _ _ _ (by simpa using hcom) (by simpa using hif)]
        have hchar := fun ifS2 fS => ih (line + 1) ifS2 fS L
        have hfb : ∀ ifS2,
            ((⟨L, BDiagKind.thenMissing⟩ : BDiag) ∈ funcBranch text rest line ifS2 funcS) ↔
              (∃ idx s, rest[idx]? = some s ∧ line + 1 + idx = L ∧
                (testLead ifKw s || testElseIf s) = true ∧ hasThenB s = false ∧
                thenLookahead2 ((rest.drop (idx + 1)).take 2) = false) := by
          intro ifS2
          unfold funcBranch
          by_cases hf : testLead funcKw text
          · rw [if_pos hf]
            exact hchar ifS2 (line :: funcS)
          · rw [if_neg hf]
            by_cases hef : testLeadEnd funcWord text
            · rw [if_pos hef]
              by_cases hfn : funcS = []
              · rw [if_pos hfn]
                constructor
                · intro h
                  rcases List.mem_cons.mp h with h | h
                  · cases h
                  · exact (hchar ifS2 funcS).mp h
                · intro h
                  exact List.mem_cons_of_mem _ ((hchar ifS2 funcS).mpr h)
              · rw [if_neg hfn]
                exact hchar ifS2 funcS.tail
            · rw [if_neg hef]
              exact hchar ifS2 funcS
        have hd1 : ∀ d ∈ (if testLeadEnd ifWord text then
            (if ifS = [] then ([⟨line, BDiagKind.endIfUnmatched⟩] : List BDiag) else [])
            else []), d ≠ (⟨L, BDiagKind.thenMissing⟩ : BDiag) := by
          intro d hd
          by_cases hend : testLeadEnd ifWord text
          · rw [if_pos hend] at hd
            by_cases hnil : ifS = []
            · rw [if_pos hnil] at hd
              rw [List.mem_singleton.mp hd]
              intro he
              cases he
            · rw [if_neg hnil] at hd
              cases hd
          · rw [if_neg hend] at hd
            cases hd
        constructor
        · intro hd
          rcases List.mem_append.mp hd with h | h
          · exact absurd rfl (hd1 _ h)
          · obtain ⟨idx, s, hs, hl, hline, ht, hla⟩ := (hfb _).mp h
            exact ⟨idx + 1, s, by simpa using hs, by omega, hline, ht,
              by simpa [List.drop_succ_cons] using hla⟩
        · intro ⟨idx, s, hs, hl, hline, ht, hla⟩
          match idx, hs, hl with
          | 0, hs, hl =>
            have : text = s := by simpa using hs
            subst this
            rw [hline] at hif
            cases hif rfl
          | idx + 1, hs, hl =>
            apply List.mem_append.mpr
            right
            exact (hfb _).mpr ⟨idx, s, by simpa using hs, by omega, hline, ht,
              by simpa [List.drop_succ_cons] using hla⟩

/-- C5: for an `@If`/`@Else If` line, the missing-`@Then` diagnostic is
emitted on that line exactly when `@Then` does not occur on the line and
the next non-blank, non-comment line within the 2-line look-ahead window
does not supply it. -/
theorem claim_C5_thenPresence (lines : List (List Char)) (L : Nat) (s : List Char)
    (hs : lines[L]? = some s) (hLine : (testLead ifKw s || testElseIf s) = true) :
    ((⟨L, BDiagKind.thenMissing⟩ : BDiag) ∈ provideIfDiagnostics lines) ↔
      (hasThenB s = false ∧ ¬ nextWindowThen lines L) := by
  rw [provideIfDiagnostics]
  have hfor : (⟨L, BDiagKind.thenMissing⟩ : BDiag) ∉ forWalk lines 0 [] := by
    intro h
    rcases forWalk_kinds lines 0 [] _ h with h1 | h1 <;> cases h1
  constructor
  · intro hd
    rcases List.mem_append.mp hd with h | h
    · obtain ⟨idx, s2, hs2, hl, _, ht, hla⟩ := (ifWalk_thenMem lines 0 [] [] L).mp h
      have hidx : idx = L := by omega
      rw [hidx] at hs2 hla
      rw [hs] at hs2
      have he : s2 = s := (Option.some.inj hs2).symm
      subst he
      refine ⟨ht, ?_⟩
      intro hnw
      rw [← thenLookahead_iff lines L, hla] at hnw
      cases hnw
    · exact absurd h hfor
  · intro ⟨ht, hnw⟩
    apply List.mem_append.mpr
    left
    apply (ifWalk_thenMem lines 0 [] [] L).mpr
    refine ⟨L, s, hs, by omega, hLine, ht, ?_⟩
    by_contra hla
    rw [Bool.not_eq_false] at hla
    exact hnw ((thenLookahead_iff lines L).mp hla)

theorem claim_C5_witness :
    (["@If a = b".toList][0]? = some ("@If a = b".toList)) ∧
    ((testLead ifKw ("@If a = b".toList) || testElseIf ("@If a = b".toList)) = true) ∧
    (((⟨0, BDiagKind.thenMissing⟩ : BDiag) ∈ provideIfDiagnostics ["@If a = b".toList]) ↔
      (hasThenB ("@If a = b".toList) = false ∧ ¬ nextWindowThen ["@If a = b".toList] 0)) :=
  ⟨by decide, by decide, claim_C5_thenPresence _ 0 _ (by decide) (by decide)⟩

/-- Regexp class `[A-Za-z_]` (first character of an identifier). -/
def isIdentStart (c : Char) : Bool :=
  (('A' ≤ c) && (c ≤ 'Z')) || (('a' ≤ c) && (c ≤ 'z')) || c = '_'

def identStartOpt : Option Char → Bool
  | none => false
  | some c => isIdentStart c

/-- The leading identifier of `s` (regexp `[A-Za-z_][A-Za-z0-9_]*` at the
head, whose first character has been checked separately). -/
def takeIdent (s : List Char) : List Char := s.take (identLen s)

def stringKw : List Char := ['@', 'S', 't', 'r', 'i', 'n', 'g']

def intKw : List Char := ['@', 'I', 'n', 't']

/-- Source `declRe`: `/^\s*@(String|Int)\s+([A-Za-z_][A-Za-z0-9_]*)\b/i`;
returns the declared name.  The two alternatives have incompatible second
characters, so trying them in order matches the regexp engine. -/
def declMatch (text : List Char) : Option (List Char) :=
  let t := text.drop (wsLen text)
  let tryKw := fun (kw : List Char) =>
    if litPreCI kw t then
      let u := t.drop kw.length
      if decide (0 < wsLen u) && identStartOpt ((u.drop (wsLen u)).head?) then
        some (takeIdent (u.drop (wsLen u)))
      else none
    else none
  ((tryKw stringKw).elim (tryKw intKw) fun n => some n)

/-- Source `fnNameRe`:
`/^\s*@Function\s+([A-Za-z_][A-Za-z0-9_]*)\s*(?:\(|$)/i`. -/
def fnNameMatch (text : List Char) : Option (List Char) :=
  let t := text.drop (wsLen text)
  if litPreCI funcKw t then
    let u := t.drop 9
    if decide (0 < wsLen u) && identStartOpt ((u.drop (wsLen u)).head?) then
      let nm := takeIdent (u.drop (wsLen u))
      let v := (u.drop (wsLen u)).drop nm.length
      let v2 := v.drop (wsLen v)
      if v2.head? = some '(' || v2 = [] then some nm else none
    else none
  else none

def setKwCS : List Char := ['@', 'S', 'e', 't']

def getKwCS : List Char := ['@', 'G', 'e', 't', '(']

/-- Source `setUseRe` (`/@Set\s+([A-Za-z_][A-Za-z0-9_]*)\b/g`,
case-sensitive): all matches, as (column of the name as the source computes
it via `lastIndexOf`, name); scanning resumes after each match as the
global-regexp `exec` loop does.  The first argument is fuel (`length + 1`
always suffices). -/
def setScan : Nat → List Char → Nat → List (Nat × List Char)
  | 0, _, _ => []
  | _ + 1, [], _ => []
  | fuel + 1, c :: cs, q =>
    let t := c :: cs
    if litPre setKwCS t then
      let u := t.drop 4
      let w := wsLen u
      if decide (0 < w) && identStartOpt ((u.drop w).head?) then
        let nm := takeIdent (u.drop w)
        let matched := t.take (4 + w + nm.length)
        ((q + (lastIdxOfStr matched nm).getD 0), nm) ::
          setScan fuel (t.drop (4 + w + nm.length)) (q + (4 + w + nm.length))
      else setScan fuel cs (q + 1)
    else setScan fuel cs (q + 1)

/-- Source `getUseRe` (`/@Get\(\s*([A-Za-z_][A-Za-z0-9_]*)\s*\)/g`,
case-sensitive); the name column uses `indexOf` as the source does. -/
def getScan : Nat → List Char → Nat → List (Nat × List Char)
  | 0, _, _ => []
  | _ + 1, [], _ => []
  | fuel + 1, c :: cs, q =>
    let t := c :: cs
    if litPre getKwCS t then
      let u := t.drop 5
      let w1 := wsLen u
      if identStartOpt ((u.drop w1).head?) then
        let nm := takeIdent (u.drop w1)
        let v := (u.drop w1).drop nm.length
        let w2 := wsLen v
        if (v.drop w2).head? = some ')' then
          let mlen := 5 + w1 + nm.length + w2 + 1
          ((q + (idxOfStr (t.take mlen) nm).getD 0), nm) ::
            getScan fuel (t.drop mlen) (q + mlen)
        else getScan fuel cs (q + 1)
      else getScan fuel cs (q + 1)
    else getScan fuel cs (q + 1)

/-- Source `buildFuncLineMap`, loop: each line's owning function index
(`-1` at top level); `@Function` lines start a new index, `@End Function`
lines still belong to their function. -/
def flmGo : List (List Char) → Int → Bool → List Int
  | [], _, _ => []
  | raw :: rest, funcIdx, inFunc =>
    if testLead funcKw raw then (funcIdx + 1) :: flmGo rest (funcIdx + 1) true
    else
      (if inFunc then funcIdx else -1) ::
        flmGo rest funcIdx (if testLeadEnd funcWord raw then false else inFunc)

def buildFuncLineMap (lines : List (List Char)) : List Int := flmGo lines (-1) false

/-- Source `buildFuncNameMap`, loop: function index to declared name. -/
def fnmGo : List (List Char) → Int → List (Int × List Char)
  | [], _ => []
  | raw :: rest, funcIdx =>
    if testLead funcKw raw then
      ((fnNameMatch raw).elim (fnmGo rest (funcIdx + 1))
        fun nm => (funcIdx + 1, nm) :: fnmGo rest (funcIdx + 1))
    else fnmGo rest funcIdx

def buildFuncNameMap (lines : List (List Char)) : List (Int × List Char) :=
  fnmGo lines (-1)

def fnNameOf (lines : List (List Char)) (k : Int) : Option (List Char) :=
  ((buildFuncNameMap lines).find? (fun p => p.1 == k)).map (fun p => p.2)

/-- List membership as a boolean (the `Set.has` of the source). -/
def memN (n : List Char) : List (List Char) → Bool
  | [] => false
  | m :: ms => m = n || memN n ms

/-- The validator's mutable scope state: the global declared-name set and
the per-function local declared-name sets. -/
structure VState where
  g : List (List Char)
  locals : List (Int × List (List Char))
deriving DecidableEq, Repr

/-- Source `getLocalSet` (an absent entry reads as the empty set). -/
def getLocalSet (locals : List (Int × List (List Char))) (k : Int) : List (List Char) :=
  ((locals.find? (fun p => p.1 == k)).map (fun p => p.2)).getD []

def addLocal (locals : List (Int × List (List Char))) (k : Int) (n : List Char) :
    List (Int × List (List Char)) :=
  (k, n :: getLocalSet locals k) :: locals

/-- An undeclared-variable diagnostic: line, column span of the name, which
of the two messages (top-level vs function scope), and the name. -/
structure VDiag where
  line : Nat
  startCol : Nat
  endCol : Nat
  atTop : Bool
  name : List Char
deriving DecidableEq, Repr

/-- Source `allowedInThisLine`. -/
def allowedIn (st : VState) (funcId : Int) (n : List Char) : Bool :=
  if funcId = -1 then memN n st.g
  else memN n (getLocalSet st.locals funcId) || memN n st.g

/-- State update performed by one line of the
`provideUndeclaredVarDiagnostics` walk. -/
def lineState (raw : List Char) (funcId : Int) (st : VState) : VState :=
  if isBlank raw || isCommentLine raw then st
  else
    ((fnNameMatch (stripSingleQuoted2 raw)).elim
      ((declMatch (stripSingleQuoted2 raw)).elim st
        fun n =>
          if funcId = -1 then ⟨n :: st.g, st.locals⟩
          else ⟨st.g, addLocal st.locals funcId n⟩)
      fun n =>
        if funcId = -1 then st else ⟨st.g, addLocal st.locals funcId n⟩)

/-- Diagnostics emitted by one line of the walk: the `@Set` loop then the
`@Get` loop, each flagging names not allowed in the applicable scope. -/
def useDiags (text : List Char) (line : Nat) (funcId : Int) (st : VState) : List VDiag :=
  (setScan (text.length + 1) text 0).filterMap
    (fun p =>
      if allowedIn st funcId p.2 then none
      else some ⟨line, p.1, p.1 + p.2.length, funcId = -1, p.2⟩) ++
    (getScan (text.length + 1) text 0).filterMap
      (fun p =>
        if allowedIn st funcId p.2 then none
        else some ⟨line, p.1, p.1 + p.2.length, funcId = -1, p.2⟩)

def lineDiags (raw : List Char) (line : Nat) (funcId : Int) (st : VState) : List VDiag :=
  if isBlank raw || isCommentLine raw then []
  else
    ((fnNameMatch (stripSingleQuoted2 raw)).elim
      ((declMatch (stripSingleQuoted2 raw)).elim
        (useDiags (stripSingleQuoted2 raw) line funcId st)
        fun _ => [])
      fun _ => [])

/-- Main loop of source `provideUndeclaredVarDiagnostics`. -/
def varWalk : List (List Char) → Nat → List Int → VState → List VDiag
  | [], _, _, _ => []
  | raw :: rest, line, ltf, st =>
    lineDiags raw line (ltf.getD line (-1)) st ++
      varWalk rest (line + 1) ltf (lineState raw (ltf.getD line (-1)) st)

/-- Source `provideUndeclaredVarDiagnostics`. -/
def provideUndeclaredVarDiagnostics (lines : List (List Char)) : List VDiag :=
  varWalk lines 0 (buildFuncLineMap lines) ⟨[], []⟩

example : provideUndeclaredVarDiagnostics
    ["@Function f".toList, "@Get(x)".toList, "@End Function".toList] =
    [⟨1, 5, 6, false, ['x']⟩] := by decide
example : provideUndeclaredVarDiagnostics
    ["@Function f".toList, "@Set f".toList, "@String x".toList, "@Get(x)".toList,
      "@End Function".toList] = [] := by decide
example : provideUndeclaredVarDiagnostics
    ["@String y @Set x".toList, "@String x".toList] = [] := by decide
example : provideUndeclaredVarDiagnostics ["@Set x".toList, "@String x".toList] =
    [⟨0, 5, 6, true, ['x']⟩] := by decide

/-- The validator state after processing a list of lines. -/
def stateThrough : List (List Char) → Nat → List Int → VState → VState
  | [], _, _, st => st
  | raw :: rest, line, ltf, st =>
    stateThrough rest (line + 1) ltf (lineState raw (ltf.getD line (-1)) st)

theorem memN_iff (n : List Char) (l : List (List Char)) : memN n l = true ↔ n ∈ l := by
  induction l with
  | nil => simp [memN]
  | cons m ms ih =>
    rw [memN, Bool.or_eq_true_iff, ih]
    constructor
    · intro h
      rcases h with h | h
      · exact (by simpa using h : m = n) ▸ List.mem_cons_self m ms
      · exact List.mem_cons_of_mem m h
    · intro h
      rcases List.mem_cons.mp h with h | h
      · exact Or.inl (by simp [h])
      · exact Or.inr h

theorem getLocalSet_cons (k2 : Int) (s : List (List Char))
    (locals : List (Int × List (List Char))) (k : Int) :
    getLocalSet ((k2, s) :: locals) k = if k2 = k then s else getLocalSet locals k := by
  unfold getLocalSet
  by_cases h : k2 = k
  · simp [List.find?, h]
  · simp only [List.find?, show ((k2, s).1 == k) = false by simpa using h]
    rw [if_neg h]

theorem getLocalSet_addLocal (locals : List (Int × List (List Char))) (k2 k : Int)
    (n : List Char) :
    getLocalSet (addLocal locals k2 n) k =
      if k2 = k then n :: getLocalSet locals k else getLocalSet locals k := by
  unfold addLocal
  rw [getLocalSet_cons]
  by_cases h : k2 = k
  · rw [if_pos h, if_pos h, h]
  · rw [if_neg h, if_neg h]

/-- Condition under which one line adds `n` to the global set. -/
def gAddCond (raw : List Char) (funcId : Int) (n : List Char) : Prop :=
  isBlank raw = false ∧ isCommentLine raw = false ∧ funcId = -1 ∧
    fnNameMatch (stripSingleQuoted2 raw) = none ∧
    declMatch (stripSingleQuoted2 raw) = some n

/-- Condition under which one line adds `n` to function `k`'s local set. -/
def lAddCond (raw : List Char) (funcId k : Int) (n : List Char) : Prop :=
  isBlank raw = false ∧ isCommentLine raw = false ∧ funcId = k ∧ ¬(k = -1) ∧
    (fnNameMatch (stripSingleQuoted2 raw) = some n ∨
      (fnNameMatch (stripSingleQuoted2 raw) = none ∧
        declMatch (stripSingleQuoted2 raw) = some n))

theorem lineState_g_iff (raw : List Char) (funcId : Int) (st : VState) (n : List Char) :
    n ∈ (lineState raw funcId st).g ↔ n ∈ st.g ∨ gAddCond raw funcId n := by
  unfold lineState gAddCond
  by_cases hb : (isBlank raw || isCommentLine raw) = true
  · rw [if_pos hb]
    constructor
    · exact Or.inl
    · intro h
      rcases h with h | ⟨h1, h2, _⟩
      · exact h
      · rcases Bool.or_eq_true_iff.mp hb with hx | hx
        · rw [hx] at h1
          cases h1
        · rw [hx] at h2
          cases h2
  · rw [if_neg hb]
    have hb1 : isBlank raw = false := by
      rcases h1 : isBlank raw with _ | _
      · rfl
      · rw [h1] at hb
        simp at hb
    have hb2 : isCommentLine raw = false := by
      rcases h1 : isCommentLine raw with _ | _
      · rfl
      · rw [h1] at hb
        simp at hb
    rcases hf : fnNameMatch (stripSingleQuoted2 raw) with _ | nm
    · simp only [Option.elim]
      rcases hd : declMatch (stripSingleQuoted2 raw) with _ | m
      · simp only [Option.elim]
        constructor
        · exact Or.inl
        · intro h
          rcases h with h | ⟨_, _, _, _, h5⟩
          · exact h
          · cases h5
      · simp only [Option.elim]
        by_cases hfid : funcId = -1
        · rw [if_pos hfid]
          show n ∈ m :: st.g ↔ _
          rw [List.mem_cons]
          constructor
          · intro h
            rcases h with h | h
            · exact Or.inr ⟨hb1, hb2, hfid, by trivial, by rw [h]⟩
            · exact Or.inl h
          · intro h
            rcases h with h | ⟨_, _, _, _, h5⟩
            · exact Or.inr h
            · exact Or.inl (Option.some.inj h5).symm
        · rw [if_neg hfid]
          constructor
          · exact Or.inl
          · intro h
            rcases h with h | ⟨_, _, h3, _, _⟩
            · exact h
            · exact absurd h3 hfid
    · simp only [Option.elim]
      by_cases hfid : funcId = -1
      · rw [if_pos hfid]
        constructor
        · exact Or.inl
        · intro h
          rcases h with h | ⟨_, _, _, h4, _⟩
          · exact h
          · cases h4
      · rw [if_neg hfid]
        constructor
        · exact Or.inl
        · intro h
          rcases h with h | ⟨_, _, h3, _, _⟩
          · exact h
          · exact absurd h3 hfid

theorem lineState_local_iff (raw : List Char) (funcId : Int) (st : VState) (k : Int)
    (n : List Char) :
    n ∈ getLocalSet (lineState raw funcId st).locals k ↔
      n ∈ getLocalSet st.locals k ∨ lAddCond raw funcId k n := by
  unfold lineState lAddCond
  by_cases hb : (isBlank raw || isCommentLine raw) = true
  · rw [if_pos hb]
    constructor
    · exact Or.inl
    · intro h
      rcases h with h | ⟨h1, h2, _⟩
      · exact h
      · rcases Bool.or_eq_true_iff.mp hb with hx | hx
        · rw [hx] at h1
          cases h1
        · rw [hx] at h2
          cases h2
  · rw [if_neg hb]
    have hb1 : isBlank raw = false := by
      rcases h1 : isBlank raw with _ | _
      · rfl
      · rw [h1] at hb
        simp at hb
    have hb2 : isCommentLine raw = false := by
      rcases h1 : isCommentLine raw with _ | _
      · rfl
      · rw [h1] at hb
        simp at hb
    rcases hf : fnNameMatch (stripSingleQuoted2 raw) with _ | nm
    · simp only [Option.elim]
      rcases hd : declMatch (stripSingleQuoted2 raw) with _ | m
      · simp only [Option.elim]
        constructor
        · exact Or.inl
        · intro h
          rcases h with h | ⟨_, _, _, _, h5 | ⟨_, h6⟩⟩
          · exact h
          · cases h5
          · cases h6
      · simp only [Option.elim]
        by_cases hfid : funcId = -1
        · rw [if_pos hfid]
          constructor
          · exact Or.inl
          · intro h
            rcases h with h | ⟨_, _, h3, h4, _⟩
            · exact h
            · rw [hfid] at h3
              exact absurd h3.symm h4
        · rw [if_neg hfid]
          show n ∈ getLocalSet (addLocal st.locals funcId m) k ↔ _
          rw [getLocalSet_addLocal]
          by_cases hfk : funcId = k
          · rw [if_pos hfk, List.mem_cons]
            constructor
            · intro h
              rcases h with h | h
              · exact Or.inr ⟨hb1, hb2, hfk, by rw [← hfk]; exact hfid,
                  Or.inr ⟨by trivial, by rw [h]⟩⟩
              · exact Or.inl h
            · intro h
              rcases h with h | ⟨_, _, _, _, h5 | ⟨_, h6⟩⟩
              · exact Or.inr h
              · cases h5
              · exact Or.inl (Option.some.inj h6).symm
          · rw [if_neg hfk]
            constructor
            · exact Or.inl
            · intro h
              rcases h with h | ⟨_, _, h3, _, _⟩
              · exact h
              · exact absurd h3 hfk
    · simp only [Option.elim]
      by_cases hfid : funcId = -1
      · rw [if_pos hfid]
        constructor
        · exact Or.inl
        · intro h
          rcases h with h | ⟨_, _, h3, h4, _⟩
          · exact h
          · rw [hfid] at h3
            exact absurd h3.symm h4
      · rw [if_neg hfid]
        show n ∈ getLocalSet (addLocal st.locals funcId nm) k ↔ _
        rw [getLocalSet_addLocal]
        by_cases hfk : funcId = k
        · rw [if_pos hfk, List.mem_cons]
          constructor
          · intro h
            rcases h with h | h
            · exact Or.inr ⟨hb1, hb2, hfk, by rw [← hfk]; exact hfid, Or.inl (by rw [h])⟩
            · exact Or.inl h
          · intro h
            rcases h with h | ⟨_, _, _, _, h5 | ⟨h6, _⟩⟩
            · exact Or.inr h
            · exact Or.inl (Option.some.inj h5).symm
            · cases h6
        · rw [if_neg hfk]
          constructor
          · exact Or.inl
          · intro h
            rcases h with h | ⟨_, _, h3, _, _⟩
            · exact h
            · exact absurd h3 hfk

theorem stateThrough_g_iff (xs : List (List Char)) : ∀ (line : Nat) (ltf : List Int)
    (st : VState) (n : List Char),
    n ∈ (stateThrough xs line ltf st).g ↔
      n ∈ st.g ∨ ∃ i raw, xs[i]? = some raw ∧ gAddCond raw (ltf.getD (line + i) (-1)) n := by
  induction xs with
  | nil =>
    intro line ltf st n
    rw [stateThrough]
    constructor
    · exact Or.inl
    · intro h
      rcases h with h | ⟨i, raw, hi, _⟩
      · exact h
      · rw [List.getElem?_nil] at hi
        cases hi
  | cons raw0 rest ih =>
    intro line ltf st n
    rw [stateThrough, ih, lineState_g_iff]
    constructor
    · intro h
      rcases h with (h | h) | ⟨i, raw, hi, hc⟩
      · exact Or.inl h
      · exact Or.inr ⟨0, raw0, by simp, by simpa using h⟩
      · exact Or.inr ⟨i + 1, raw, by simpa using hi, by
          have : line + 1 + i = line + (i + 1) := by omega
          rw [← this]
          exact hc⟩
    · intro h
      rcases h with h | ⟨i, raw, hi, hc⟩
      · exact Or.inl (Or.inl h)
      · match i, hi, hc with
        | 0, hi, hc =>
          have he : raw0 = raw := by simpa using hi
          subst he
          exact Or.inl (Or.inr (by simpa using hc))
        | i + 1, hi, hc =>
          exact Or.inr ⟨i, raw, by simpa using hi, by
            have : line + 1 + i = line + (i + 1) := by omega
            rw [this]
            exact hc⟩

theorem stateThrough_local_iff (xs : List (List Char)) : ∀ (line : Nat) (ltf : List Int)
    (st : VState) (k : Int) (n : List Char),
    n ∈ getLocalSet (stateThrough xs line ltf st).locals k ↔
      n ∈ getLocalSet st.locals k ∨
        ∃ i raw, xs[i]? = some raw ∧ lAddCond raw (ltf.getD (line + i) (-1)) k n := by
  induction xs with
  | nil =>
    intro line ltf st k n
    rw [stateThrough]
    constructor
    · exact Or.inl
    · intro h
      rcases h with h | ⟨i, raw, hi, _⟩
      · exact h
      · rw [List.getElem?_nil] at hi
        cases hi
  | cons raw0 rest ih =>
    intro line ltf st k n
    rw [stateThrough, ih, lineState_local_iff]
    constructor
    · intro h
      rcases h with (h | h) | ⟨i, raw, hi, hc⟩
      · exact Or.inl h
      · exact Or.inr ⟨0, raw0, by simp, by simpa using h⟩
      · exact Or.inr ⟨i + 1, raw, by simpa using hi, by
          have : line + 1 + i = line + (i + 1) := by omega
          rw [← this]
          exact hc⟩
    · intro h
      rcases h with h | ⟨i, raw, hi, hc⟩
      · exact Or.inl (Or.inl h)
      · match i, hi, hc with
        | 0, hi, hc =>
          have he : raw0 = raw := by simpa using hi
          subst he
          exact Or.inl (Or.inr (by simpa using hc))
        | i + 1, hi, hc =>
          exact Or.inr ⟨i, raw, by simpa using hi, by
            have : line + 1 + i = line + (i + 1) := by omega
            rw [this]
            exact hc⟩

theorem varWalk_mem (rest : List (List Char)) : ∀ (line : Nat) (ltf : List Int)
    (st : VState) (d : VDiag),
    d ∈ varWalk rest line ltf st ↔
      ∃ idx raw, rest[idx]? = some raw ∧
        d ∈ lineDiags raw (line + idx) (ltf.getD (line + idx) (-1))
          (stateThrough (rest.take idx) line ltf st) := by
  induction rest with
  | nil =>
    intro line ltf st d
    rw [varWalk]
    constructor
    · intro h
      cases h
    · intro ⟨idx, raw, hi, _⟩
      rw [List.getElem?_nil] at hi
      cases hi
  | cons raw0 rest ih =>
    intro line ltf st d
    rw [varWalk]
    constructor
    · intro h
      rcases List.mem_append.mp h with h | h
      · exact ⟨0, raw0, by simp, by simpa using h⟩
      · obtain ⟨idx, raw, hi, hd⟩ := (ih (line + 1) ltf (lineState raw0 (ltf.getD line (-1)) st) d).mp h
        refine ⟨idx + 1, raw, by simpa using hi, ?_⟩
        have e1 : line + (idx + 1) = line + 1 + idx := by omega
        rw [e1]
        rw [show (raw0 :: rest).take (idx + 1) = raw0 :: rest.take idx from rfl,
          stateThrough]
        exact hd
    · intro ⟨idx, raw, hi, hd⟩
      apply List.mem_append.mpr
      match idx, hi, hd with
      | 0, hi, hd =>
        have he : raw0 = raw := by simpa using hi
        subst he
        left
        simpa using hd
      | idx + 1, hi, hd =>
        right
        apply (ih (line + 1) ltf (lineState raw0 (ltf.getD line (-1)) st) d).mpr
        refine ⟨idx, raw, by simpa using hi, ?_⟩
        have e1 : line + (idx + 1) = line + 1 + idx := by omega
        rw [e1] at hd
        rw [show (raw0 :: rest).take (idx + 1) = raw0 :: rest.take idx from rfl,
          stateThrough] at hd
        exact hd

theorem lineDiags_shape (raw : List Char) (line : Nat) (funcId : Int) (st : VState)
    (d : VDiag) (hd : d ∈ lineDiags raw line funcId st) :
    d.line = line ∧ allowedIn st funcId d.name = false := by
  unfold lineDiags at hd
  by_cases hb : (isBlank raw || isCommentLine raw) = true
  · rw [if_pos hb] at hd
    cases hd
  · rw [if_neg hb] at hd
    rcases hf : fnNameMatch (stripSingleQuoted2 raw) with _ | nm
    · rw [hf] at hd
      simp only [Option.elim] at hd
      rcases hdc : declMatch (stripSingleQuoted2 raw) with _ | m
      · rw [hdc] at hd
        simp only [Option.elim] at hd
        unfold useDiags at hd
        rcases List.mem_append.mp hd with h | h <;>
        · obtain ⟨p, _, hp⟩ := List.mem_filterMap.mp h
          by_cases ha : allowedIn st funcId p.2
          · rw [if_pos ha] at hp
            cases hp
          · rw [if_neg ha] at hp
            have he := Option.some.inj hp
            constructor
            · rw [← he]
            · rw [← he]
              simpa using ha
      · rw [hdc] at hd
        simp only [Option.elim] at hd
        cases hd
    · rw [hf] at hd
      simp only [Option.elim] at hd
      cases hd

theorem lineDiags_exists (raw : List Char) (line : Nat) (funcId : Int) (st : VState)
    (q : Nat) (n : List Char)
    (hb : isBlank raw = false) (hc : isCommentLine raw = false)
    (hf : fnNameMatch (stripSingleQuoted2 raw) = none)
    (hdc : declMatch (stripSingleQuoted2 raw) = none)
    (hu : (q, n) ∈ setScan ((stripSingleQuoted2 raw).length + 1) (stripSingleQuoted2 raw) 0 ∨
      (q, n) ∈ getScan ((stripSingleQuoted2 raw).length + 1) (stripSingleQuoted2 raw) 0)
    (hna : allowedIn st funcId n = false) :
    (⟨line, q, q + n.length, decide (funcId = -1), n⟩ : VDiag) ∈
      lineDiags raw line funcId st := by
  unfold lineDiags
  rw [if_neg (by simp [hb, hc]), hf]
  simp only [Option.elim]
  rw [hdc]
  simp only [Option.elim]
  unfold useDiags
  apply List.mem_append.mpr
  rcases hu with hu | hu
  · left
    apply List.mem_filterMap.mpr
    exact ⟨(q, n), hu, by rw [if_neg (by simp [hna])]⟩
  · right
    apply List.mem_filterMap.mpr
    exact ⟨(q, n), hu, by rw [if_neg (by simp [hna])]⟩

theorem lineDiags_decl_nil (raw : List Char) (line : Nat) (funcId : Int) (st : VState)
    (hdc : ¬ (declMatch (stripSingleQuoted2 raw) = none)) :
    lineDiags raw line funcId st = [] := by
  unfold lineDiags
  by_cases hb : (isBlank raw || isCommentLine raw) = true
  · rw [if_pos hb]
  · rw [if_neg hb]
    rcases hf : fnNameMatch (stripSingleQuoted2 raw) with _ | nm
    · simp only [Option.elim]
      rcases hd2 : declMatch (stripSingleQuoted2 raw) with _ | m
      · exact absurd hd2 hdc
      · simp only [Option.elim]
    · simp only [Option.elim]

theorem lineDiags_fn_nil (raw : List Char) (line : Nat) (funcId : Int) (st : VState)
    (hfn : ¬ (fnNameMatch (stripSingleQuoted2 raw) = none)) :
    lineDiags raw line funcId st = [] := by
  unfold lineDiags
  by_cases hb : (isBlank raw || isCommentLine raw) = true
  · rw [if_pos hb]
  · rw [if_neg hb]
    rcases hf : fnNameMatch (stripSingleQuoted2 raw) with _ | nm
    · exact absurd hf hfn
    · simp only [Option.elim]

/-- Claim-side: line `l` of the document declares `n` into the global set
(top-level `@String`/`@Int` declaration on a processed line). -/
def addsGlobalAt (lines : List (List Char)) (ltf : List Int) (l : Nat) (n : List Char) :
    Prop :=
  ∃ raw, lines[l]? = some raw ∧ gAddCond raw (ltf.getD l (-1)) n

/-- Claim-side: line `l` of the document declares `n` into function `k`'s
local set (a local `@String`/`@Int` declaration, or the implicit
`@Function` return-variable addition). -/
def addsLocalAt (lines : List (List Char)) (ltf : List Int) (k : Int) (l : Nat)
    (n : List Char) : Prop :=
  ∃ raw, lines[l]? = some raw ∧ lAddCond raw (ltf.getD l (-1)) k n

theorem stateAt_g_iff (lines : List (List Char)) (ltf : List Int) (L : Nat)
    (n : List Char) :
    n ∈ (stateThrough (lines.take L) 0 ltf ⟨[], []⟩).g ↔
      ∃ l, l < L ∧ addsGlobalAt lines ltf l n := by
  rw [stateThrough_g_iff]
  constructor
  · intro h
    rcases h with h | ⟨i, raw, hi, hc⟩
    · cases h
    · rw [List.getElem?_take] at hi
      by_cases hlt : i < L
      · rw [if_pos hlt] at hi
        exact ⟨i, hlt, raw, hi, by simpa using hc⟩
      · rw [if_neg hlt] at hi
        cases hi
  · intro ⟨l, hl, raw, hraw, hc⟩
    refine Or.inr ⟨l, raw, ?_, by simpa using hc⟩
    rw [List.getElem?_take, if_pos hl]
    exact hraw

theorem stateAt_local_iff (lines : List (List Char)) (ltf : List Int) (L : Nat) (k : Int)
    (n : List Char) :
    n ∈ getLocalSet (stateThrough (lines.take L) 0 ltf ⟨[], []⟩).locals k ↔
      ∃ l, l < L ∧ addsLocalAt lines ltf k l n := by
  rw [stateThrough_local_iff]
  constructor
  · intro h
    rcases h with h | ⟨i, raw, hi, hc⟩
    · simp [getLocalSet, List.find?] at h
    · rw [List.getElem?_take] at hi
      by_cases hlt : i < L
      · rw [if_pos hlt] at hi
        exact ⟨i, hlt, raw, hi, by simpa using hc⟩
      · rw [if_neg hlt] at hi
        cases hi
  · intro ⟨l, hl, raw, hraw, hc⟩
    refine Or.inr ⟨l, raw, ?_, by simpa using hc⟩
    rw [List.getElem?_take, if_pos hl]
    exact hraw

/-- C3, counterexample to the claim as stated: on the document
`@String y @Set x` / `@String x`, the line-0 `@Set x` is a use of `x`
before any declaration of `x`, yet the validator reports no diagnostic at
all, because use checks are skipped on any line matching the declaration
pattern (`continue` after the `@String y` match). -/
theorem claim_C3_counterexample :
    ((15, ['x']) ∈ setScan
      ((stripSingleQuoted2 ("@String y @Set x".toList)).length + 1)
      (stripSingleQuoted2 ("@String y @Set x".toList)) 0) ∧
    (∀ l : Nat, ¬ (l < 0)) ∧
    provideUndeclaredVarDiagnostics
      ["@String y @Set x".toList, "@String x".toList] = [] := by
  refine ⟨by decide, fun l => Nat.not_lt_zero l, by decide⟩

/-- C3 as amended: declared-name sets accumulate strictly top-down.  Once a
name is declared at line `L` (by `@String`/`@Int`), every `@Set`/`@Get`
use of it on any later line of the same scope is accepted; and a use on an
earlier line with no visible prior declaration is rejected — provided the
use occurs on a line that is itself subject to use checks (not blank, not
a comment, and not itself a `@Function`/`@String`/`@Int` declaration line,
which the walk skips without checking uses). -/
theorem claim_C3_scopeMonotonic (lines : List (List Char)) :
    (∀ (L : Nat) (raw n : List Char),
      lines[L]? = some raw → isBlank raw = false → isCommentLine raw = false →
      fnNameMatch (stripSingleQuoted2 raw) = none →
      declMatch (stripSingleQuoted2 raw) = some n →
      ∀ L2, L ≤ L2 →
        (buildFuncLineMap lines).getD L2 (-1) = (buildFuncLineMap lines).getD L (-1) →
        ∀ d ∈ provideUndeclaredVarDiagnostics lines, d.line = L2 → d.name ≠ n)
    ∧
    (∀ (L2 : Nat) (raw n : List Char) (q : Nat),
      lines[L2]? = some raw → isBlank raw = false → isCommentLine raw = false →
      fnNameMatch (stripSingleQuoted2 raw) = none →
      declMatch (stripSingleQuoted2 raw) = none →
      ((q, n) ∈ setScan ((stripSingleQuoted2 raw).length + 1) (stripSingleQuoted2 raw) 0 ∨
        (q, n) ∈ getScan ((stripSingleQuoted2 raw).length + 1) (stripSingleQuoted2 raw) 0) →
      (∀ l, l < L2 → ¬ addsGlobalAt lines (buildFuncLineMap lines) l n) →
      (¬ ((buildFuncLineMap lines).getD L2 (-1) = -1) →
        ∀ l, l < L2 → ¬ addsLocalAt lines (buildFuncLineMap lines)
          ((buildFuncLineMap lines).getD L2 (-1)) l n) →
      ∃ d ∈ provideUndeclaredVarDiagnostics lines,
        d.line = L2 ∧ d.name = n ∧ d.startCol = q ∧ d.endCol = q + n.length) := by
  constructor
  · intro L raw n hL hb hc hf hdc L2 hle hsc d hdm hdl heq
    rw [provideUndeclaredVarDiagnostics] at hdm
    obtain ⟨idx, raw2, hidx, hld⟩ := (varWalk_mem lines 0 (buildFuncLineMap lines)
      ⟨[], []⟩ d).mp hdm
    simp only [Nat.zero_add] at hld
    obtain ⟨hdline, hallow⟩ := lineDiags_shape _ _ _ _ _ hld
    have hidx2 : idx = L2 := by omega
    subst hidx2
    by_cases hLL : L = idx
    · subst hLL
      rw [hL] at hidx
      have he : raw2 = raw := (Option.some.inj hidx).symm
      subst he
      rw [lineDiags_decl_nil _ _ _ _ (by rw [hdc]; intro hcon; cases hcon)] at hld
      cases hld
    · have hlt : L < idx := by omega
      rw [heq] at hallow
      by_cases hm1 : (buildFuncLineMap lines).getD L (-1) = -1
      · have hg : n ∈ (stateThrough (lines.take idx) 0 (buildFuncLineMap lines)
            ⟨[], []⟩).g := by
          rw [stateAt_g_iff]
          exact ⟨L, hlt, raw, hL, hb, hc, hm1, hf, hdc⟩
        rw [allowedIn, if_pos (by rw [hsc, hm1]), (memN_iff _ _).mpr hg] at hallow
        cases hallow
      · have hloc : n ∈ getLocalSet (stateThrough (lines.take idx) 0
            (buildFuncLineMap lines) ⟨[], []⟩).locals
            ((buildFuncLineMap lines).getD L (-1)) := by
          rw [stateAt_local_iff]
          exact ⟨L, hlt, raw, hL, hb, hc, rfl, hm1, Or.inr ⟨hf, hdc⟩⟩
        rw [allowedIn, if_neg (by rw [hsc]; exact hm1), hsc,
          (memN_iff _ _).mpr hloc] at hallow
        rw [Bool.true_or] at hallow
        cases hallow
  · intro L2 raw n q hL2 hb hc hf hdc hu hg hl
    have hallow : allowedIn (stateThrough (lines.take L2) 0 (buildFuncLineMap lines)
        ⟨[], []⟩) ((buildFuncLineMap lines).getD L2 (-1)) n = false := by
      rw [allowedIn]
      by_cases hfid : (buildFuncLineMap lines).getD L2 (-1) = -1
      · rw [if_pos hfid]
        rcases hmem : memN n (stateThrough (lines.take L2) 0 (buildFuncLineMap lines)
            ⟨[], []⟩).g with _ | _
        · rfl
        · obtain ⟨l, hll, ha⟩ := (stateAt_g_iff lines (buildFuncLineMap lines) L2 n).mp
            ((memN_iff _ _).mp hmem)
          exact absurd ha (hg l hll)
      · rw [if_neg hfid]
        rcases hmem : memN n (stateThrough (lines.take L2) 0 (buildFuncLineMap lines)
            ⟨[], []⟩).g with _ | _
        · rcases hmem2 : memN n (getLocalSet (stateThrough (lines.take L2) 0
              (buildFuncLineMap lines) ⟨[], []⟩).locals
              ((buildFuncLineMap lines).getD L2 (-1))) with _ | _
          · rfl
          · obtain ⟨l, hll, ha⟩ := (stateAt_local_iff lines (buildFuncLineMap lines) L2
              ((buildFuncLineMap lines).getD L2 (-1)) n).mp ((memN_iff _ _).mp hmem2)
            exact absurd ha (hl hfid l hll)
        · obtain ⟨l, hll, ha⟩ := (stateAt_g_iff lines (buildFuncLineMap lines) L2 n).mp
            ((memN_iff _ _).mp hmem)
          exact absurd ha (hg l hll)
    refine ⟨⟨L2, q, q + n.length,
      decide ((buildFuncLineMap lines).getD L2 (-1) = -1), n⟩, ?_, rfl, rfl, rfl, rfl⟩
    rw [provideUndeclaredVarDiagnostics]
    apply (varWalk_mem lines 0 (buildFuncLineMap lines) ⟨[], []⟩ _).mpr
    refine ⟨L2, raw, hL2, ?_⟩
    simp only [Nat.zero_add]
    exact lineDiags_exists raw L2 _ _ q n hb hc hf hdc hu hallow

theorem claim_C3_witness :
    ((["@String x".toList, "@Set x".toList][0]? = some ("@String x".toList)) ∧
      declMatch (stripSingleQuoted2 ("@String x".toList)) = some ['x'] ∧
      (∀ d ∈ provideUndeclaredVarDiagnostics ["@String x".toList, "@Set x".toList],
        d.line = 1 → d.name ≠ ['x'])) ∧
    (∃ d ∈ provideUndeclaredVarDiagnostics ["@Set x".toList, "@String x".toList],
      d.line = 0 ∧ d.name = ['x'] ∧ d.startCol = 5 ∧ d.endCol = 6) := by
  constructor
  · refine ⟨by decide, by decide, ?_⟩
    exact (claim_C3_scopeMonotonic ["@String x".toList, "@Set x".toList]).1 0
      ("@String x".toList) ['x'] (by decide) (by decide) (by decide) (by decide)
      (by decide) 1 (by omega) (by decide)
  · refine (claim_C3_scopeMonotonic ["@Set x".toList, "@String x".toList]).2 0
      ("@Set x".toList) ['x'] 5 (by decide) (by decide) (by decide) (by decide)
      (by decide) (Or.inl (by decide)) ?_ ?_
    · intro l hl
      exact absurd hl (Nat.not_lt_zero l)
    · intro _ l hl
      exact absurd hl (Nat.not_lt_zero l)

theorem drop_wsLen_head (s : List Char) : ∀ (c : Char),
    (s.drop (wsLen s)).head? = some c → jsWs c = false := by
  induction s with
  | nil =>
    intro c h
    cases h
  | cons c0 cs ih =>
    intro c h
    by_cases hws : jsWs c0 = true
    · rw [wsLen, if_pos hws, List.drop_succ_cons] at h
      exact ih c h
    · rw [wsLen, if_neg hws, List.drop_zero] at h
      have he : c0 = c := Option.some.inj h
      rw [← he]
      simpa using hws

theorem testLead_not_blank (x : Char) (ks s : List Char)
    (h : testLead (x :: ks) s = true) : isBlank s = false := by
  rw [testLead, atKw] at h
  obtain ⟨h1, _⟩ := Bool.and_eq_true_iff.mp h
  rcases ht : s.drop (wsLen s) with _ | ⟨c, cs⟩
  · rw [ht] at h1
    cases h1
  · have hhd : (s.drop (wsLen s)).head? = some c := by rw [ht]; rfl
    have hnws := drop_wsLen_head s c hhd
    have hmem : c ∈ s := List.drop_subset (wsLen s) s (ht ▸ List.mem_cons_self c cs)
    by_contra hbl
    rw [Bool.not_eq_false] at hbl
    rw [isBlank, List.all_eq_true] at hbl
    rw [hbl c hmem] at hnws
    cases hnws

theorem testLead_at_not_comment (ks s : List Char)
    (h : testLead ('@' :: ks) s = true) : isCommentLine s = false := by
  by_contra hcom
  rw [Bool.not_eq_false] at hcom
  rw [testLead, atKw,
    litPreCI_head_false '@' ks _ '#' (comment_drop_ws s hcom) (by decide)] at h
  cases h

/-- C7: the validator implicitly declares a function's own name into the
function's local set when it processes the `@Function` line (on which it
performs no use checks), so `@Set F` / `@Get(F)` inside the body of a
function named `F` is never flagged. -/
theorem claim_C7_functionReturnName (lines : List (List Char)) (k : Int) (l0 : Nat)
    (raw0 F : List Char)
    (h0 : lines[l0]? = some raw0)
    (hstart : testLead funcKw raw0 = true)
    (hmap : (buildFuncLineMap lines).getD l0 (-1) = k)
    (hk : ¬ (k = -1))
    (hname : fnNameMatch (stripSingleQuoted2 raw0) = some F)
    (hmin : ∀ l, l < l0 → (buildFuncLineMap lines).getD l (-1) ≠ k) :
    (∀ d ∈ provideUndeclaredVarDiagnostics lines, d.line ≠ l0) ∧
    (∀ d ∈ provideUndeclaredVarDiagnostics lines,
      (buildFuncLineMap lines).getD d.line (-1) = k → d.name ≠ F) := by
  have hfn_nil : ∀ (fid : Int) (st : VState),
      lineDiags raw0 l0 fid st = [] := fun fid st =>
    lineDiags_fn_nil raw0 l0 fid st (by rw [hname]; intro hcon; cases hcon)
  constructor
  · intro d hdm hdl
    rw [provideUndeclaredVarDiagnostics] at hdm
    obtain ⟨idx, raw2, hidx, hld⟩ := (varWalk_mem lines 0 (buildFuncLineMap lines)
      ⟨[], []⟩ d).mp hdm
    simp only [Nat.zero_add] at hld
    obtain ⟨hdline, _⟩ := lineDiags_shape _ _ _ _ _ hld
    have hidx2 : idx = l0 := by omega
    subst hidx2
    rw [h0] at hidx
    have he : raw2 = raw0 := (Option.some.inj hidx).symm
    subst he
    rw [hfn_nil] at hld
    cases hld
  · intro d hdm hdk heq
    rw [provideUndeclaredVarDiagnostics] at hdm
    obtain ⟨idx, raw2, hidx, hld⟩ := (varWalk_mem lines 0 (buildFuncLineMap lines)
      ⟨[], []⟩ d).mp hdm
    simp only [Nat.zero_add] at hld
    obtain ⟨hdline, hallow⟩ := lineDiags_shape _ _ _ _ _ hld
    have hdk2 : (buildFuncLineMap lines).getD idx (-1) = k := by rw [← hdline]; exact hdk
    have hge : ¬ (idx < l0) := fun hlt => hmin idx hlt hdk2
    by_cases hLL : idx = l0
    · subst hLL
      rw [h0] at hidx
      have he : raw2 = raw0 := (Option.some.inj hidx).symm
      subst he
      rw [hfn_nil] at hld
      cases hld
    · have hlt : l0 < idx := by omega
      have hloc : F ∈ getLocalSet (stateThrough (lines.take idx) 0
          (buildFuncLineMap lines) ⟨[], []⟩).locals k := by
        rw [stateAt_local_iff]
        refine ⟨l0, hlt, raw0, h0, ?_, ?_, hmap, hk, Or.inl hname⟩
        · exact testLead_not_blank '@' _ raw0 hstart
        · exact testLead_at_not_comment _ raw0 hstart
      rw [heq, hdk2, allowedIn, if_neg hk, (memN_iff _ _).mpr hloc,
        Bool.true_or] at hallow
      cases hallow

theorem claim_C7_witness :
    (∀ d ∈ provideUndeclaredVarDiagnostics
      ["@Function f".toList, "@Set f".toList, "@End Function".toList], d.line ≠ 0) ∧
    (∀ d ∈ provideUndeclaredVarDiagnostics
      ["@Function f".toList, "@Set f".toList, "@End Function".toList],
      (buildFuncLineMap
        ["@Function f".toList, "@Set f".toList, "@End Function".toList]).getD
          d.line (-1) = 0 → d.name ≠ ['f']) :=
  claim_C7_functionReturnName
    ["@Function f".toList, "@Set f".toList, "@End Function".toList] 0 0
    ("@Function f".toList) ['f'] (by decide) (by decide) (by decide) (by decide)
    (by decide) (fun l hl => absurd hl (Nat.not_lt_zero l))

/-- Semantic token categories of the source legend. -/
inductive TokKind where
  | ablMap
  | ablFunc
  | ablLogic
  | ablData
  | ablFunctionDecl
  | ablFunctionEnd
  | ablFunctionCall
  | ablReturn
deriving DecidableEq, Repr

/-- An emitted token span (`pushToken` of the source). -/
structure Span where
  line : Nat
  col : Nat
  len : Nat
  kind : TokKind
deriving DecidableEq, Repr

def BUILTIN_FUNCTIONS : List (List Char) :=
  ["Get".toList, "Set".toList, "UpperCase".toList, "LowerCase".toList,
    "SubString".toList, "Replace".toList, "Length".toList, "LengthB".toList,
    "Pos".toList, "FilePath".toList, "Trim".toList, "Naming".toList,
    "SysDateTime".toList, "GetTabSpace".toList, "GetSpace".toList,
    "GetTokenSpace".toList, "Prespace".toList, "Pretab".toList, "Space".toList,
    "SetQueryClear".toList, "SetQueryAdd".toList, "GetSelectQueryResult".toList,
    "QueryExecution".toList, "QueryResultToMap".toList,
    "GenerationCreateFile".toList, "Tobe_File_Path".toList, "Tobe_File_Name".toList]

def WRITER_KEYWORDS : List (List Char) :=
  ["Data".toList, "Base".toList, "AddLine".toList, "InsertLine".toList,
    "AddLinePrespace".toList, "InsertLinePrespace".toList]

def AT_CONTROL_WORDS : List (List Char) :=
  ["If".toList, "Then".toList, "Else".toList, "For".toList, "End".toList,
    "Break".toList, "Continue".toList, "Function".toList]

/-- Scanner state of the per-line loop in `provideTokens`: the call-frame
stack (kind and parenthesis depth), the If-condition mode with its tracked
depth, and the (never assigned) `inSingleQuote` flag. -/
structure ScanSt where
  stack : List (TokKind × Nat)
  ifMode : Bool
  ifParenDepth : Nat
  inSingleQuote : Bool
deriving DecidableEq, Repr

def prevC (s : List Char) (p : Nat) : Option Char :=
  if p = 0 then none else s[p - 1]?

/-- Source `isWordBoundary` (out-of-range reads are the empty string, on
which the identifier test is false). -/
def isWordBoundary (s : List Char) (start len : Nat) : Bool :=
  !identOpt (prevC s start) && !identOpt s[start + len]?

def attachOpt : Option Char → Bool
  | none => false
  | some c => isAttachPunct c

def atFunctionCS : List Char := "@Function".toList

def atEndFunctionCS : List Char := "@End Function".toList

def caretData : List Char := ['^', 'D', 'a', 't', 'a']

def caretClass : List Char := ['^', 'C', 'l', 'a', 's', 's']

def atIfCS : List Char := ['@', 'I', 'f']

def atElseCS : List Char := ['@', 'E', 'l', 's', 'e']

def atThenCS : List Char := ['@', 'T', 'h', 'e', 'n']

def atMapDot : List Char := ['@', 'M', 'a', 'p', '.']

/-- The regexp `/@Function\s+([A-Za-z_][A-Za-z0-9_]*)/` searched anywhere in
a suffix (first match): returns the matched substring and the captured
name. -/
def fnReFind : Nat → List Char → Option (List Char × List Char)
  | 0, _ => none
  | _ + 1, [] => none
  | fuel + 1, c :: cs =>
    let t := c :: cs
    if litPre atFunctionCS t then
      let u := t.drop 9
      let w := wsLen u
      if decide (0 < w) && identStartOpt ((u.drop w).head?) then
        some (t.take (9 + w + (takeIdent (u.drop w)).length), takeIdent (u.drop w))
      else fnReFind fuel cs
    else fnReFind fuel cs

/-- The sticky regexp `/@Map\.(Get|Set|Clear)@?/y` at the head of `t`:
length of the match when it succeeds. -/
def mapNameLen (t : List Char) : Option Nat :=
  if litPre atMapDot t then
    (if litPre ['G', 'e', 't'] (t.drop 5) then some 3
     else if litPre ['S', 'e', 't'] (t.drop 5) then some 3
     else if litPre ['C', 'l', 'e', 'a', 'r'] (t.drop 5) then some 5
     else none).elim none
      (fun g => some (5 + g + (if t[5 + g]? = some '@' then 1 else 0)))
  else none

/-- Source `getCallParenIndex`. -/
def getCallParenIndex (s : List Char) (startAt nameLen : Nat) : Option Nat :=
  let j0 := startAt + 1 + nameLen
  let j1 := if s[j0]? = some '@' then j0 + 1 else j0
  let j2 := j1 + wsLen (s.drop j1)
  if s[j2]? = some '(' then some j2 else none

/-- The regexp `/\s+If\b/` searched in a window (the `@Else If`
recognition). -/
def elseIfTail : List Char → Bool
  | [] => false
  | c :: cs =>
    (jsWs c && litPre ['I', 'f'] (cs.drop (wsLen cs)) &&
      !identOpt ((cs.drop (wsLen cs)).drop 2).head?) || elseIfTail cs

def testElseIfAt (s : List Char) (p : Nat) : Bool :=
  litPre atElseCS (s.drop p) && isWordBoundary s p 5 &&
    elseIfTail ((s.drop (p + 5)).take 15)

/-- The (unreachable) `^Data.*` / `^Class.*` extent walk of the source,
kept for fidelity: consumes `.ident`, `[...]` and `!` units. -/
def extentLoop : Nat → List Char → Nat → Nat
  | 0, _, j => j
  | fuel + 1, s, j =>
    if s[j]? = some '.' then extentLoop fuel s (j + 1 + identLen (s.drop (j + 1)))
    else if s[j]? = some '[' then
      extentLoop fuel s
        (let j2 := j + 1 + ((s.drop (j + 1)).takeWhile (fun x => !(x = ']'))).length
         if s[j2]? = some ']' then j2 + 1 else j2)
    else if s[j]? = some '!' then extentLoop fuel s (j + 1)
    else j

def bumpTop (st : ScanSt) : ScanSt :=
  { st with stack := ((st.stack.head?).elim st.stack
      (fun f => (f.1, f.2 + 1) :: st.stack.tail)) }

def decTop (st : ScanSt) : ScanSt :=
  { st with stack := ((st.stack.head?).elim st.stack
      (fun f => if f.2 = 1 then st.stack.tail else (f.1, f.2 - 1) :: st.stack.tail)) }

/-- The `@Something(...)` generic-call recognition of the loop body: `some`
when the branch fires (its spans, jump target and new state), `none` when
control falls through to the inner-`@` and depth-tracking code. -/
def callBranch (s : List Char) (line p : Nat) (st : ScanSt) :
    Option (List Span × Nat × ScanSt) :=
  if s[p]? = some '@' && identStartOpt s[p + 1]? then
    (let name := takeIdent (s.drop (p + 1))
     if name = ['M', 'a', 'p'] && s[p + 1 + 3]? = some '.' then none
     else if memN name AT_CONTROL_WORDS then none
     else if memN name WRITER_KEYWORDS then none
     else
       (getCallParenIndex s p name.length).elim none (fun parenIdx =>
         some ([(⟨line, p,
             (if s[p + (1 + name.length)]? = some '@' then 1 + name.length + 1
              else 1 + name.length),
             (if memN name BUILTIN_FUNCTIONS then TokKind.ablFunc
              else TokKind.ablFunctionCall)⟩ : Span)], parenIdx + 1,
           { st with stack :=
               ((if memN name BUILTIN_FUNCTIONS then TokKind.ablFunc
                 else TokKind.ablFunctionCall), 1) :: st.stack })))
  else none

/-- The end of the loop body when no branch `continue`d: the stack-based
inner `@` span and the parenthesis-depth tracking. -/
def stepTailDefault (s : List Char) (line p : Nat) (st : ScanSt) :
    List Span × Nat × ScanSt :=
  let d4 : List Span :=
    if decide (0 < st.stack.length) && s[p]? = some '@' then
      (st.stack.head?).elim []
        (fun tp =>
          if attachOpt s[p + 1]? || attachOpt (prevC s p) || identOpt (prevC s p) then
            [⟨line, p, 1, tp.1⟩]
          else [])
    else []
  let st1 :=
    if 0 < st.ifParenDepth then
      (if s[p]? = some '(' then { st with ifParenDepth := st.ifParenDepth + 1 }
       else if s[p]? = some ')' then
         (if st.ifParenDepth - 1 = 0 then { st with ifParenDepth := 0, ifMode := false }
          else { st with ifParenDepth := st.ifParenDepth - 1 })
       else st)
    else st
  let st2 :=
    if decide (0 < st1.stack.length) then
      (if s[p]? = some '(' then bumpTop st1
       else if s[p]? = some ')' then decTop st1
       else st1)
    else st1
  (d4, p + 1, st2)

/-- Branches of the loop body from the `@Something(...)` classification on:
generic call opening, stack-based inner `@`, and depth tracking. -/
def stepTail (s : List Char) (line p : Nat) (st : ScanSt) : List Span × Nat × ScanSt :=
  (callBranch s line p st).elim (stepTailDefault s line p st) (fun r => r)

/-- The `@Function` declaration handler of the loop body: the keyword span
and, when the name regexp matches somewhere in the suffix, the `ablReturn`
span placed by `fullMatched.indexOf(fn)`. -/
def atFnSpans (s : List Char) (line p : Nat) : List Span :=
  if litPre atFunctionCS (s.drop p) && isWordBoundary s p 9 then
    ⟨line, p, 9, .ablFunctionDecl⟩ ::
      ((fnReFind ((s.drop p).length + 1) (s.drop p)).elim []
        (fun m => [⟨line, p + (idxOfStr m.1 m.2).getD 0, m.2.length, .ablReturn⟩]))
  else []

/-- The `@End Function` handler of the loop body. -/
def endFnSpans (s : List Char) (line p : Nat) : List Span :=
  if litPre atEndFunctionCS (s.drop p) && isWordBoundary s p 13 then
    [⟨line, p, 13, .ablFunctionEnd⟩]
  else []

/-- The unconditional `+` / `=` handler of the loop body (no `continue`
after its push). -/
def d3spans (s : List Char) (line p : Nat) : List Span :=
  if s[p]? = some '+' || s[p]? = some '=' then
    (if (s[p]? = some '=' &&
        (prevC s p = some '>' || prevC s p = some '<' || prevC s p = some '!' ||
          prevC s p = some '=')) ||
        (s[p]? = some '=' && s[p + 1]? = some '=') then []
     else [⟨line, p, 1, .ablLogic⟩])
  else []

/-- The `@If` / `@Else If` header walk of the loop body: from the keyword,
skips whitespace, an optional `If`, an optional `@` and more whitespace;
when it lands on `(` it returns the continue index past it together with
the initial `ifParenDepth` 1, otherwise the plain advance and depth 0. -/
def ifHeaderScan (s : List Char) (p : Nat) : Nat × Nat :=
  let isIf := litPre atIfCS (s.drop p) && isWordBoundary s p 3
  let j1 := p + (if isIf then 3 else 5)
  let j2 := j1 + wsLen (s.drop j1)
  let j3 := if !isIf && litPre ['I', 'f'] (s.drop j2) then j2 + 2 else j2
  let j4 := j3 + wsLen (s.drop j3)
  let j5 := if s[j4]? = some '@' then j4 + 1 else j4
  let j6 := j5 + wsLen (s.drop j5)
  if s[j6]? = some '(' then (j6 + 1, 1) else (p + 1, 0)

/-- The whitespace-and-`@` walk after a `@Map.(Get|Set|Clear)@?` match:
`some` of the `(` index when the call form completes. -/
def mapJumpScan (s : List Char) (p ml : Nat) : Option Nat :=
  let j1 := p + ml + wsLen (s.drop (p + ml))
  let j2 := if s[j1]? = some '@' then j1 + 1 else j1
  if s[j2]? = some '(' then some j2 else none

/-- One iteration of the per-line scanner loop of `provideTokens`,
returning the spans it pushes, the next loop index, and the next state.
The branches appear in source order; `continue` corresponds to returning
directly. -/
def step (s : List Char) (line p : Nat) (st : ScanSt) : List Span × Nat × ScanSt :=
  let t := s.drop p
  let d1 : List Span := atFnSpans s line p
  let d2 : List Span := endFnSpans s line p
  if litPre caretData t then (d1 ++ d2 ++ [⟨line, p, 5, .ablData⟩], p + 1, st)
  else if litPre caretClass t then (d1 ++ d2 ++ [⟨line, p, 6, .ablData⟩], p + 1, st)
  else if st.inSingleQuote then (d1 ++ d2, p + 1, st)
  else
    let d3 : List Span := d3spans s line p
    if litPre caretData t || litPre caretClass t then
      (d1 ++ d2 ++ d3 ++
        [⟨line, p, extentLoop (s.length + 1) s (p + 1 + identLen (s.drop (p + 1))) - p,
          .ablFunc⟩],
        extentLoop (s.length + 1) s (p + 1 + identLen (s.drop (p + 1))), st)
    else
      if (litPre atIfCS t && isWordBoundary s p 3) || testElseIfAt s p then
        (d1 ++ d2 ++ d3, (ifHeaderScan s p).1,
          { st with ifMode := true, ifParenDepth := (ifHeaderScan s p).2 })
      else if st.ifMode && (litPre atThenCS t || litPre atElseCS t) &&
          isWordBoundary s p 5 &&
          !(litPre atElseCS t && elseIfTail ((s.drop (p + 5)).take 15)) then
        (d1 ++ d2 ++ d3, p + 1, { st with ifMode := false, ifParenDepth := 0 })
      else if (st.ifMode || decide (0 < st.ifParenDepth)) && litPre ['A', 'n', 'd'] t &&
          isWordBoundary s p 3 then
        (d1 ++ d2 ++ d3 ++ [⟨line, p, 3, .ablLogic⟩], p + 3, st)
      else if (st.ifMode || decide (0 < st.ifParenDepth)) && litPre ['O', 'r'] t &&
          isWordBoundary s p 2 then
        (d1 ++ d2 ++ d3 ++ [⟨line, p, 2, .ablLogic⟩], p + 2, st)
      else if (st.ifMode || decide (0 < st.ifParenDepth)) &&
          (litPre ['>', '='] t || litPre ['<', '='] t || litPre ['<', '>'] t) then
        (d1 ++ d2 ++ d3 ++ [⟨line, p, 2, .ablLogic⟩], p + 2, st)
      else if (st.ifMode || decide (0 < st.ifParenDepth)) &&
          (s[p]? = some '=' || s[p]? = some '>' || s[p]? = some '<') then
        (d1 ++ d2 ++ d3 ++ [⟨line, p, 1, .ablLogic⟩], p + 1, st)
      else
        (mapNameLen t).elim
          (let r := stepTail s line p st
           (d1 ++ d2 ++ d3 ++ r.1, r.2.1, r.2.2))
          (fun mlen =>
            (mapJumpScan s p mlen).elim
              (let r := stepTail s line p st
               (d1 ++ d2 ++ d3 ++ r.1, r.2.1, r.2.2))
              (fun j2 =>
                (d1 ++ d2 ++ d3 ++ [⟨line, p, mlen, .ablMap⟩], j2 + 1,
                  { st with stack := (TokKind.ablMap, 1) :: st.stack })))

/-- The per-line scan loop (fuel-based; the index strictly increases each
step, so `length + 1` fuel always suffices). -/
def scanGo (s : List Char) (line : Nat) : Nat → Nat → ScanSt → List Span
  | 0, _, _ => []
  | fuel + 1, p, st =>
    if p < s.length then
      (step s line p st).1 ++ scanGo s line fuel (step s line p st).2.1 (step s line p st).2.2
    else []

/-- The whole-line scan of `provideTokens` (loop over `i`). -/
def lineScan (s : List Char) (line : Nat) : List Span :=
  scanGo s line (s.length + 1) 0 ⟨[], false, 0, false⟩

/-- The return-variable pre-pass of `provideTokens`: inside a function,
`@Set name` / `@Get(name)` occurrences of the enclosing function's own
name (matched on the quote-masked line) are emitted as `ablReturn`. -/
def prePass (scanText : List Char) (cfn : Option (List Char)) (line : Nat) : List Span :=
  cfn.elim []
    (fun fnname =>
      (setScan (scanText.length + 1) scanText 0).filterMap
        (fun p => if p.2 = fnname then
            some (⟨line, p.1, fnname.length, .ablReturn⟩ : Span)
          else none) ++
        (getScan (scanText.length + 1) scanText 0).filterMap
          (fun p => if p.2 = fnname then
              some (⟨line, p.1, fnname.length, .ablReturn⟩ : Span)
            else none))

def ptGo : List (List Char) → Nat → List Int → List (Int × List Char) → List Span
  | [], _, _, _ => []
  | lt :: rest, line, ltf, fmap =>
    prePass (stripSingleQuoted2 lt)
      (if 0 ≤ ltf.getD line (-1) then
        ((fmap.find? (fun q => q.1 == ltf.getD line (-1))).map (fun q => q.2))
      else none) line ++
      lineScan lt line ++ ptGo rest (line + 1) ltf fmap

/-- Source `provideTokens`: per line, the return-variable pre-pass followed
by the character scan. -/
def provideTokens (lines : List (List Char)) : List Span :=
  ptGo lines 0 (buildFuncLineMap lines) (buildFuncNameMap lines)

example : provideTokens ["@Map.Get@(Key@)".toList] =
    [⟨0, 0, 9, .ablMap⟩, ⟨0, 13, 1, .ablMap⟩] := by decide
example : provideTokens ["@If a = b @Then".toList, "statement".toList,
    "@End If".toList] = [⟨0, 6, 1, .ablLogic⟩, ⟨0, 6, 1, .ablLogic⟩] := by decide
example : provideTokens ["@Function F".toList] =
    [⟨0, 0, 9, .ablFunctionDecl⟩, ⟨0, 1, 1, .ablReturn⟩] := by decide

/-- C4: on the line `@Map.Get@(Key@)` the classifier emits exactly the
MapCall span of length 9 over `@Map.Get@` and a 1-character MapCall span at
column 13, the `@` of `Key@` adjacent to the closing parenthesis, which is
classified with the enclosing frame's category. -/
theorem claim_C4_mapCallSpans :
    provideTokens ["@Map.Get@(Key@)".toList] =
      [⟨0, 0, 9, TokKind.ablMap⟩, ⟨0, 13, 1, TokKind.ablMap⟩] := by decide

/-- C2 counterexample: the spec's span non-overlap invariant fails.  On the
single-line document `@Function F`, the classifier emits the declaration
span covering columns 0..8 and, inside it, a 1-character `ablReturn` span
at column 1: `fullMatched.indexOf(fn)` finds the first `F` inside the
keyword `@Function` itself, so the two spans overlap (1 < 0 + 9). -/
theorem claim_C2_overlapCounterexample :
    provideTokens ["@Function F".toList] =
      [⟨0, 0, 9, TokKind.ablFunctionDecl⟩, ⟨0, 1, 1, TokKind.ablReturn⟩] ∧
      0 ≤ 1 ∧ 1 + 1 ≤ 0 + 9 := by decide

/-- C6 counterexample: on `@If a = b @Then` / `statement` / `@End If` the
classifier does not emit exactly one LogicOperator span: the `=` in
If-mode is pushed twice (once by the unconditional `+`/`=` handler, which
does not `continue`, and once by the If-mode operator handler), giving two
coincident `ablLogic` spans at column 6. -/
theorem claim_C6_counterexample :
    ¬ ((provideTokens ["@If a = b @Then".toList, "statement".toList,
        "@End If".toList]).filter
        (fun sp => sp.kind == TokKind.ablLogic)).length = 1 ∧
      (provideTokens ["@If a = b @Then".toList, "statement".toList,
        "@End If".toList]).filter (fun sp => sp.kind == TokKind.ablLogic) =
        [⟨0, 6, 1, TokKind.ablLogic⟩, ⟨0, 6, 1, TokKind.ablLogic⟩] := by decide

/-- C6 amended: on `@If a = b @Then` / `statement` / `@End If` the block
and variable validators produce zero diagnostics, and the classifier's
whole output is two coincident 1-character LogicOperator spans at the `=`
(line 0, column 6) — a correct location, but emitted twice. -/
theorem claim_C6_ifThenExample :
    provideIfDiagnostics ["@If a = b @Then".toList, "statement".toList,
        "@End If".toList] = [] ∧
      provideUndeclaredVarDiagnostics ["@If a = b @Then".toList,
        "statement".toList, "@End If".toList] = [] ∧
      provideTokens ["@If a = b @Then".toList, "statement".toList,
        "@End If".toList] =
        [⟨0, 6, 1, TokKind.ablLogic⟩, ⟨0, 6, 1, TokKind.ablLogic⟩] := by decide

theorem drop_getElem2 (s : List Char) (n i : Nat) : (s.drop n)[i]? = s[n + i]? := by
  rw [List.getElem?_drop]

theorem litPre_get (k : List Char) : ∀ t : List Char, litPre k t = true →
    ∀ (n : Nat) (c : Char), k[n]? = some c → t[n]? = some c := by
  induction k with
  | nil => intro t _ n c hc; simp at hc
  | cons a ks ih =>
    intro t h n c hc
    cases t with
    | nil => simp [litPre] at h
    | cons b ts =>
      rw [litPre] at h
      obtain ⟨h1, h2⟩ := Bool.and_eq_true_iff.mp h
      have h1 : a = b := by simpa using h1
      cases n with
      | zero =>
        simp only [List.getElem?_cons_zero, Option.some.injEq] at hc
        simp [List.getElem?_cons_zero, ← h1, hc]
      | succ m =>
        simp only [List.getElem?_cons_succ] at hc ⊢
        exact ih ts h2 m c hc

theorem wsLen_get : ∀ (u : List Char) (i : Nat), i < wsLen u →
    ∃ c : Char, u[i]? = some c ∧ jsWs c = true := by
  intro u
  induction u with
  | nil => intro i h; simp [wsLen] at h
  | cons a us ih =>
    intro i h
    rw [wsLen] at h
    by_cases ha : jsWs a
    · rw [if_pos ha] at h
      cases i with
      | zero => exact ⟨a, by simp, ha⟩
      | succ m =>
        obtain ⟨c, hc1, hc2⟩ := ih m (by omega)
        exact ⟨c, by simpa using hc1, hc2⟩
    · rw [if_neg ha] at h; omega

theorem identLen_get : ∀ (u : List Char) (i : Nat), i < identLen u →
    ∃ c : Char, u[i]? = some c ∧ isIdentChar c = true := by
  intro u
  induction u with
  | nil => intro i h; simp [identLen] at h
  | cons a us ih =>
    intro i h
    rw [identLen] at h
    by_cases ha : isIdentChar a
    · rw [if_pos ha] at h
      cases i with
      | zero => exact ⟨a, by simp, ha⟩
      | succ m =>
        obtain ⟨c, hc1, hc2⟩ := ih m (by omega)
        exact ⟨c, by simpa using hc1, hc2⟩
    · rw [if_neg ha] at h; omega

theorem jsWs_not_logic (c : Char) (h : jsWs c = true) : c ≠ '+' ∧ c ≠ '=' := by
  constructor <;> intro hc <;> subst hc <;> simp [jsWs] at h

theorem isIdentChar_not_logic (c : Char) (h : isIdentChar c = true) :
    c ≠ '+' ∧ c ≠ '=' := by
  constructor <;> intro hc <;> subst hc <;> simp [isIdentChar] at h

/-- The character-and-context condition under which the unconditional
`+`/`=` handler of the scanner pushes a 1-character `ablLogic` span at
`p`. -/
def logicTargetB (s : List Char) (p : Nat) : Bool :=
  (s[p]? = some '+' ||
    (s[p]? = some '=' && !(s[p + 1]? = some '='))) &&
    !(s[p]? = some '=' &&
      (prevC s p = some '>' || prevC s p = some '<' || prevC s p = some '!' ||
        prevC s p = some '='))

theorem logicTarget_char {s : List Char} {p : Nat} (h : logicTargetB s p = true) :
    s[p]? = some '+' ∨ s[p]? = some '=' := by
  simp only [logicTargetB, Bool.and_eq_true, Bool.or_eq_true, decide_eq_true_eq] at h
  tauto

theorem mem_of_get2 : ∀ (l : List Char) (n : Nat) (c : Char), l[n]? = some c → c ∈ l := by
  intro l
  induction l with
  | nil => intro n c h; simp at h
  | cons a xs ih =>
    intro n c h
    cases n with
    | zero => simp only [List.getElem?_cons_zero, Option.some.injEq] at h; simp [h]
    | succ m =>
      simp only [List.getElem?_cons_succ] at h
      exact List.mem_cons_of_mem a (ih m c h)

theorem litPre_at (k s : List Char) (a : Nat) (h : litPre k (s.drop a) = true)
    (n : Nat) (c : Char) (hn : k[n]? = some c) : s[a + n]? = some c := by
  have := litPre_get k _ h n c hn
  rwa [drop_getElem2] at this

theorem char_no_target (s : List Char) (p : Nat) (c : Char) (hc : s[p]? = some c)
    (h1 : ¬c = '+') (h2 : ¬c = '=') (hp : logicTargetB s p = true) : False := by
  rcases logicTarget_char hp with h | h
  · rw [hc] at h; exact h1 (by simpa using h)
  · rw [hc] at h; exact h2 (by simpa using h)

theorem eqPrev_no_target (s : List Char) (p : Nat) (hc : s[p]? = some '=')
    (hpv : prevC s p = some '>' ∨ prevC s p = some '<')
    (hp : logicTargetB s p = true) : False := by
  simp only [logicTargetB, Bool.and_eq_true, Bool.or_eq_true, decide_eq_true_eq,
    Bool.not_eq_true', Bool.and_eq_false_iff, Bool.or_eq_false_iff,
    decide_eq_false_iff_not] at hp
  rcases hp with ⟨-, h2⟩
  rcases h2 with h2 | ⟨h2, -⟩
  · exact absurd hc (by simpa using h2)
  · rcases hpv with h | h <;> simp [h] at h2

theorem ws_region_no_target (s : List Char) (a p : Nat) (h1 : a ≤ p)
    (h2 : p < a + wsLen (s.drop a)) (hp : logicTargetB s p = true) : False := by
  obtain ⟨c, hc, hw⟩ := wsLen_get (s.drop a) (p - a) (by omega)
  rw [drop_getElem2, show a + (p - a) = p from by omega] at hc
  obtain ⟨hn1, hn2⟩ := jsWs_not_logic c hw
  exact char_no_target s p c hc hn1 hn2 hp

theorem ident_region_no_target (s : List Char) (a p : Nat) (h1 : a ≤ p)
    (h2 : p < a + identLen (s.drop a)) (hp : logicTargetB s p = true) : False := by
  obtain ⟨c, hc, hw⟩ := identLen_get (s.drop a) (p - a) (by omega)
  rw [drop_getElem2, show a + (p - a) = p from by omega] at hc
  obtain ⟨hn1, hn2⟩ := isIdentChar_not_logic c hw
  exact char_no_target s p c hc hn1 hn2 hp

theorem lit_region_no_target (k : List Char) (hk : ∀ c ∈ k, ¬c = '+' ∧ ¬c = '=')
    (s : List Char) (a p : Nat) (hlit : litPre k (s.drop a) = true)
    (h1 : a ≤ p) (h2 : p < a + k.length) (hp : logicTargetB s p = true) : False := by
  have hi : p - a < k.length := by omega
  obtain ⟨c, hc⟩ : ∃ c, k[p - a]? = some c := by
    rcases hg : k[p - a]? with _ | c
    · rw [List.getElem?_eq_none_iff] at hg; omega
    · exact ⟨c, rfl⟩
  have ht := litPre_at k s a hlit (p - a) c hc
  rw [show a + (p - a) = p from by omega] at ht
  obtain ⟨hn1, hn2⟩ := hk c (mem_of_get2 k _ c hc)
  exact char_no_target s p c ht hn1 hn2 hp

theorem logicTarget_eq {s : List Char} {p : Nat} (h : logicTargetB s p = true)
    (he : s[p]? = some '=') :
    prevC s p ≠ some '>' ∧ prevC s p ≠ some '<' ∧ prevC s p ≠ some '!' ∧
      prevC s p ≠ some '=' ∧ s[p + 1]? ≠ some '=' := by
  simp only [logicTargetB, he, Bool.and_eq_true, Bool.or_eq_true, decide_eq_true_eq,
    Bool.not_eq_true', Bool.and_eq_false_iff, Bool.or_eq_false_iff,
    decide_eq_false_iff_not] at h
  refine ⟨?_, ?_, ?_, ?_, ?_⟩ <;> tauto

theorem d3spans_eq (s : List Char) (line p : Nat) (hp : logicTargetB s p = true) :
    d3spans s line p = [⟨line, p, 1, TokKind.ablLogic⟩] := by
  rcases logicTarget_char hp with h | h
  · simp [d3spans, h]
  · obtain ⟨h1, h2, h3, h4, h5⟩ := logicTarget_eq hp h
    simp [d3spans, h, h1, h2, h3, h4, h5]


theorem bumpTop_quote (st : ScanSt) : (bumpTop st).inSingleQuote = st.inSingleQuote := rfl

theorem decTop_quote (st : ScanSt) : (decTop st).inSingleQuote = st.inSingleQuote := rfl

theorem stepTailDefault_next (s : List Char) (line p : Nat) (st : ScanSt) :
    (stepTailDefault s line p st).2.1 = p + 1 := rfl

theorem stepTailDefault_quote (s : List Char) (line p : Nat) (st : ScanSt) :
    (stepTailDefault s line p st).2.2.inSingleQuote = st.inSingleQuote := by
  simp only [stepTailDefault]
  split_ifs <;> simp [bumpTop_quote, decTop_quote]
theorem getCallParenIndex_ge (s : List Char) (p n pi : Nat)
    (hg : getCallParenIndex s p n = some pi) : p + 1 ≤ pi := by
  simp only [getCallParenIndex] at hg
  split_ifs at hg <;>
    first
      | (have hx := Option.some.inj hg; omega)
      | exact absurd hg (by simp)

theorem callBranch_some (s : List Char) (line p : Nat) (st : ScanSt)
    (r : List Span × Nat × ScanSt) (hc : callBranch s line p st = some r) :
    ∃ pi, getCallParenIndex s p (takeIdent (s.drop (p + 1))).length = some pi ∧
      r.2.1 = pi + 1 ∧ r.2.2.inSingleQuote = st.inSingleQuote := by
  obtain ⟨o, ho⟩ : ∃ o, getCallParenIndex s p (takeIdent (s.drop (p + 1))).length = o :=
    ⟨_, rfl⟩
  simp only [callBranch, ho] at hc
  rcases o with _ | pi
  · split_ifs at hc <;> simp [Option.elim] at hc
  · split_ifs at hc <;> simp only [Option.elim, Option.some.injEq, reduceCtorEq] at hc
    all_goals exact ⟨pi, ho, by rw [← hc], by rw [← hc]⟩

theorem stepTail_quote (s : List Char) (line p : Nat) (st : ScanSt) :
    (stepTail s line p st).2.2.inSingleQuote = st.inSingleQuote := by
  rcases hc : callBranch s line p st with _ | r
  · simp [stepTail, hc, Option.elim, stepTailDefault_quote]
  · obtain ⟨pi, hg, hn, hqt⟩ := callBranch_some s line p st r hc
    simp [stepTail, hc, Option.elim, hqt]

theorem stepTail_advance (s : List Char) (line p : Nat) (st : ScanSt) :
    p < (stepTail s line p st).2.1 := by
  rcases hc : callBranch s line p st with _ | r
  · simp [stepTail, hc, Option.elim, stepTailDefault_next]
  · obtain ⟨pi, hg, hn, hqt⟩ := callBranch_some s line p st r hc
    have hb := getCallParenIndex_ge s p _ pi hg
    simp only [stepTail, hc, Option.elim, hn]
    omega

set_option maxHeartbeats 1000000 in
theorem step_quote (s : List Char) (line p : Nat) (st : ScanSt) :
    (step s line p st).2.2.inSingleQuote = st.inSingleQuote := by
  rcases hm : mapNameLen (s.drop p) with _ | ml
  · simp [step, hm, Option.elim,
      apply_ite (fun r : List Span × Nat × ScanSt => r.2.2.inSingleQuote),
      stepTail_quote]
  · rcases hj : mapJumpScan s p ml with _ | j2 <;>
      simp [step, hm, hj, Option.elim,
        apply_ite (fun r : List Span × Nat × ScanSt => r.2.2.inSingleQuote),
        stepTail_quote]

theorem ifHeaderScan_ge (s : List Char) (p : Nat) : p < (ifHeaderScan s p).1 := by
  simp only [ifHeaderScan]
  split_ifs <;> simp <;> omega

theorem mapJumpScan_ge (s : List Char) (p ml j2 : Nat)
    (hj : mapJumpScan s p ml = some j2) : p ≤ j2 := by
  simp only [mapJumpScan] at hj
  split_ifs at hj <;>
    first
      | (have hx := Option.some.inj hj; omega)
      | exact absurd hj (by simp)

theorem lt_ite_both {p a b : Nat} {c : Prop} [Decidable c] (ha : p < a) (hb : p < b) :
    p < if c then a else b := by
  split <;> assumption

theorem extentLoop_ge : ∀ (fuel : Nat) (s : List Char) (j : Nat), j ≤ extentLoop fuel s j := by
  intro fuel
  induction fuel with
  | zero => intro s j; simp [extentLoop]
  | succ n ih =>
    intro s j
    simp only [extentLoop]
    split_ifs <;>
      first
        | omega
        | (refine le_trans ?_ (ih s _)
           omega)

set_option maxHeartbeats 1000000 in
theorem step_advance (s : List Char) (line p : Nat) (st : ScanSt) :
    p < (step s line p st).2.1 := by
  have hst := stepTail_advance s line p st
  have hih := ifHeaderScan_ge s p
  have hext := extentLoop_ge (s.length + 1) s (p + 1 + identLen (s.drop (p + 1)))
  rcases hm : mapNameLen (s.drop p) with _ | ml
  · simp only [step, hm, Option.elim,
      apply_ite (fun r : List Span × Nat × ScanSt => r.2.1)]
    repeat
      first
        | omega
        | apply lt_ite_both
  · rcases hj : mapJumpScan s p ml with _ | j2
    · simp only [step, hm, hj, Option.elim,
        apply_ite (fun r : List Span × Nat × ScanSt => r.2.1)]
      repeat
        first
          | omega
          | apply lt_ite_both
    · have hj2 := mapJumpScan_ge s p ml j2 hj
      simp only [step, hm, hj, Option.elim,
        apply_ite (fun r : List Span × Nat × ScanSt => r.2.1)]
      repeat
        first
          | omega
          | apply lt_ite_both

theorem mem_ite_both {x : Span} {l1 l2 : List Span} {c : Prop} [Decidable c]
    (h1 : x ∈ l1) (h2 : x ∈ l2) : x ∈ if c then l1 else l2 := by
  split <;> assumption

set_option maxHeartbeats 1000000 in
theorem step_hit (s : List Char) (line p : Nat) (st : ScanSt)
    (hq : st.inSingleQuote = false) (hp : logicTargetB s p = true) :
    (⟨line, p, 1, TokKind.ablLogic⟩ : Span) ∈ (step s line p st).1 := by
  have hd3 := d3spans_eq s line p hp
  have hnd : ¬ litPre caretData (s.drop p) = true := by
    intro hcar
    have hcc := litPre_at caretData s p hcar 0 '^' (by decide)
    rw [Nat.add_zero] at hcc
    exact char_no_target s p '^' hcc (by decide) (by decide) hp
  have hnc : ¬ litPre caretClass (s.drop p) = true := by
    intro hcar
    have hcc := litPre_at caretClass s p hcar 0 '^' (by decide)
    rw [Nat.add_zero] at hcc
    exact char_no_target s p '^' hcc (by decide) (by decide) hp
  have hq2 : ¬ st.inSingleQuote = true := by simp [hq]
  rcases hm : mapNameLen (s.drop p) with _ | ml
  · simp only [step, hm, Option.elim,
      apply_ite (fun r : List Span × Nat × ScanSt => r.1), hd3]
    rw [if_neg hnd, if_neg hnc, if_neg hq2]
    repeat
      first
        | (simp only [List.mem_append, List.mem_singleton, List.mem_cons]
           tauto)
        | apply mem_ite_both
  · rcases hj : mapJumpScan s p ml with _ | j2 <;>
      simp only [step, hm, hj, Option.elim,
        apply_ite (fun r : List Span × Nat × ScanSt => r.1), hd3] <;>
      rw [if_neg hnd, if_neg hnc, if_neg hq2] <;>
      (repeat
        first
          | (simp only [List.mem_append, List.mem_singleton, List.mem_cons]
             tauto)
          | apply mem_ite_both)

theorem mapName_region_no_target (s : List Char) (q p ml : Nat)
    (hm : mapNameLen (s.drop q) = some ml) (h1 : q ≤ p) (h2 : p < q + ml)
    (hp : logicTargetB s p = true) : False := by
  simp only [mapNameLen] at hm
  by_cases hpre : litPre atMapDot (s.drop q) = true
  case neg => rw [if_neg hpre] at hm; cases hm
  rw [if_pos hpre] at hm
  have hL5 : (atMapDot : List Char).length = 5 := rfl
  by_cases hG : litPre ['G', 'e', 't'] ((s.drop q).drop 5) = true
  · rw [if_pos hG] at hm
    simp only [Option.elim] at hm
    have hGq : litPre ['G', 'e', 't'] (s.drop (q + 5)) = true := by
      rw [← List.drop_drop]; exact hG
    have hL3 : (['G', 'e', 't'] : List Char).length = 3 := rfl
    by_cases hat : (s.drop q)[5 + 3]? = some '@'
    · rw [if_pos hat] at hm
      have hml := Option.some.inj hm
      have hAt : s[q + (5 + 3)]? = some '@' := by rw [← drop_getElem2]; exact hat
      rcases Nat.lt_or_ge p (q + 5) with h | h
      · exact lit_region_no_target atMapDot (by decide) s q p hpre (by omega) (by omega) hp
      rcases Nat.lt_or_ge p (q + 8) with hb | hb
      · exact lit_region_no_target ['G', 'e', 't'] (by decide) s (q + 5) p hGq
          (by omega) (by omega) hp
      · exact char_no_target s p '@' (by rw [show p = q + (5 + 3) from by omega]; exact hAt)
          (by decide) (by decide) hp
    · rw [if_neg hat] at hm
      have hml := Option.some.inj hm
      rcases Nat.lt_or_ge p (q + 5) with h | h
      · exact lit_region_no_target atMapDot (by decide) s q p hpre (by omega) (by omega) hp
      · exact lit_region_no_target ['G', 'e', 't'] (by decide) s (q + 5) p hGq
          (by omega) (by omega) hp
  · rw [if_neg hG] at hm
    by_cases hS : litPre ['S', 'e', 't'] ((s.drop q).drop 5) = true
    · rw [if_pos hS] at hm
      simp only [Option.elim] at hm
      have hSq : litPre ['S', 'e', 't'] (s.drop (q + 5)) = true := by
        rw [← List.drop_drop]; exact hS
      have hL3 : (['S', 'e', 't'] : List Char).length = 3 := rfl
      by_cases hat : (s.drop q)[5 + 3]? = some '@'
      · rw [if_pos hat] at hm
        have hml := Option.some.inj hm
        have hAt : s[q + (5 + 3)]? = some '@' := by rw [← drop_getElem2]; exact hat
        rcases Nat.lt_or_ge p (q + 5) with h | h
        · exact lit_region_no_target atMapDot (by decide) s q p hpre (by omega) (by omega) hp
        rcases Nat.lt_or_ge p (q + 8) with hb | hb
        · exact lit_region_no_target ['S', 'e', 't'] (by decide) s (q + 5) p hSq
            (by omega) (by omega) hp
        · exact char_no_target s p '@'
            (by rw [show p = q + (5 + 3) from by omega]; exact hAt)
            (by decide) (by decide) hp
      · rw [if_neg hat] at hm
        have hml := Option.some.inj hm
        rcases Nat.lt_or_ge p (q + 5) with h | h
        · exact lit_region_no_target atMapDot (by decide) s q p hpre (by omega) (by omega) hp
        · exact lit_region_no_target ['S', 'e', 't'] (by decide) s (q + 5) p hSq
            (by omega) (by omega) hp
    · rw [if_neg hS] at hm
      by_cases hC : litPre ['C', 'l', 'e', 'a', 'r'] ((s.drop q).drop 5) = true
      · rw [if_pos hC] at hm
        simp only [Option.elim] at hm
        have hCq : litPre ['C', 'l', 'e', 'a', 'r'] (s.drop (q + 5)) = true := by
          rw [← List.drop_drop]; exact hC
        have hL3 : (['C', 'l', 'e', 'a', 'r'] : List Char).length = 5 := rfl
        by_cases hat : (s.drop q)[5 + 5]? = some '@'
        · rw [if_pos hat] at hm
          have hml := Option.some.inj hm
          have hAt : s[q + (5 + 5)]? = some '@' := by rw [← drop_getElem2]; exact hat
          rcases Nat.lt_or_ge p (q + 5) with h | h
          · exact lit_region_no_target atMapDot (by decide) s q p hpre (by omega) (by omega)
              hp
          rcases Nat.lt_or_ge p (q + 10) with hb | hb
          · exact lit_region_no_target ['C', 'l', 'e', 'a', 'r'] (by decide) s (q + 5) p hCq
              (by omega) (by omega) hp
          · exact char_no_target s p '@'
              (by rw [show p = q + (5 + 5) from by omega]; exact hAt)
              (by decide) (by decide) hp
        · rw [if_neg hat] at hm
          have hml := Option.some.inj hm
          rcases Nat.lt_or_ge p (q + 5) with h | h
          · exact lit_region_no_target atMapDot (by decide) s q p hpre (by omega) (by omega)
              hp
          · exact lit_region_no_target ['C', 'l', 'e', 'a', 'r'] (by decide) s (q + 5) p hCq
              (by omega) (by omega) hp
      · rw [if_neg hC] at hm
        simp [Option.elim] at hm

theorem ifChain_le (s : List Char) (q p : Nat) (hq : q < p) (hp : logicTargetB s p = true)
    (kl : Nat)
    (hk : (kl = 3 ∧ litPre atIfCS (s.drop q) = true) ∨
      (kl = 5 ∧ litPre atElseCS (s.drop q) = true))
    (j1 j2 j3 j4 j5 j6 : Nat)
    (hj1 : j1 = q + kl)
    (hj2 : j2 = j1 + wsLen (s.drop j1))
    (hj3 : j3 = j2 ∨ (j3 = j2 + 2 ∧ litPre ['I', 'f'] (s.drop j2) = true))
    (hj4 : j4 = j3 + wsLen (s.drop j3))
    (hj5 : j5 = j4 ∨ (j5 = j4 + 1 ∧ s[j4]? = some '@'))
    (hj6 : j6 = j5 + wsLen (s.drop j5))
    (hpar : s[j6]? = some '(') : j6 + 1 ≤ p := by
  have hL3 : (atIfCS : List Char).length = 3 := rfl
  have hL5 : (atElseCS : List Char).length = 5 := rfl
  have hL2 : (['I', 'f'] : List Char).length = 2 := rfl
  by_contra hcon
  rcases Nat.lt_or_ge p j1 with h | h
  · rcases hk with ⟨he, hlit⟩ | ⟨he, hlit⟩
    · exact lit_region_no_target atIfCS (by decide) s q p hlit (by omega) (by omega) hp
    · exact lit_region_no_target atElseCS (by decide) s q p hlit (by omega) (by omega) hp
  rcases Nat.lt_or_ge p j2 with h2 | h2
  · exact ws_region_no_target s j1 p (by omega) (by omega) hp
  rcases Nat.lt_or_ge p j3 with h3 | h3
  · rcases hj3 with hj3 | ⟨hj3, hIf2⟩
    · omega
    · exact lit_region_no_target ['I', 'f'] (by decide) s j2 p hIf2 (by omega) (by omega) hp
  rcases Nat.lt_or_ge p j4 with h4 | h4
  · exact ws_region_no_target s j3 p (by omega) (by omega) hp
  rcases Nat.lt_or_ge p j5 with h5 | h5
  · rcases hj5 with hj5 | ⟨hj5, hAt⟩
    · omega
    · exact char_no_target s p '@' (by rw [show p = j4 from by omega]; exact hAt)
        (by decide) (by decide) hp
  rcases Nat.lt_or_ge p j6 with h6 | h6
  · exact ws_region_no_target s j5 p (by omega) (by omega) hp
  · exact char_no_target s p '(' (by rw [show p = j6 from by omega]; exact hpar)
      (by decide) (by decide) hp

set_option maxHeartbeats 1000000 in
theorem ifHeaderScan_le (s : List Char) (q p : Nat) (hq : q < p)
    (hp : logicTargetB s p = true)
    (hcond : (litPre atIfCS (s.drop q) && isWordBoundary s q 3 || testElseIfAt s q) = true) :
    (ifHeaderScan s q).1 ≤ p := by
  by_cases hIf : (litPre atIfCS (s.drop q) && isWordBoundary s q 3) = true
  · have hlit : litPre atIfCS (s.drop q) = true := by
      rw [Bool.and_eq_true] at hIf; exact hIf.1
    simp only [ifHeaderScan]
    rw [if_pos hIf]
    simp [hIf]
    split_ifs with hA hP hP2 <;> dsimp only <;>
      first
        | omega
        | exact ifChain_le s q p hq hp 3 (Or.inl ⟨rfl, hlit⟩) _ _ _ _ _ _ rfl rfl
            (Or.inl rfl) rfl (Or.inr ⟨rfl, by assumption⟩) rfl (by assumption)
        | exact ifChain_le s q p hq hp 3 (Or.inl ⟨rfl, hlit⟩) _ _ _ _ _ _ rfl rfl
            (Or.inl rfl) rfl (Or.inl rfl) rfl (by assumption)
  · have hIfb : (litPre atIfCS (s.drop q) && isWordBoundary s q 3) = false := by
      cases hB : (litPre atIfCS (s.drop q) && isWordBoundary s q 3)
      · rfl
      · exact absurd hB hIf
    have hElse : litPre atElseCS (s.drop q) = true := by
      rw [Bool.or_eq_true] at hcond
      rcases hcond with h | h
      · exact absurd h hIf
      · rw [testElseIfAt, Bool.and_eq_true, Bool.and_eq_true] at h
        exact h.1.1
    simp only [ifHeaderScan]
    rw [hIfb]
    simp
    split_ifs with h3 h4 h5 h6 h7 h8 h9 <;> dsimp only <;>
      first
        | omega
        | exact ifChain_le s q p hq hp 5 (Or.inr ⟨rfl, hElse⟩) _ _ _ _ _ _ rfl rfl
            (Or.inr ⟨rfl, by assumption⟩) rfl (Or.inr ⟨rfl, by assumption⟩) rfl
            (by assumption)
        | exact ifChain_le s q p hq hp 5 (Or.inr ⟨rfl, hElse⟩) _ _ _ _ _ _ rfl rfl
            (Or.inr ⟨rfl, by assumption⟩) rfl (Or.inl rfl) rfl (by assumption)
        | exact ifChain_le s q p hq hp 5 (Or.inr ⟨rfl, hElse⟩) _ _ _ _ _ _ rfl rfl
            (Or.inl rfl) rfl (Or.inr ⟨rfl, by assumption⟩) rfl (by assumption)
        | exact ifChain_le s q p hq hp 5 (Or.inr ⟨rfl, hElse⟩) _ _ _ _ _ _ rfl rfl
            (Or.inl rfl) rfl (Or.inl rfl) rfl (by assumption)

theorem getCallParenIndex_le (s : List Char) (q p n pi : Nat) (hq : q < p)
    (hp : logicTargetB s p = true) (hn : n ≤ identLen (s.drop (q + 1)))
    (hg : getCallParenIndex s q n = some pi) : pi + 1 ≤ p := by
  simp only [getCallParenIndex] at hg
  by_cases hAt : s[q + 1 + n]? = some '@'
  · rw [if_pos hAt] at hg
    by_cases hP : s[q + 1 + n + 1 + wsLen (s.drop (q + 1 + n + 1))]? = some '('
    · rw [if_pos hP] at hg
      have hpi := Option.some.inj hg
      by_contra hcon
      rcases Nat.lt_or_ge p (q + 1 + n) with h | h
      · exact ident_region_no_target s (q + 1) p (by omega) (by omega) hp
      rcases Nat.lt_or_ge p (q + 1 + n + 1) with h2 | h2
      · exact char_no_target s p '@' (by rw [show p = q + 1 + n from by omega]; exact hAt)
          (by decide) (by decide) hp
      rcases Nat.lt_or_ge p (q + 1 + n + 1 + wsLen (s.drop (q + 1 + n + 1))) with h3 | h3
      · exact ws_region_no_target s (q + 1 + n + 1) p (by omega) (by omega) hp
      · exact char_no_target s p '('
          (by rw [show p = q + 1 + n + 1 + wsLen (s.drop (q + 1 + n + 1)) from by omega]
              exact hP)
          (by decide) (by decide) hp
    · rw [if_neg hP] at hg; cases hg
  · rw [if_neg hAt] at hg
    by_cases hP : s[q + 1 + n + wsLen (s.drop (q + 1 + n))]? = some '('
    · rw [if_pos hP] at hg
      have hpi := Option.some.inj hg
      by_contra hcon
      rcases Nat.lt_or_ge p (q + 1 + n) with h | h
      · exact ident_region_no_target s (q + 1) p (by omega) (by omega) hp
      rcases Nat.lt_or_ge p (q + 1 + n + wsLen (s.drop (q + 1 + n))) with h3 | h3
      · exact ws_region_no_target s (q + 1 + n) p (by omega) (by omega) hp
      · exact char_no_target s p '('
          (by rw [show p = q + 1 + n + wsLen (s.drop (q + 1 + n)) from by omega]
              exact hP)
          (by decide) (by decide) hp
    · rw [if_neg hP] at hg; cases hg

theorem mapJumpScan_le (s : List Char) (q p ml j2 : Nat) (hq : q < p)
    (hp : logicTargetB s p = true) (hm : mapNameLen (s.drop q) = some ml)
    (hj : mapJumpScan s q ml = some j2) : j2 + 1 ≤ p := by
  simp only [mapJumpScan] at hj
  by_cases hAt : s[q + ml + wsLen (s.drop (q + ml))]? = some '@'
  · rw [if_pos hAt] at hj
    by_cases hP : s[q + ml + wsLen (s.drop (q + ml)) + 1]? = some '('
    · rw [if_pos hP] at hj
      have hj2 := Option.some.inj hj
      by_contra hcon
      rcases Nat.lt_or_ge p (q + ml) with h | h
      · exact mapName_region_no_target s q p ml hm (by omega) (by omega) hp
      rcases Nat.lt_or_ge p (q + ml + wsLen (s.drop (q + ml))) with h2 | h2
      · exact ws_region_no_target s (q + ml) p (by omega) (by omega) hp
      rcases Nat.lt_or_ge p (q + ml + wsLen (s.drop (q + ml)) + 1) with h3 | h3
      · exact char_no_target s p '@'
          (by rw [show p = q + ml + wsLen (s.drop (q + ml)) from by omega]; exact hAt)
          (by decide) (by decide) hp
      · exact char_no_target s p '('
          (by rw [show p = q + ml + wsLen (s.drop (q + ml)) + 1 from by omega]; exact hP)
          (by decide) (by decide) hp
    · rw [if_neg hP] at hj; cases hj
  · rw [if_neg hAt] at hj
    by_cases hP : s[q + ml + wsLen (s.drop (q + ml))]? = some '('
    · rw [if_pos hP] at hj
      have hj2 := Option.some.inj hj
      by_contra hcon
      rcases Nat.lt_or_ge p (q + ml) with h | h
      · exact mapName_region_no_target s q p ml hm (by omega) (by omega) hp
      rcases Nat.lt_or_ge p (q + ml + wsLen (s.drop (q + ml))) with h2 | h2
      · exact ws_region_no_target s (q + ml) p (by omega) (by omega) hp
      · exact char_no_target s p '('
          (by rw [show p = q + ml + wsLen (s.drop (q + ml)) from by omega]; exact hP)
          (by decide) (by decide) hp
    · rw [if_neg hP] at hj; cases hj

theorem stepTail_next_le (s : List Char) (line q : Nat) (st : ScanSt) (p : Nat)
    (hq : q < p) (hp : logicTargetB s p = true) : (stepTail s line q st).2.1 ≤ p := by
  rcases hc : callBranch s line q st with _ | r
  · simp only [stepTail, hc, Option.elim, stepTailDefault_next]
    omega
  · obtain ⟨pi, hg, hn, hqt⟩ := callBranch_some s line q st r hc
    simp only [stepTail, hc, Option.elim, hn]
    have hlen : (takeIdent (s.drop (q + 1))).length ≤ identLen (s.drop (q + 1)) := by
      rw [takeIdent, List.length_take]
      omega
    exact getCallParenIndex_le s q p _ pi hq hp hlen hg

theorem ite_le_cases {p a b : Nat} {c : Prop} [Decidable c]
    (h1 : c → a ≤ p) (h2 : ¬c → b ≤ p) : (if c then a else b) ≤ p := by
  split_ifs with h
  · exact h1 h
  · exact h2 h

set_option maxHeartbeats 1000000 in
theorem step_next_le (s : List Char) (line q : Nat) (st : ScanSt) (p : Nat)
    (hq : q < p) (hp : logicTargetB s p = true) : (step s line q st).2.1 ≤ p := by
  have htail := stepTail_next_le s line q st p hq hp
  have hAnd : ∀ (h7 : litPre ['A', 'n', 'd'] (s.drop q) = true), q + 3 ≤ p := by
    intro h7
    by_contra hcon
    have hL : (['A', 'n', 'd'] : List Char).length = 3 := rfl
    exact lit_region_no_target ['A', 'n', 'd'] (by decide) s q p h7 (by omega) (by omega) hp
  have hOr : ∀ (h8 : litPre ['O', 'r'] (s.drop q) = true), q + 2 ≤ p := by
    intro h8
    by_contra hcon
    have hL : (['O', 'r'] : List Char).length = 2 := rfl
    exact lit_region_no_target ['O', 'r'] (by decide) s q p h8 (by omega) (by omega) hp
  have hTwo : ∀ (h9 : (litPre ['>', '='] (s.drop q) ||
      litPre ['<', '='] (s.drop q) || litPre ['<', '>'] (s.drop q)) = true), q + 2 ≤ p := by
    intro h9
    by_contra hcon
    rw [Bool.or_eq_true, Bool.or_eq_true] at h9
    have hpq : p = q + 1 := by omega
    rcases h9 with (h | h) | h
    · have hprev : s[q]? = some '>' := by
        have hh := litPre_at ['>', '='] s q h 0 '>' (by decide)
        rwa [Nat.add_zero] at hh
      have he : s[q + 1]? = some '=' := litPre_at ['>', '='] s q h 1 '=' (by decide)
      refine eqPrev_no_target s p (by rw [hpq]; exact he) ?_ hp
      left
      rw [hpq]
      simp only [prevC]
      rw [if_neg (by omega : ¬ q + 1 = 0)]
      simpa using hprev
    · have hprev : s[q]? = some '<' := by
        have hh := litPre_at ['<', '='] s q h 0 '<' (by decide)
        rwa [Nat.add_zero] at hh
      have he : s[q + 1]? = some '=' := litPre_at ['<', '='] s q h 1 '=' (by decide)
      refine eqPrev_no_target s p (by rw [hpq]; exact he) ?_ hp
      right
      rw [hpq]
      simp only [prevC]
      rw [if_neg (by omega : ¬ q + 1 = 0)]
      simpa using hprev
    · have he : s[q + 1]? = some '>' := litPre_at ['<', '>'] s q h 1 '>' (by decide)
      exact char_no_target s p '>' (by rw [hpq]; exact he) (by decide) (by decide) hp
  rcases hm : mapNameLen (s.drop q) with _ | ml
  · simp only [step, hm, Option.elim,
      apply_ite (fun r : List Span × Nat × ScanSt => r.2.1)]
    refine ite_le_cases (fun _ => by omega) (fun hc1 => ?_)
    refine ite_le_cases (fun _ => by omega) (fun hc2 => ?_)
    refine ite_le_cases (fun _ => by omega) (fun _ => ?_)
    refine ite_le_cases (fun hc4 => ?_) (fun _ => ?_)
    · exfalso
      rw [Bool.or_eq_true] at hc4
      rcases hc4 with h | h
      · exact hc1 h
      · exact hc2 h
    refine ite_le_cases (fun hc5 => ifHeaderScan_le s q p hq hp hc5) (fun _ => ?_)
    refine ite_le_cases (fun _ => by omega) (fun _ => ?_)
    refine ite_le_cases (fun hc7 => ?_) (fun _ => ?_)
    · rw [Bool.and_eq_true, Bool.and_eq_true] at hc7
      exact hAnd hc7.1.2
    refine ite_le_cases (fun hc8 => ?_) (fun _ => ?_)
    · rw [Bool.and_eq_true, Bool.and_eq_true] at hc8
      exact hOr hc8.1.2
    refine ite_le_cases (fun hc9 => ?_) (fun _ => ?_)
    · rw [Bool.and_eq_true] at hc9
      exact hTwo hc9.2
    refine ite_le_cases (fun _ => by omega) (fun _ => ?_)
    exact htail
  · rcases hj : mapJumpScan s q ml with _ | j2
    · simp only [step, hm, hj, Option.elim,
        apply_ite (fun r : List Span × Nat × ScanSt => r.2.1)]
      refine ite_le_cases (fun _ => by omega) (fun hc1 => ?_)
      refine ite_le_cases (fun _ => by omega) (fun hc2 => ?_)
      refine ite_le_cases (fun _ => by omega) (fun _ => ?_)
      refine ite_le_cases (fun hc4 => ?_) (fun _ => ?_)
      · exfalso
        rw [Bool.or_eq_true] at hc4
        rcases hc4 with h | h
        · exact hc1 h
        · exact hc2 h
      refine ite_le_cases (fun hc5 => ifHeaderScan_le s q p hq hp hc5) (fun _ => ?_)
      refine ite_le_cases (fun _ => by omega) (fun _ => ?_)
      refine ite_le_cases (fun hc7 => ?_) (fun _ => ?_)
      · rw [Bool.and_eq_true, Bool.and_eq_true] at hc7
        exact hAnd hc7.1.2
      refine ite_le_cases (fun hc8 => ?_) (fun _ => ?_)
      · rw [Bool.and_eq_true, Bool.and_eq_true] at hc8
        exact hOr hc8.1.2
      refine ite_le_cases (fun hc9 => ?_) (fun _ => ?_)
      · rw [Bool.and_eq_true] at hc9
        exact hTwo hc9.2
      refine ite_le_cases (fun _ => by omega) (fun _ => ?_)
      exact htail
    · simp only [step, hm, hj, Option.elim,
        apply_ite (fun r : List Span × Nat × ScanSt => r.2.1)]
      refine ite_le_cases (fun _ => by omega) (fun hc1 => ?_)
      refine ite_le_cases (fun _ => by omega) (fun hc2 => ?_)
      refine ite_le_cases (fun _ => by omega) (fun _ => ?_)
      refine ite_le_cases (fun hc4 => ?_) (fun _ => ?_)
      · exfalso
        rw [Bool.or_eq_true] at hc4
        rcases hc4 with h | h
        · exact hc1 h
        · exact hc2 h
      refine ite_le_cases (fun hc5 => ifHeaderScan_le s q p hq hp hc5) (fun _ => ?_)
      refine ite_le_cases (fun _ => by omega) (fun _ => ?_)
      refine ite_le_cases (fun hc7 => ?_) (fun _ => ?_)
      · rw [Bool.and_eq_true, Bool.and_eq_true] at hc7
        exact hAnd hc7.1.2
      refine ite_le_cases (fun hc8 => ?_) (fun _ => ?_)
      · rw [Bool.and_eq_true, Bool.and_eq_true] at hc8
        exact hOr hc8.1.2
      refine ite_le_cases (fun hc9 => ?_) (fun _ => ?_)
      · rw [Bool.and_eq_true] at hc9
        exact hTwo hc9.2
      refine ite_le_cases (fun _ => by omega) (fun _ => ?_)
      exact mapJumpScan_le s q p ml j2 hq hp hm hj

theorem scanGo_reach (s : List Char) (line : Nat) :
    ∀ (fuel q : Nat) (st : ScanSt), st.inSingleQuote = false →
      ∀ p : Nat, q ≤ p → logicTargetB s p = true → p < s.length → s.length - q < fuel →
        (⟨line, p, 1, TokKind.ablLogic⟩ : Span) ∈ scanGo s line fuel q st := by
  intro fuel
  induction fuel with
  | zero => intro q st hq p h1 h2 h3 h4; omega
  | succ n ih =>
    intro q st hq p h1 h2 h3 h4
    rw [scanGo, if_pos (by omega : q < s.length)]
    rcases Nat.eq_or_lt_of_le h1 with heq | hlt
    · subst heq
      exact List.mem_append_left _ (step_hit s line q st hq h2)
    · refine List.mem_append_right _ ?_
      refine ih (step s line q st).2.1 (step s line q st).2.2 ?_ p ?_ h2 h3 ?_
      · rw [step_quote]; exact hq
      · exact step_next_le s line q st p hlt h2
      · have := step_advance s line q st
        omega

theorem lineScan_reach (s : List Char) (line p : Nat) (hp : logicTargetB s p = true)
    (hlen : p < s.length) :
    (⟨line, p, 1, TokKind.ablLogic⟩ : Span) ∈ lineScan s line := by
  rw [lineScan]
  exact scanGo_reach s line (s.length + 1) 0 ⟨[], false, 0, false⟩ rfl p (Nat.zero_le p)
    hp hlen (by omega)

theorem ptGo_mem (x : Span) : ∀ (lines : List (List Char)) (base L : Nat)
    (ltf : List Int) (fmap : List (Int × List Char)) (sline : List Char),
    lines[L]? = some sline → x ∈ lineScan sline (base + L) →
      x ∈ ptGo lines base ltf fmap := by
  intro lines
  induction lines with
  | nil => intro base L ltf fmap sline h1 h2; simp at h1
  | cons lt rest ih =>
    intro base L ltf fmap sline h1 h2
    rw [ptGo]
    cases L with
    | zero =>
      simp only [List.getElem?_cons_zero, Option.some.injEq] at h1
      subst h1
      rw [Nat.add_zero] at h2
      exact List.mem_append_left _ (List.mem_append_right _ h2)
    | succ L2 =>
      simp only [List.getElem?_cons_succ] at h1
      refine List.mem_append_right _ ?_
      refine ih (base + 1) L2 ltf fmap sline h1 ?_
      rwa [show base + 1 + L2 = base + (L2 + 1) from by omega]

/-- C10: on every line of every document, the classifier emits a
1-character `ablLogic` span at every `+` character, and at every `=`
character whose previous character is none of `>`, `<`, `!`, `=` and whose
next character is not `=` — independent of any `@If` context, since the
`+`/`=` handler runs on every line (and the scanner's `inSingleQuote` flag
is never set, while no recognized jump ever skips such a character). -/
theorem claim_C10_logicSpans (lines : List (List Char)) (L : Nat) (s : List Char)
    (hs : lines[L]? = some s) (p : Nat)
    (hp : s[p]? = some '+' ∨
      (s[p]? = some '=' ∧ prevC s p ≠ some '>' ∧ prevC s p ≠ some '<' ∧
        prevC s p ≠ some '!' ∧ prevC s p ≠ some '=' ∧ s[p + 1]? ≠ some '=')) :
    (⟨L, p, 1, TokKind.ablLogic⟩ : Span) ∈ provideTokens lines := by
  have hb : logicTargetB s p = true := by
    simp only [logicTargetB, Bool.and_eq_true, Bool.or_eq_true, decide_eq_true_eq,
      Bool.not_eq_true', Bool.and_eq_false_iff, Bool.or_eq_false_iff,
      decide_eq_false_iff_not]
    rcases hp with h | ⟨h1, h2, h3, h4, h5, h6⟩
    · have hne : ¬ s[p]? = some '=' := by rw [h]; simp
      tauto
    · tauto
  have hlen : p < s.length := by
    by_contra hc
    have hnone : s[p]? = none := List.getElem?_eq_none_iff.mpr (by omega)
    rcases hp with h | ⟨h1, -⟩
    · rw [hnone] at h; cases h
    · rw [hnone] at h1; cases h1
  have hx := lineScan_reach s L p hb hlen
  rw [provideTokens]
  exact ptGo_mem _ lines 0 L (buildFuncLineMap lines) (buildFuncNameMap lines) s hs
    (by rw [show (0 : Nat) + L = L from by omega]; exact hx)

theorem claim_C10_witness :
    ("@Data(3) = d".toList)[9]? = some '=' ∧
      (⟨0, 9, 1, TokKind.ablLogic⟩ : Span) ∈ provideTokens ["@Data(3) = d".toList] :=
  ⟨by decide, claim_C10_logicSpans ["@Data(3) = d".toList] 0 _ rfl 9
    (Or.inr ⟨by decide, by decide, by decide, by decide, by decide, by decide⟩)⟩
